import Mathlib

/-!
libln: large decimal numbers.

A shallow embedding of `src/ln.c`.  A number is a buffer of decimal digits,
most significant first, a length, a capacity and a sign flag.  The embedding
keeps the live cells `integer[0 .. int_sz-1]` of the buffer as a list, so that
`int_sz` is the length of that list; cells beyond `int_sz` are never read by the
library (both readers `ln_at` and `ln_last_at` guard on `int_sz`).

Digits are C `char` values and the scalar locals are C `int`; they are embedded
as `Int`.  Under the digit range 0..9 every value the operators store lies in
-1..99, inside the range of `char`.  Indices of type `size_t` are `Nat`; the one
place where a `size_t` wraps (the pair index of `ln_sqrt`) is reduced modulo
`2^64` explicitly.

Loops of the form `while (1)` and the mutual recursion of `ln_add` and `ln_sub`
take a fuel argument and answer `none` when it is used up.
-/

/-- Modelled from the spec: the record `ln_t` is declared in `ln.h`, which is not
among the sources.  The fields are the ones `ln.c` reads and writes: the digit
buffer `integer` (here its first `int_sz` cells), the capacity `int_cap` and the
sign flag `negative` (the spec: "boolean, true = negative"). -/
structure ln_t where
  integer : List Int
  int_cap : Nat
  negative : Bool
deriving DecidableEq, Repr

/-- Modelled from the spec: the three result codes of `ln_cmp` are declared in
`ln.h`, which is not among the sources; the spec lists them as the three distinct
outcomes Less, Equal, Greater. -/
inductive ln_cmp_t where
  | ln_Lesser
  | ln_Equal
  | ln_Greater
deriving DecidableEq, Repr

open ln_cmp_t

/-- The field `int_sz`: number of live digits. -/
def ln_t.int_sz (_n : ln_t) : Nat := _n.integer.length

/-- Width of `size_t`. -/
def SIZE_MOD : Nat := 2 ^ 64

def ln_init : ln_t := { integer := [], int_cap := 0, negative := false }

def ln_clear (_n : ln_t) : ln_t := { _n with integer := [], negative := false }

def ln_free (_n : ln_t) : ln_t := ln_init

/-- The new value of `_dst` after `ln_copy(_src, _dst)`. -/
def ln_copy (_src : ln_t) : ln_t :=
  { integer := _src.integer, int_cap := _src.int_cap, negative := _src.negative }

def ln_negate (_n : ln_t) : ln_t := { _n with negative := !_n.negative }

/-- The new value of `_dst` after `ln_negate_copy(_src, _dst)`. -/
def ln_negate_copy (_src : ln_t) : ln_t := ln_negate (ln_copy _src)

def ln_max_sz (_a _b : ln_t) : Nat :=
  if _a.int_sz > _b.int_sz then _a.int_sz else _b.int_sz

def ln_at (_n : ln_t) (_i : Nat) : Int :=
  if _i ≥ _n.int_sz then -1 else _n.integer.getD _i 0

def ln_last_at (_n : ln_t) (_i : Nat) : Int :=
  if _i ≥ _n.int_sz then -1 else _n.integer.getD (_n.int_sz - _i - 1) 0

def ln_set (_n : ln_t) (_i : Nat) (_digit : Int) : ln_t :=
  { _n with integer := _n.integer.set _i _digit }

def ln_reserve (_n : ln_t) (_cap : Nat) : ln_t :=
  if _n.int_cap ≥ _cap then _n
  else
    let c := if _n.int_sz = 0 then _cap else _n.int_cap
    { _n with int_cap := c * 2 }

def ln_resize (_n : ln_t) (_cap : Nat) : ln_t :=
  let n := ln_reserve _n _cap
  { n with integer := n.integer ++ List.replicate (_cap - n.int_sz) (-1) }

def ln_append (_n : ln_t) (_digit : Int) : ln_t :=
  let n := ln_reserve _n (_n.int_sz + 1)
  { n with integer := n.integer ++ [_digit] }

def ln_prepend (_n : ln_t) (_digit : Int) : ln_t :=
  let n := ln_reserve _n (_n.int_sz + 1)
  { n with integer := _digit :: n.integer }

/-- The loop of `ln_append_str`: `idx` is `ptr - _str`, `_l` the end offset. -/
def ln_append_str_loop (_str : List Char) (_l : Nat) : Nat → Nat → ln_t → ln_t
  | 0, _, n => n
  | k + 1, idx, n =>
    if idx < _l then
      ln_append_str_loop _str _l k (idx + 1)
        (ln_append n ((((_str.getD idx (Char.ofNat 0)).toNat : Nat) : Int) - 48))
    else n

/-- A C string is the list of its characters before the terminating NUL. -/
def ln_append_str (_n : ln_t) (_str : List Char) (_l : Nat) : ln_t :=
  let neg : Nat := if _str.head? = some '-' then 1 else 0
  let l := if _l ≠ 0 then _l - neg else _str.length
  let n := ln_reserve _n (_n.int_sz + l)
  ln_append_str_loop _str l l neg n

/-- The text `sprintf("%d")` writes: decimal digits, after a minus sign for a
negative value. -/
def sprintf_d (_val : Int) : List Char :=
  if _val < 0 then '-' :: Nat.toDigits 10 _val.natAbs else Nat.toDigits 10 _val.natAbs

def ln_append_int (_n : ln_t) (_val : Int) : ln_t :=
  let val := if _val < 0 then -_val else _val
  let n := if _val < 0 then { _n with negative := true } else _n
  ln_append_str n (sprintf_d val) 0

/-- The counting loop of `ln_trim`: the number of leading zero digits. -/
def ln_trim_count : List Int → Nat
  | [] => 0
  | d :: ds => if d ≠ 0 then 0 else ln_trim_count ds + 1

def ln_trim (_n : ln_t) : ln_t :=
  let num_z := ln_trim_count _n.integer
  if num_z = 0 then _n else { _n with integer := _n.integer.drop num_z }

def ln_is_zero (_n : ln_t) : Bool :=
  (_n.int_sz == 0) || (_n.int_sz == 1 && _n.integer.getD 0 0 == 0)

/-- The `while (1)` loop of `ln_cmp`. -/
def ln_cmp_loop (_a _b : ln_t) : Nat → Nat → Option ln_cmp_t
  | 0, _ => none
  | fuel + 1, it =>
    let va := ln_at _a it
    let vb := ln_at _b it
    if va < 0 ∧ vb < 0 then some ln_Equal
    else if va < vb then some ln_Lesser
    else if va > vb then some ln_Greater
    else ln_cmp_loop _a _b fuel (it + 1)

def ln_cmp (fuel : Nat) (_a _b : ln_t) : Option ln_cmp_t :=
  if _a.negative ∧ ¬ _b.negative then some ln_Lesser
  else if ¬ _a.negative ∧ _b.negative then some ln_Greater
  else if _a.int_sz > _b.int_sz then some ln_Greater
  else if _a.int_sz < _b.int_sz then some ln_Lesser
  else ln_cmp_loop _a _b fuel 0

/-- The text built by `ln_c_str`. -/
def ln_c_str (_n : ln_t) : List Char :=
  (if _n.negative then ['-'] else []) ++
    _n.integer.map (fun d => Char.ofNat ((d + 48) % 256).toNat)

/-- The loop `while (vt >= base) { carry++; vt -= base; }` of `ln_add`;
returns `(vt, carry)`. -/
def ln_add_carry : Nat → Int → Int → Option (Int × Int)
  | 0, _, _ => none
  | fuel + 1, vt, carry =>
    if vt ≥ 10 then ln_add_carry fuel (vt - 10) (carry + 1) else some (vt, carry)

/-- The `while (1)` loop of `ln_add`. -/
def ln_add_loop (_a _b : ln_t) : Nat → ln_t → Nat → Int → Option ln_t
  | 0, _, _, _ => none
  | fuel + 1, out, it, carry =>
    let va := ln_last_at _a it
    let vb := ln_last_at _b it
    if va < 0 ∧ vb < 0 then
      some (if carry ≠ 0 then ln_prepend out carry else out)
    else
      let va := if va < 0 then 0 else va
      let vb := if vb < 0 then 0 else vb
      let vt := va + vb + carry
      match ln_add_carry fuel vt 0 with
      | none => none
      | some (vt, carry) => ln_add_loop _a _b fuel (ln_prepend out vt) (it + 1) carry

/-- The loop `while (va < vb) { va += base; carry++; }` of `ln_sub`;
returns `(va, carry)`. -/
def ln_sub_borrow : Nat → Int → Int → Int → Option (Int × Int)
  | 0, _, _, _ => none
  | fuel + 1, va, vb, carry =>
    if va < vb then ln_sub_borrow fuel (va + 10) vb (carry + 1) else some (va, carry)

/-- The `while (1)` loop of `ln_sub`. -/
def ln_sub_loop (_a _b : ln_t) : Nat → ln_t → Nat → Int → Option ln_t
  | 0, _, _, _ => none
  | fuel + 1, out, it, carry =>
    let va := ln_last_at _a it
    let vb := ln_last_at _b it
    if va < 0 ∧ vb < 0 then some out
    else
      let va := if va < 0 then 0 else va
      let vb := if vb < 0 then 0 else vb
      let vb := vb + carry
      match ln_sub_borrow fuel va vb 0 with
      | none => none
      | some (va, carry) => ln_sub_loop _a _b fuel (ln_prepend out (va - vb)) (it + 1) carry

mutual

/-- The value of `_out` after `ln_add(_out, _a, _b)`. -/
def ln_add : Nat → ln_t → ln_t → ln_t → Option ln_t
  | 0, _, _, _ => none
  | fuel + 1, _out, _a, _b =>
    if _a.negative ∧ ¬ _b.negative then
      (ln_sub fuel _out (ln_negate_copy _a) _b).map ln_negate
    else if ¬ _a.negative ∧ _b.negative then
      ln_sub fuel _out _a (ln_negate_copy _b)
    else
      (ln_add_loop _a _b fuel (ln_reserve _out (ln_max_sz _a _b)) 0 0).map
        (fun out => if _a.negative ∧ _b.negative then ln_negate out else out)

/-- The value of `_out` after `ln_sub(_out, _a, _b)`. -/
def ln_sub : Nat → ln_t → ln_t → ln_t → Option ln_t
  | 0, _, _, _ => none
  | fuel + 1, _out, _a, _b =>
    if ¬ _a.negative ∧ _b.negative then
      ln_add fuel _out _a (ln_negate_copy _b)
    else
      match ln_cmp fuel _a _b with
      | none => none
      | some c =>
        if c = ln_Lesser then
          (ln_sub fuel _out _b _a).map ln_negate
        else
          (ln_sub_loop _a _b fuel _out 0 0).map
            (fun out =>
              let out := ln_trim out
              if _a.negative ∧ _b.negative then ln_negate out else out)

end

def ln_inc (fuel : Nat) (_n : ln_t) : Option ln_t :=
  let _1 := ln_append ln_init 1
  let cpy := ln_copy _n
  ln_add fuel (ln_clear _n) cpy _1

def ln_dec (fuel : Nat) (_n : ln_t) : Option ln_t :=
  let cpy := ln_copy _n
  let _1 := ln_append ln_init 1
  ln_sub fuel (ln_clear _n) cpy _1

/-- The loop `for (a_i = alen-1; a_i >= 0; a_i--)` of `ln_mul`; the first
argument is `a_i + 1`.  Returns `_out`, `carry` and `vb`. -/
def ln_mul_inner (_a : ln_t) (b_i : Nat) : Nat → ln_t → Int → Int → ln_t × Int × Int
  | 0, out, carry, vb => (out, carry, vb)
  | a_i + 1, out, carry, vb =>
    let va := ln_at _a a_i
    let va := if va < 0 then 0 else va
    let vb := if vb < 0 then 0 else vb
    let num_cur := ln_at out (a_i + b_i)
    let num_cur := if num_cur < 0 then 0 else num_cur
    let num_new := carry + va * vb
    let newval := num_cur + num_new
    let carry := Int.tdiv newval 10
    let out := ln_set out (a_i + b_i) (newval - carry * 10)
    ln_mul_inner _a b_i a_i out carry vb

/-- The loop `for (b_i = blen-1; b_i >= 0; b_i--)` of `ln_mul`; the first
argument is `b_i + 1`. -/
def ln_mul_outer (_a _b : ln_t) : Nat → ln_t → ln_t
  | 0, out => out
  | b_i + 1, out =>
    let vb := ln_at _b b_i
    let r := ln_mul_inner _a b_i _a.int_sz out 0 vb
    let out := r.1
    let carry := r.2.1
    let num_cur := ln_at out (0 + b_i)
    let num_cur := if num_cur < 0 then 0 else num_cur
    let num_new := num_cur + carry * 10
    let out :=
      if num_new ≥ 10 then
        let doz := Int.tdiv num_new 10
        let dec := num_new - (Int.tdiv num_new 10 * 10)
        let out := ln_set out b_i dec
        if b_i = 0 then ln_prepend out doz else ln_set out (b_i - 1) doz
      else ln_set out b_i (num_cur + carry * 10)
    ln_mul_outer _a _b b_i out

/-- The value of `_out` after `ln_mul(_out, _a, _b)`. -/
def ln_mul (_out _a _b : ln_t) : ln_t :=
  if ln_is_zero _a ∨ ln_is_zero _b then _out
  else
    let out := ln_resize _out (_a.int_sz + _b.int_sz - 1)
    let out := ln_mul_outer _a _b _b.int_sz out
    if _b.negative ≠ _a.negative ∧ (_b.negative ∨ _a.negative) then ln_negate out else out

/-- The value of `_out` after `ln_mul_int(_out, _a, _b)`; the routine starts with
`ln_init(_out)`, so the product is built in a fresh number. -/
def ln_mul_int (_out _a : ln_t) (_b : Int) : ln_t :=
  let nint := ln_append_int ln_init _b
  ln_mul (ln_init) _a nint

/-- The value of `_out` after `ln_mul_str(_out, _a, _str, _len)`. -/
def ln_mul_str (_out _a : ln_t) (_str : List Char) (_len : Nat) : ln_t :=
  let nint := ln_append_str ln_init _str _len
  ln_mul _out _a nint

/-- State of the long division: the outputs and the locals of `ln_div`. -/
structure ln_div_state where
  q : Option ln_t
  current : ln_t
  div : ln_t
  tmp : ln_t
  tmp2 : ln_t
  cur_idx_in_n : Nat
deriving DecidableEq, Repr

/-- The loop `while (ln_cmp(&current, _d) == ln_Lesser)` of `ln_div`; returns
`current`, `cur_idx_in_n`, `it` and `stop`. -/
def ln_div_bring (_n _d : ln_t) : Nat → ln_t → Nat → Nat → Option (ln_t × Nat × Nat × Bool)
  | 0, _, _, _ => none
  | fuel + 1, current, cur_idx_in_n, it =>
    match ln_cmp fuel current _d with
    | none => none
    | some c =>
      if c = ln_Lesser then
        if _n.int_sz = cur_idx_in_n then some (current, cur_idx_in_n, it, true)
        else
          ln_div_bring _n _d fuel (ln_append current (ln_at _n cur_idx_in_n))
            (cur_idx_in_n + 1) (it + 1)
      else some (current, cur_idx_in_n, it, false)

/-- The inner `while (1)` of `ln_div` searching the quotient digit; returns
`div` and `tmp`. -/
def ln_div_search (_d current : ln_t) : Nat → ln_t → ln_t → Option (ln_t × ln_t)
  | 0, _, _ => none
  | fuel + 1, div, tmp =>
    let tmp := ln_mul (ln_clear tmp) div _d
    match ln_cmp fuel tmp current with
    | none => none
    | some c =>
      if c = ln_Greater then some (div, tmp)
      else
        match ln_inc fuel div with
        | none => none
        | some div => ln_div_search _d current fuel div tmp

/-- The loop `while (cur_idx_in_n < _n->int_sz)` of `ln_div`. -/
def ln_div_loop (_n _d : ln_t) : Nat → ln_div_state → Option ln_div_state
  | 0, _ => none
  | fuel + 1, s =>
    if ¬ (s.cur_idx_in_n < _n.int_sz) then some s
    else
      match ln_div_bring _n _d fuel s.current s.cur_idx_in_n 0 with
      | none => none
      | some (current, cur_idx_in_n, it, stop) =>
        let q := s.q.map (fun q => if it > 1 ∧ q.int_sz > 0 then ln_append q 0 else q)
        let div := ln_append (ln_clear s.div) 1
        match ln_div_search _d current fuel div s.tmp with
        | none => none
        | some (div, tmp) =>
          match ln_dec fuel div with
          | none => none
          | some div =>
            let div := if div.int_sz = 0 then ln_append div 0 else div
            let q := q.map (fun q => ln_append q (ln_at div 0))
            let tmp := ln_mul (ln_clear tmp) div _d
            match ln_sub fuel (ln_clear s.tmp2) current tmp with
            | none => none
            | some tmp2 =>
              let s1 : ln_div_state :=
                { q := q, current := ln_copy tmp2, div := div, tmp := tmp, tmp2 := tmp2,
                  cur_idx_in_n := cur_idx_in_n }
              if stop then some s1 else ln_div_loop _n _d fuel s1

/-- The values of `_q` and `_r` after `ln_div(_q, _n, _d, _r)`; `none` for an
output stands for the NULL pointer. -/
def ln_div (fuel : Nat) (_q : Option ln_t) (_n _d : ln_t) (_r : Option ln_t) :
    Option (Option ln_t × Option ln_t) :=
  if ln_is_zero _d then some (_q, _r)
  else
    match ln_div_loop _n _d fuel
        { q := _q, current := ln_init, div := ln_init, tmp := ln_init, tmp2 := ln_init,
          cur_idx_in_n := 0 } with
    | none => none
    | some s =>
      let r := _r.map (fun _ =>
        let r := ln_copy s.current
        if r.int_sz = 0 then ln_append r 0 else r)
      some (s.q, r)

/-- The value of `_out` after `ln_mod(_out, _a, _b)`. -/
def ln_mod (fuel : Nat) (_out _a _b : ln_t) : Option ln_t :=
  match ln_div fuel none _a _b (some _out) with
  | some (_, some r) => some r
  | _ => none

/-- The value of `_out` after `x20ppx(_out, _p, _x)`. -/
def x20ppx (_out _p : ln_t) (_x : Int) : ln_t :=
  let out := ln_mul_str _out _p ['2'] 1
  let out := ln_append out _x
  let tmp := ln_copy out
  ln_mul_int out tmp _x

/-- The inner `while (1)` of `ln_sqrt` searching the next root digit; returns
`x` and `tmp`. -/
def ln_sqrt_search (part_of_root remainder : ln_t) : Nat → ln_t → Int → Option (Int × ln_t)
  | 0, _, _ => none
  | fuel + 1, tmp, x =>
    let tmp := x20ppx (ln_clear tmp) part_of_root x
    match ln_cmp fuel tmp remainder with
    | none => none
    | some cmp =>
      if cmp = ln_Greater then some (x - 1, tmp)
      else if cmp = ln_Equal then some (x, tmp)
      else ln_sqrt_search part_of_root remainder fuel tmp (x + 1)

/-- The locals of `ln_sqrt` that live across iterations. -/
structure ln_sqrt_state where
  remainder : ln_t
  part_of_root : ln_t
  tmp : ln_t
  tmp2 : ln_t
deriving DecidableEq, Repr

/-- The outer `while (1)` of `ln_sqrt`; `it` is a `size_t`. -/
def ln_sqrt_loop (_n : ln_t) : Nat → Nat → ln_sqrt_state → Option ln_sqrt_state
  | 0, _, _ => none
  | fuel + 1, it, s =>
    let va := ln_last_at _n it
    let vb := ln_last_at _n ((it + SIZE_MOD - 1) % SIZE_MOD)
    if va < 0 ∧ vb < 0 then some s
    else
      let va := if va < 0 then 0 else va
      let vb := if vb < 0 then 0 else vb
      let remainder := ln_trim (ln_append (ln_append s.remainder va) vb)
      match ln_sqrt_search s.part_of_root remainder fuel s.tmp 1 with
      | none => none
      | some (x, tmp) =>
        let tmp := x20ppx (ln_clear tmp) s.part_of_root x
        match ln_sub fuel (ln_clear s.tmp2) remainder tmp with
        | none => none
        | some tmp2 =>
          let remainder := ln_copy tmp2
          let part_of_root := ln_append_int (ln_trim s.part_of_root) x
          ln_sqrt_loop _n fuel ((it + SIZE_MOD - 2) % SIZE_MOD)
            { remainder := remainder, part_of_root := part_of_root, tmp := tmp, tmp2 := tmp2 }

/-- The value of `_out` after `ln_sqrt(_out, _n)`. -/
def ln_sqrt (fuel : Nat) (_n : ln_t) : Option ln_t :=
  let part_of_root := ln_append ln_init 0
  let sz2 : Int := ((_n.int_sz / 2 : Nat) : Int)
  let rem := _n.int_sz % 2
  let sz2 := if rem ≠ 0 then sz2 + 1 else sz2
  let it := ((sz2 * 2 - 1) % (SIZE_MOD : Int)).toNat
  match ln_sqrt_loop _n fuel it
      { remainder := ln_init, part_of_root := part_of_root, tmp := ln_init, tmp2 := ln_init } with
  | none => none
  | some s => some (ln_copy s.part_of_root)

mutual

/-- The function `ln_add` with a counter: the result of `ln_add` paired with the
number of nested delegating calls (to `ln_sub` or `ln_add`) made below this call
before a digit loop is reached. -/
def ln_add_depth : Nat → ln_t → ln_t → ln_t → Option (ln_t × Nat)
  | 0, _, _, _ => none
  | fuel + 1, _out, _a, _b =>
    if _a.negative ∧ ¬ _b.negative then
      (ln_sub_depth fuel _out (ln_negate_copy _a) _b).map (fun p => (ln_negate p.1, p.2 + 1))
    else if ¬ _a.negative ∧ _b.negative then
      (ln_sub_depth fuel _out _a (ln_negate_copy _b)).map (fun p => (p.1, p.2 + 1))
    else
      (ln_add_loop _a _b fuel (ln_reserve _out (ln_max_sz _a _b)) 0 0).map
        (fun out => (if _a.negative ∧ _b.negative then ln_negate out else out, 0))

/-- The function `ln_sub` with the same counter. -/
def ln_sub_depth : Nat → ln_t → ln_t → ln_t → Option (ln_t × Nat)
  | 0, _, _, _ => none
  | fuel + 1, _out, _a, _b =>
    if ¬ _a.negative ∧ _b.negative then
      (ln_add_depth fuel _out _a (ln_negate_copy _b)).map (fun p => (p.1, p.2 + 1))
    else
      match ln_cmp fuel _a _b with
      | none => none
      | some c =>
        if c = ln_Lesser then
          (ln_sub_depth fuel _out _b _a).map (fun p => (ln_negate p.1, p.2 + 1))
        else
          (ln_sub_loop _a _b fuel _out 0 0).map
            (fun out =>
              let out := ln_trim out
              (if _a.negative ∧ _b.negative then ln_negate out else out, 0))

end

/-! ## Specification vocabulary -/

/-- Value of a digit sequence written most significant digit first. -/
def ln_digits_value : List Int → Int
  | [] => 0
  | d :: ds => d * 10 ^ ds.length + ln_digits_value ds

/-- The magnitude a number denotes. -/
def ln_magnitude (_n : ln_t) : Int := ln_digits_value _n.integer

/-- The signed integer a number denotes. -/
def ln_value (_n : ln_t) : Int :=
  if _n.negative then - ln_magnitude _n else ln_magnitude _n

/-- Every stored digit is in 0..9. -/
def ln_digits_ok (_n : ln_t) : Prop := ∀ d ∈ _n.integer, 0 ≤ d ∧ d ≤ 9

/-- No leading zero digit; zero is the empty sequence or the single digit 0. -/
def ln_no_leading_zero (_n : ln_t) : Prop := _n.integer.head? = some 0 → _n.integer = [0]

/-- Digits in 0..9 and no leading zero. -/
def ln_wf (_n : ln_t) : Prop := ln_digits_ok _n ∧ ln_no_leading_zero _n

/-- Digits in 0..9 and a non-zero leading digit; zero is the empty sequence. -/
def ln_canonical (_n : ln_t) : Prop := ln_digits_ok _n ∧ _n.integer.head? ≠ some 0

/-- An empty output number: no digit, sign flag clear (after `ln_init` or `ln_clear`). -/
def ln_is_empty (_n : ln_t) : Prop := _n.integer = [] ∧ _n.negative = false

instance ln_digits_ok_decidable (_n : ln_t) : Decidable (ln_digits_ok _n) := by
  unfold ln_digits_ok; infer_instance

instance ln_no_leading_zero_decidable (_n : ln_t) : Decidable (ln_no_leading_zero _n) := by
  unfold ln_no_leading_zero; infer_instance

instance ln_wf_decidable (_n : ln_t) : Decidable (ln_wf _n) := by
  unfold ln_wf; infer_instance

instance ln_is_empty_decidable (_n : ln_t) : Decidable (ln_is_empty _n) := by
  unfold ln_is_empty; infer_instance

/-- Digit-wise comparison of two digit sequences from the most significant end,
the order the loop of `ln_cmp` walks through. -/
def ln_lex : List Int → List Int → ln_cmp_t
  | x :: xs, y :: ys => if x < y then ln_Lesser else if x > y then ln_Greater else ln_lex xs ys
  | _, _ => ln_Equal

/-- The non-negative number with the given digits. -/
def ln_of_digits (ds : List Int) : ln_t := { integer := ds, int_cap := ds.length, negative := false }

/-- The negative number with the given digits. -/
def ln_of_digits_neg (ds : List Int) : ln_t := { integer := ds, int_cap := ds.length, negative := true }

/-- The result code with the operands exchanged. -/
def ln_cmp_swap : ln_cmp_t → ln_cmp_t
  | ln_Lesser => ln_Greater
  | ln_Equal => ln_Equal
  | ln_Greater => ln_Lesser

/-- What `ln_cmp` answers once its loop has run: sign test, length test, then
the digit-wise walk. -/
def ln_cmp_spec (_a _b : ln_t) : ln_cmp_t :=
  if _a.negative ∧ ¬ _b.negative then ln_Lesser
  else if ¬ _a.negative ∧ _b.negative then ln_Greater
  else if _a.integer.length > _b.integer.length then ln_Greater
  else if _a.integer.length < _b.integer.length then ln_Lesser
  else ln_lex _a.integer _b.integer

/-- Value of the digits above the `it` least significant ones. -/
def ln_hi (l : List Int) (it : Nat) : Int := ln_digits_value (l.take (l.length - it))

/-- The digit `it` places from the least significant end, an absent digit counting as 0. -/
def ln_dig (l : List Int) (it : Nat) : Int :=
  if it < l.length then l.getD (l.length - it - 1) 0 else 0

/-- A cell of the product buffer read the way `ln_mul` reads it: a negative
(unset) cell counts as 0. -/
def ln_clamp (d : Int) : Int := if d < 0 then 0 else d

/-- Value of a buffer whose unset cells count as 0. -/
def ln_clamp_value : List Int → Int
  | [] => 0
  | d :: ds => ln_clamp d * 10 ^ ds.length + ln_clamp_value ds

/-! ## Store operations -/

@[simp] theorem ln_reserve_integer (n : ln_t) (c : Nat) : (ln_reserve n c).integer = n.integer := by
  unfold ln_reserve; split <;> rfl

@[simp] theorem ln_reserve_negative (n : ln_t) (c : Nat) : (ln_reserve n c).negative = n.negative := by
  unfold ln_reserve; split <;> rfl

@[simp] theorem ln_prepend_integer (n : ln_t) (d : Int) : (ln_prepend n d).integer = d :: n.integer := by
  simp [ln_prepend]

@[simp] theorem ln_prepend_negative (n : ln_t) (d : Int) : (ln_prepend n d).negative = n.negative := by
  simp [ln_prepend]

@[simp] theorem ln_append_integer (n : ln_t) (d : Int) : (ln_append n d).integer = n.integer ++ [d] := by
  simp [ln_append]

@[simp] theorem ln_append_negative (n : ln_t) (d : Int) : (ln_append n d).negative = n.negative := by
  simp [ln_append]

@[simp] theorem ln_negate_integer (n : ln_t) : (ln_negate n).integer = n.integer := rfl

@[simp] theorem ln_negate_negative (n : ln_t) : (ln_negate n).negative = !n.negative := rfl

@[simp] theorem ln_copy_integer (n : ln_t) : (ln_copy n).integer = n.integer := rfl

@[simp] theorem ln_copy_negative (n : ln_t) : (ln_copy n).negative = n.negative := rfl

@[simp] theorem ln_clear_integer (n : ln_t) : (ln_clear n).integer = [] := rfl

@[simp] theorem ln_clear_negative (n : ln_t) : (ln_clear n).negative = false := rfl

@[simp] theorem ln_init_integer : ln_init.integer = [] := rfl

@[simp] theorem ln_init_negative : ln_init.negative = false := rfl

@[simp] theorem ln_set_integer (n : ln_t) (i : Nat) (d : Int) : (ln_set n i d).integer = n.integer.set i d := rfl

@[simp] theorem ln_set_negative (n : ln_t) (i : Nat) (d : Int) : (ln_set n i d).negative = n.negative := rfl

theorem ln_at_of_lt (n : ln_t) (i : Nat) (h : i < n.integer.length) :
    ln_at n i = n.integer.getD i 0 := by
  unfold ln_at ln_t.int_sz
  rw [if_neg (by omega)]

theorem ln_at_of_ge (n : ln_t) (i : Nat) (h : n.integer.length ≤ i) : ln_at n i = -1 := by
  unfold ln_at ln_t.int_sz
  rw [if_pos (by omega)]

theorem ln_last_at_of_lt (n : ln_t) (i : Nat) (h : i < n.integer.length) :
    ln_last_at n i = n.integer.getD (n.integer.length - i - 1) 0 := by
  unfold ln_last_at ln_t.int_sz
  rw [if_neg (by omega)]

theorem ln_last_at_of_ge (n : ln_t) (i : Nat) (h : n.integer.length ≤ i) : ln_last_at n i = -1 := by
  unfold ln_last_at ln_t.int_sz
  rw [if_pos (by omega)]

theorem getD_mem_of_lt (l : List Int) (i : Nat) (h : i < l.length) : l.getD i 0 ∈ l := by
  rw [List.getD_eq_getElem l 0 h]
  exact List.getElem_mem h

/-! ## Digit values -/

theorem ln_digits_value_cons (d : Int) (ds : List Int) :
    ln_digits_value (d :: ds) = d * 10 ^ ds.length + ln_digits_value ds := rfl

theorem ln_digits_value_nil : ln_digits_value [] = 0 := rfl

theorem ln_digits_value_append (l : List Int) (d : Int) :
    ln_digits_value (l ++ [d]) = ln_digits_value l * 10 + d := by
  induction l with
  | nil => simp [ln_digits_value]
  | cons x xs ih =>
    show ln_digits_value (x :: (xs ++ [d])) = ln_digits_value (x :: xs) * 10 + d
    simp only [ln_digits_value, ih, List.length_append, List.length_singleton]
    ring

theorem ln_digits_value_nonneg (l : List Int) (h : ∀ d ∈ l, 0 ≤ d) : 0 ≤ ln_digits_value l := by
  induction l with
  | nil => simp [ln_digits_value]
  | cons x xs ih =>
    simp only [ln_digits_value]
    have h1 : 0 ≤ x := h x (List.mem_cons_self _ _)
    have h2 := ih (fun d hd => h d (List.mem_cons_of_mem _ hd))
    positivity

theorem ln_digits_value_lt (l : List Int) (h : ∀ d ∈ l, d ≤ 9) :
    ln_digits_value l < 10 ^ l.length := by
  induction l with
  | nil => simp [ln_digits_value]
  | cons x xs ih =>
    simp only [ln_digits_value, List.length_cons]
    have h1 : x ≤ 9 := h x (List.mem_cons_self _ _)
    have h2 := ih (fun d hd => h d (List.mem_cons_of_mem _ hd))
    have h3 : (0 : Int) < 10 ^ xs.length := by positivity
    rw [pow_succ]
    nlinarith

theorem ln_digits_value_ge_of_head (x : Int) (xs : List Int) (hx : 1 ≤ x) (h : ∀ d ∈ xs, 0 ≤ d) :
    10 ^ xs.length ≤ ln_digits_value (x :: xs) := by
  simp only [ln_digits_value]
  have h2 := ln_digits_value_nonneg xs h
  have h3 : (0 : Int) < 10 ^ xs.length := by positivity
  nlinarith

/-! ## The comparator -/

theorem ln_cmp_loop_eq_lex (a b : ln_t) (hlen : a.integer.length = b.integer.length)
    (ha : ∀ d ∈ a.integer, 0 ≤ d) :
    ∀ (fuel it : Nat), it ≤ a.integer.length → a.integer.length + 1 ≤ fuel + it →
      ln_cmp_loop a b fuel it = some (ln_lex (a.integer.drop it) (b.integer.drop it)) := by
  intro fuel
  induction fuel with
  | zero => intro it h1 h2; omega
  | succ f ih =>
    intro it h1 h2
    unfold ln_cmp_loop
    by_cases hit : it < a.integer.length
    · have hitb : it < b.integer.length := by omega
      rw [ln_at_of_lt a it hit, ln_at_of_lt b it hitb]
      rw [List.drop_eq_getElem_cons hit, List.drop_eq_getElem_cons hitb]
      rw [List.getD_eq_getElem _ 0 hit, List.getD_eq_getElem _ 0 hitb]
      have h0 : 0 ≤ a.integer[it] := ha _ (List.getElem_mem hit)
      simp only [ln_lex]
      rw [if_neg (by omega)]
      rw [ih (it + 1) (by omega) (by omega)]
      split
      · rfl
      · split <;> rfl
    · have hitb : ¬ it < b.integer.length := by omega
      rw [ln_at_of_ge a it (by omega), ln_at_of_ge b it (by omega)]
      rw [List.drop_eq_nil_of_le (by omega), List.drop_eq_nil_of_le (by omega)]
      simp [ln_lex]

theorem ln_cmp_eq_spec (fuel : Nat) (a b : ln_t) (ha : ∀ d ∈ a.integer, 0 ≤ d)
    (hf : a.integer.length < fuel) : ln_cmp fuel a b = some (ln_cmp_spec a b) := by
  unfold ln_cmp ln_cmp_spec ln_t.int_sz
  split
  · rfl
  · split
    · rfl
    · split
      · rfl
      · split
        · rfl
        · have h := ln_cmp_loop_eq_lex a b (by omega) ha fuel 0 (by omega) (by omega)
          simpa using h

theorem ln_lex_swap (a : List Int) : ∀ b : List Int, ln_lex b a = ln_cmp_swap (ln_lex a b) := by
  induction a with
  | nil => intro b; cases b <;> simp [ln_lex, ln_cmp_swap]
  | cons x xs ih =>
    intro b
    cases b with
    | nil => simp [ln_lex, ln_cmp_swap]
    | cons y ys =>
      simp only [ln_lex]
      rcases lt_trichotomy x y with h | h | h
      · rw [if_neg (by omega), if_pos (by omega), if_pos h]; rfl
      · rw [if_neg (by omega), if_neg (by omega), if_neg (by omega), if_neg (by omega)]
        exact ih ys
      · rw [if_pos (by omega), if_neg (by omega), if_pos (by omega)]; rfl

theorem ln_lex_trans (a : List Int) : ∀ b c : List Int,
    ln_lex a b = ln_Lesser → ln_lex b c = ln_Lesser → ln_lex a c = ln_Lesser := by
  induction a with
  | nil => intro b c h; cases b <;> simp [ln_lex] at h
  | cons x xs ih =>
    intro b c h1 h2
    cases b with
    | nil => simp [ln_lex] at h1
    | cons y ys =>
      cases c with
      | nil => simp [ln_lex] at h2
      | cons z zs =>
        simp only [ln_lex] at h1 h2 ⊢
        by_cases hxy : x < y
        · by_cases hyz : y < z
          · rw [if_pos (by omega)]
          · rw [if_neg hyz] at h2
            by_cases hzy : y > z
            · rw [if_pos hzy] at h2; cases h2
            · rw [if_pos (by omega)]
        · rw [if_neg hxy] at h1
          by_cases hyx : x > y
          · rw [if_pos hyx] at h1; cases h1
          · rw [if_neg hyx] at h1
            have hxy2 : x = y := by omega
            subst hxy2
            by_cases hyz : x < z
            · rw [if_pos hyz]
            · rw [if_neg hyz] at h2 ⊢
              by_cases hzy : x > z
              · rw [if_pos hzy] at h2; cases h2
              · rw [if_neg hzy] at h2 ⊢
                exact ih ys zs h1 h2

theorem ln_cmp_spec_swap (a b : ln_t) : ln_cmp_spec b a = ln_cmp_swap (ln_cmp_spec a b) := by
  unfold ln_cmp_spec
  split_ifs <;> first
    | rfl
    | exact ln_lex_swap _ _
    | (exfalso; omega)
    | (exfalso; simp_all)

theorem ln_cmp_spec_trans (a b c : ln_t) (h1 : ln_cmp_spec a b = ln_Lesser)
    (h2 : ln_cmp_spec b c = ln_Lesser) : ln_cmp_spec a c = ln_Lesser := by
  unfold ln_cmp_spec at h1 h2 ⊢
  cases ha : a.negative <;> cases hb : b.negative <;> cases hc : c.negative <;>
    simp only [ha, hb, hc] at h1 h2 ⊢ <;> simp at h1 h2 ⊢
  all_goals
    by_cases hab : b.integer.length < a.integer.length
    · rw [if_pos hab] at h1; cases h1
    · rw [if_neg hab] at h1
      by_cases hbc : c.integer.length < b.integer.length
      · rw [if_pos hbc] at h2; cases h2
      · rw [if_neg hbc] at h2
        rw [if_neg (by omega)]
        by_cases hab2 : a.integer.length < b.integer.length
        · rw [if_pos (by omega)]
        · rw [if_neg hab2] at h1
          by_cases hbc2 : b.integer.length < c.integer.length
          · rw [if_pos (by omega)]
          · rw [if_neg hbc2] at h2
            rw [if_neg (by omega)]
            exact ln_lex_trans _ _ _ h1 h2

/-! ## Columns of a number, counted from the least significant end -/

theorem ln_hi_zero (l : List Int) : ln_hi l 0 = ln_digits_value l := by
  simp [ln_hi]

theorem ln_hi_of_ge (l : List Int) (it : Nat) (h : l.length ≤ it) : ln_hi l it = 0 := by
  unfold ln_hi
  rw [show l.length - it = 0 by omega]
  simp [ln_digits_value]

theorem ln_dig_of_ge (l : List Int) (it : Nat) (h : l.length ≤ it) : ln_dig l it = 0 := by
  unfold ln_dig
  rw [if_neg (by omega)]

theorem ln_hi_step (l : List Int) (it : Nat) : ln_hi l it = ln_hi l (it + 1) * 10 + ln_dig l it := by
  by_cases h : it < l.length
  · unfold ln_hi ln_dig
    rw [if_pos h]
    have h1 : l.length - it = (l.length - (it + 1)) + 1 := by omega
    have h2 : l.length - (it + 1) < l.length := by omega
    rw [h1, List.take_succ, List.getElem?_eq_getElem h2]
    simp only [Option.toList]
    rw [ln_digits_value_append, List.getD_eq_getElem l 0 (by omega)]
    congr 2
  · rw [ln_hi_of_ge l it (by omega), ln_hi_of_ge l (it + 1) (by omega), ln_dig_of_ge l it (by omega)]
    simp

theorem ln_dig_bounds (l : List Int) (hl : ∀ d ∈ l, 0 ≤ d ∧ d ≤ 9) (it : Nat) :
    0 ≤ ln_dig l it ∧ ln_dig l it ≤ 9 := by
  unfold ln_dig
  split
  · exact hl _ (getD_mem_of_lt l _ (by omega))
  · omega

theorem ln_last_at_neg_iff (n : ln_t) (hn : ∀ d ∈ n.integer, 0 ≤ d ∧ d ≤ 9) (it : Nat) :
    ln_last_at n it < 0 ↔ n.integer.length ≤ it := by
  constructor
  · intro h
    by_contra hc
    rw [ln_last_at_of_lt n it (by omega)] at h
    have := (hn _ (getD_mem_of_lt n.integer (n.integer.length - it - 1) (by omega))).1
    omega
  · intro h
    rw [ln_last_at_of_ge n it h]
    omega

theorem ln_last_at_clamp (n : ln_t) (hn : ∀ d ∈ n.integer, 0 ≤ d ∧ d ≤ 9) (it : Nat) :
    (if ln_last_at n it < 0 then 0 else ln_last_at n it) = ln_dig n.integer it := by
  by_cases h : it < n.integer.length
  · have h1 : ¬ ln_last_at n it < 0 := by
      rw [ln_last_at_neg_iff n hn]; omega
    rw [if_neg h1, ln_last_at_of_lt n it h]
    unfold ln_dig
    rw [if_pos h]
  · have h1 : ln_last_at n it < 0 := by
      rw [ln_last_at_neg_iff n hn]; omega
    rw [if_pos h1, ln_dig_of_ge _ _ (by omega)]

/-! ## Addition and subtraction: the digit loops -/

theorem ln_add_carry_spec (fuel : Nat) (vt : Int) (h0 : 0 ≤ vt) (h1 : vt ≤ 19) (hf : 2 ≤ fuel) :
    ∃ v c, ln_add_carry fuel vt 0 = some (v, c) ∧ vt = v + 10 * c ∧ 0 ≤ v ∧ v ≤ 9 ∧
      (c = 0 ∨ c = 1) := by
  obtain ⟨f, rfl⟩ : ∃ f, fuel = f + 2 := ⟨fuel - 2, by omega⟩
  by_cases h : vt ≥ 10
  · refine ⟨vt - 10, 1, ?_, by omega, by omega, by omega, Or.inr rfl⟩
    unfold ln_add_carry
    rw [if_pos h]
    unfold ln_add_carry
    rw [if_neg (by omega)]
    rfl
  · refine ⟨vt, 0, ?_, by omega, by omega, by omega, Or.inl rfl⟩
    unfold ln_add_carry
    rw [if_neg h]

theorem ln_sub_borrow_spec (fuel : Nat) (va vb : Int) (h0 : 0 ≤ va) (h1 : va ≤ 9)
    (h2 : 0 ≤ vb) (h3 : vb ≤ 10) (hf : 2 ≤ fuel) :
    ∃ v c, ln_sub_borrow fuel va vb 0 = some (v, c) ∧ v = va + 10 * c ∧ 0 ≤ v - vb ∧ v - vb ≤ 9 ∧
      (c = 0 ∨ c = 1) := by
  obtain ⟨f, rfl⟩ : ∃ f, fuel = f + 2 := ⟨fuel - 2, by omega⟩
  by_cases h : va < vb
  · refine ⟨va + 10, 1, ?_, by omega, by omega, by omega, Or.inr rfl⟩
    unfold ln_sub_borrow
    rw [if_pos h]
    unfold ln_sub_borrow
    rw [if_neg (by omega)]
    rfl
  · refine ⟨va, 0, ?_, by omega, by omega, by omega, Or.inl rfl⟩
    unfold ln_sub_borrow
    rw [if_neg h]

theorem ln_add_loop_spec (a b : ln_t) (M : Nat)
    (ha : ∀ d ∈ a.integer, 0 ≤ d ∧ d ≤ 9) (hb : ∀ d ∈ b.integer, 0 ≤ d ∧ d ≤ 9)
    (hMa : a.integer.length ≤ M) (hMb : b.integer.length ≤ M)
    (hM : M ≤ a.integer.length ∨ M ≤ b.integer.length) :
    ∀ (fuel it : Nat) (out : ln_t) (carry : Int), it ≤ M → M + 3 ≤ fuel + it →
      (carry = 0 ∨ carry = 1) → out.integer.length = it →
      (∀ d ∈ out.integer, 0 ≤ d ∧ d ≤ 9) →
      ∃ r, ln_add_loop a b fuel out it carry = some r ∧ r.negative = out.negative ∧
        (∀ d ∈ r.integer, 0 ≤ d ∧ d ≤ 9) ∧
        ln_digits_value r.integer =
          ln_digits_value out.integer + 10 ^ it * (carry + ln_hi a.integer it + ln_hi b.integer it) ∧
        (r.integer.length = M ∨ (r.integer.length = M + 1 ∧ r.integer.head? = some 1)) := by
  intro fuel
  induction fuel with
  | zero => intro it out carry h1 h2; omega
  | succ f ih =>
    intro it out carry h1 h2 hc hlen hout
    unfold ln_add_loop
    simp only []
    by_cases hexit : ln_last_at a it < 0 ∧ ln_last_at b it < 0
    · rw [if_pos hexit]
      rw [ln_last_at_neg_iff a ha, ln_last_at_neg_iff b hb] at hexit
      have hit : it = M := by omega
      rw [ln_hi_of_ge _ _ hexit.1, ln_hi_of_ge _ _ hexit.2]
      rcases hc with hc | hc
      · subst hc
        refine ⟨out, by simp, rfl, hout, by simp, Or.inl (by omega)⟩
      · subst hc
        refine ⟨ln_prepend out 1, by simp, by simp, ?_, ?_, Or.inr ⟨by simp; omega, by simp⟩⟩
        · intro d hd
          simp only [ln_prepend_integer, List.mem_cons] at hd
          rcases hd with hd | hd
          · omega
          · exact hout d hd
        · rw [ln_prepend_integer, ln_digits_value_cons, hlen]
          ring
    · rw [if_neg hexit]
      rw [ln_last_at_neg_iff a ha, ln_last_at_neg_iff b hb] at hexit
      have hit : it < M := by omega
      rw [ln_last_at_clamp a ha, ln_last_at_clamp b hb]
      have hda := ln_dig_bounds a.integer ha it
      have hdb := ln_dig_bounds b.integer hb it
      obtain ⟨v, c, hvc, hsum, hv0, hv9, hc01⟩ :=
        ln_add_carry_spec f (ln_dig a.integer it + ln_dig b.integer it + carry)
          (by omega) (by omega) (by omega)
      rw [hvc]
      simp only []
      have hout2 : ∀ d ∈ (ln_prepend out v).integer, 0 ≤ d ∧ d ≤ 9 := by
        intro d hd
        simp only [ln_prepend_integer, List.mem_cons] at hd
        rcases hd with hd | hd
        · omega
        · exact hout d hd
      obtain ⟨r, hr, hneg, hdig, hval, hlenr⟩ :=
        ih (it + 1) (ln_prepend out v) c (by omega) (by omega) hc01 (by simp; omega) hout2
      refine ⟨r, hr, by simpa using hneg, hdig, ?_, hlenr⟩
      rw [hval, ln_hi_step a.integer it, ln_hi_step b.integer it]
      rw [ln_prepend_integer, ln_digits_value_cons, hlen]
      have hv : v = ln_dig a.integer it + ln_dig b.integer it + carry - 10 * c := by omega
      rw [hv, pow_succ]
      ring

theorem ln_sub_loop_spec (a b : ln_t) (M : Nat)
    (ha : ∀ d ∈ a.integer, 0 ≤ d ∧ d ≤ 9) (hb : ∀ d ∈ b.integer, 0 ≤ d ∧ d ≤ 9)
    (hMa : a.integer.length ≤ M) (hMb : b.integer.length ≤ M)
    (hM : M ≤ a.integer.length ∨ M ≤ b.integer.length) :
    ∀ (fuel it : Nat) (out : ln_t) (carry : Int), it ≤ M → M + 3 ≤ fuel + it →
      (carry = 0 ∨ carry = 1) → out.integer.length = it →
      (∀ d ∈ out.integer, 0 ≤ d ∧ d ≤ 9) →
      ∃ r c, ln_sub_loop a b fuel out it carry = some r ∧ r.negative = out.negative ∧
        (∀ d ∈ r.integer, 0 ≤ d ∧ d ≤ 9) ∧ r.integer.length = M ∧ (c = 0 ∨ c = 1) ∧
        ln_digits_value r.integer =
          ln_digits_value out.integer +
            10 ^ it * (ln_hi a.integer it - ln_hi b.integer it - carry) + 10 ^ M * c := by
  intro fuel
  induction fuel with
  | zero => intro it out carry h1 h2; omega
  | succ f ih =>
    intro it out carry h1 h2 hc hlen hout
    unfold ln_sub_loop
    simp only []
    by_cases hexit : ln_last_at a it < 0 ∧ ln_last_at b it < 0
    · rw [if_pos hexit]
      rw [ln_last_at_neg_iff a ha, ln_last_at_neg_iff b hb] at hexit
      have hit : it = M := by omega
      rw [ln_hi_of_ge _ _ hexit.1, ln_hi_of_ge _ _ hexit.2]
      refine ⟨out, carry, rfl, rfl, hout, by omega, hc, ?_⟩
      rw [hit]
      ring
    · rw [if_neg hexit]
      rw [ln_last_at_neg_iff a ha, ln_last_at_neg_iff b hb] at hexit
      have hit : it < M := by omega
      rw [ln_last_at_clamp a ha, ln_last_at_clamp b hb]
      have hda := ln_dig_bounds a.integer ha it
      have hdb := ln_dig_bounds b.integer hb it
      obtain ⟨v, c, hvc, hsum, hv0, hv9, hc01⟩ :=
        ln_sub_borrow_spec f (ln_dig a.integer it) (ln_dig b.integer it + carry)
          (by omega) (by omega) (by omega) (by omega) (by omega)
      rw [hvc]
      simp only []
      have hout2 : ∀ d ∈ (ln_prepend out (v - (ln_dig b.integer it + carry))).integer,
          0 ≤ d ∧ d ≤ 9 := by
        intro d hd
        simp only [ln_prepend_integer, List.mem_cons] at hd
        rcases hd with hd | hd
        · omega
        · exact hout d hd
      obtain ⟨r, c2, hr, hneg, hdig, hlenr, hc2, hval⟩ :=
        ih (it + 1) (ln_prepend out (v - (ln_dig b.integer it + carry))) c (by omega) (by omega)
          hc01 (by simp; omega) hout2
      refine ⟨r, c2, hr, by simpa using hneg, hdig, hlenr, hc2, ?_⟩
      rw [hval, ln_hi_step a.integer it, ln_hi_step b.integer it]
      rw [ln_prepend_integer, ln_digits_value_cons, hlen]
      rw [hsum, pow_succ]
      ring

/-! ## Trimming, signs and normal forms -/

theorem ln_trim_integer (n : ln_t) :
    (ln_trim n).integer = n.integer.drop (ln_trim_count n.integer) := by
  unfold ln_trim
  simp only []
  split
  · next h => rw [h]; rfl
  · rfl

@[simp] theorem ln_trim_negative (n : ln_t) : (ln_trim n).negative = n.negative := by
  unfold ln_trim
  simp only []
  split <;> rfl

theorem ln_trim_count_spec (l : List Int) :
    ln_digits_value (l.drop (ln_trim_count l)) = ln_digits_value l ∧
      (l.drop (ln_trim_count l)).head? ≠ some 0 := by
  induction l with
  | nil => simp [ln_trim_count]
  | cons d ds ih =>
    unfold ln_trim_count
    by_cases h : d ≠ 0
    · rw [if_pos h]
      simp only [List.drop_zero, List.head?_cons, true_and]
      intro hc
      exact h (by simpa using hc)
    · rw [if_neg h]
      have hd : d = 0 := by omega
      subst hd
      simp only [List.drop_succ_cons]
      refine ⟨?_, ih.2⟩
      rw [ih.1, ln_digits_value_cons]
      ring

theorem ln_value_negate (r : ln_t) : ln_value (ln_negate r) = - ln_value r := by
  unfold ln_value ln_magnitude
  cases h : r.negative <;> simp [h]

theorem ln_magnitude_negate (r : ln_t) : ln_magnitude (ln_negate r) = ln_magnitude r := rfl

theorem ln_magnitude_negate_copy (r : ln_t) : ln_magnitude (ln_negate_copy r) = ln_magnitude r := rfl

theorem ln_wf_negate (r : ln_t) (h : ln_wf r) : ln_wf (ln_negate r) := h

theorem ln_wf_negate_copy (r : ln_t) (h : ln_wf r) : ln_wf (ln_negate_copy r) := h

theorem ln_no_leading_zero_of_value (r : List Int) (hr : ∀ d ∈ r, 0 ≤ d ∧ d ≤ 9)
    (hV : 2 ≤ r.length → 10 ^ (r.length - 1) ≤ ln_digits_value r) :
    r.head? = some 0 → r = [0] := by
  intro h
  cases r with
  | nil => simp at h
  | cons x t =>
    simp only [List.head?_cons, Option.some.injEq] at h
    subst h
    cases t with
    | nil => rfl
    | cons y t2 =>
      exfalso
      have h1 := hV (by simp)
      have h2 := ln_digits_value_lt (y :: t2) (fun d hd => (hr d (List.mem_cons_of_mem _ hd)).2)
      rw [ln_digits_value_cons] at h1
      simp only [List.length_cons, Nat.add_sub_cancel] at h1 h2
      omega

theorem ln_wf_value_ge (a : ln_t) (ha : ln_wf a) (h2 : 2 ≤ a.integer.length) :
    10 ^ (a.integer.length - 1) ≤ ln_magnitude a := by
  obtain ⟨hd, hz⟩ := ha
  unfold ln_magnitude
  unfold ln_no_leading_zero at hz
  unfold ln_digits_ok at hd
  cases hl : a.integer with
  | nil => rw [hl] at h2; simp at h2
  | cons x xs =>
    rw [hl] at h2 hz hd
    simp only [List.length_cons, Nat.add_sub_cancel]
    apply ln_digits_value_ge_of_head
    · have hx := (hd x (List.mem_cons_self _ _)).1
      by_contra hc
      have hx0 : x = 0 := by omega
      subst hx0
      have := hz rfl
      rw [this] at h2
      simp at h2
    · intro d hd2
      exact (hd d (List.mem_cons_of_mem _ hd2)).1

theorem ln_magnitude_nonneg (a : ln_t) (ha : ln_digits_ok a) : 0 ≤ ln_magnitude a :=
  ln_digits_value_nonneg _ (fun d hd => (ha d hd).1)

theorem ln_magnitude_lt (a : ln_t) (ha : ln_digits_ok a) : ln_magnitude a < 10 ^ a.integer.length :=
  ln_digits_value_lt _ (fun d hd => (ha d hd).2)

theorem ln_max_sz_ge_left (a b : ln_t) : a.integer.length ≤ ln_max_sz a b := by
  unfold ln_max_sz ln_t.int_sz; split <;> omega

theorem ln_max_sz_ge_right (a b : ln_t) : b.integer.length ≤ ln_max_sz a b := by
  unfold ln_max_sz ln_t.int_sz; split <;> omega

theorem ln_max_sz_cases (a b : ln_t) :
    ln_max_sz a b ≤ a.integer.length ∨ ln_max_sz a b ≤ b.integer.length := by
  unfold ln_max_sz ln_t.int_sz; split <;> omega

/-! ## Addition and subtraction: the operators -/

theorem ln_add_same_sign (fuel : Nat) (out a b : ln_t) (ha : ln_wf a) (hb : ln_wf b)
    (hs : a.negative = b.negative) (ho : ln_is_empty out)
    (hfa : a.integer.length + 4 ≤ fuel) (hfb : b.integer.length + 4 ≤ fuel) :
    ∃ r, ln_add fuel out a b = some r ∧ ln_wf r ∧ r.negative = a.negative ∧
      ln_magnitude r = ln_magnitude a + ln_magnitude b := by
  obtain ⟨f, rfl⟩ : ∃ f, fuel = f + 1 := ⟨fuel - 1, by omega⟩
  unfold ln_add
  have hMa := ln_max_sz_ge_left a b
  have hMb := ln_max_sz_ge_right a b
  have hM := ln_max_sz_cases a b
  have hf : ln_max_sz a b + 4 ≤ f + 1 := by omega
  obtain ⟨hoi, hon⟩ := ho
  obtain ⟨r, hr, hneg, hdig, hval, hlen⟩ :=
    ln_add_loop_spec a b (ln_max_sz a b) ha.1 hb.1 hMa hMb hM f 0
      (ln_reserve out (ln_max_sz a b)) 0 (by omega) (by omega) (Or.inl rfl)
      (by simp [hoi]) (by simp [hoi])
  rw [hr]
  simp only [ln_reserve_integer, ln_reserve_negative, hoi, hon, ln_digits_value_nil, ln_hi_zero,
    pow_zero, one_mul, zero_add] at hval hneg
  have hwf : ln_wf r := by
    refine ⟨hdig, ?_⟩
    rcases hlen with hlen | ⟨_, hhead⟩
    · apply ln_no_leading_zero_of_value _ hdig
      intro h2
      rw [hval, hlen]
      have hma := ln_magnitude_nonneg a ha.1
      have hmb := ln_magnitude_nonneg b hb.1
      unfold ln_magnitude at hma hmb
      rcases hM with hM | hM
      · have := ln_wf_value_ge a ha (by omega)
        unfold ln_magnitude at this
        rw [show a.integer.length = ln_max_sz a b by omega] at this
        omega
      · have := ln_wf_value_ge b hb (by omega)
        unfold ln_magnitude at this
        rw [show b.integer.length = ln_max_sz a b by omega] at this
        omega
    · intro h0
      rw [hhead] at h0
      simp at h0
  cases hbn : b.negative
  · rw [hbn] at hs
    simp only [hs, hbn, Bool.false_eq_true, false_and, and_false, not_false_eq_true, and_true,
      if_false, Option.map_some']
    exact ⟨r, rfl, hwf, hneg, hval⟩
  · rw [hbn] at hs
    simp only [hs, hbn, not_true_eq_false, and_false, false_and, and_self, if_true, if_false,
      Option.map_some']
    exact ⟨ln_negate r, rfl, hwf, by simp [hneg], hval⟩

theorem ln_lex_value (a : List Int) : ∀ b : List Int, a.length = b.length →
    (∀ d ∈ a, 0 ≤ d ∧ d ≤ 9) → (∀ d ∈ b, 0 ≤ d ∧ d ≤ 9) →
    (ln_lex a b = ln_Lesser → ln_digits_value a < ln_digits_value b) ∧
    (ln_lex a b = ln_Equal → ln_digits_value a = ln_digits_value b) ∧
    (ln_lex a b = ln_Greater → ln_digits_value b < ln_digits_value a) := by
  induction a with
  | nil =>
    intro b hlen _ _
    cases b with
    | nil => simp [ln_lex]
    | cons y ys => simp at hlen
  | cons x xs ih =>
    intro b hlen ha hb
    cases b with
    | nil => simp at hlen
    | cons y ys =>
      have hlen2 : xs.length = ys.length := by simpa using hlen
      have hxs : ∀ d ∈ xs, 0 ≤ d ∧ d ≤ 9 := fun d hd => ha d (List.mem_cons_of_mem _ hd)
      have hys : ∀ d ∈ ys, 0 ≤ d ∧ d ≤ 9 := fun d hd => hb d (List.mem_cons_of_mem _ hd)
      have h1 := ln_digits_value_lt xs (fun d hd => (hxs d hd).2)
      have h2 := ln_digits_value_lt ys (fun d hd => (hys d hd).2)
      have h3 := ln_digits_value_nonneg xs (fun d hd => (hxs d hd).1)
      have h4 := ln_digits_value_nonneg ys (fun d hd => (hys d hd).1)
      have hP : (0 : Int) < 10 ^ ys.length := by positivity
      obtain ⟨i1, i2, i3⟩ := ih ys hlen2 hxs hys
      simp only [ln_lex, ln_digits_value_cons]
      rw [hlen2] at h1 ⊢
      rcases lt_trichotomy x y with h | h | h
      · rw [if_pos h]
        refine ⟨fun _ => ?_, fun hc => (by cases hc), fun hc => (by cases hc)⟩
        nlinarith
      · subst h
        rw [if_neg (by omega), if_neg (by omega)]
        refine ⟨fun hc => ?_, fun hc => ?_, fun hc => ?_⟩
        · have := i1 hc; omega
        · have := i2 hc; omega
        · have := i3 hc; omega
      · rw [if_neg (by omega), if_pos h]
        refine ⟨fun hc => (by cases hc), fun hc => (by cases hc), fun _ => ?_⟩
        nlinarith

theorem ln_cmp_spec_ge (a b : ln_t) (ha : ln_wf a) (hb : ln_wf b)
    (hs : a.negative = b.negative) (hc : ln_cmp_spec a b ≠ ln_Lesser) :
    ln_magnitude b ≤ ln_magnitude a := by
  unfold ln_cmp_spec at hc
  have hs1 : ¬ (a.negative = true ∧ ¬ b.negative = true) := by rw [hs]; simp
  have hs2 : ¬ (¬ a.negative = true ∧ b.negative = true) := by rw [hs]; simp
  rw [if_neg hs1, if_neg hs2] at hc
  by_cases h1 : a.integer.length > b.integer.length
  · have hmb := ln_magnitude_lt b hb.1
    have hmb0 := ln_magnitude_nonneg b hb.1
    have hma0 := ln_magnitude_nonneg a ha.1
    by_cases h2 : 2 ≤ a.integer.length
    · have hma := ln_wf_value_ge a ha h2
      have hpow : (10 : Int) ^ b.integer.length ≤ 10 ^ (a.integer.length - 1) :=
        pow_le_pow_right₀ (by norm_num) (by omega)
      omega
    · have hb0 : b.integer = [] := List.length_eq_zero.mp (by omega)
      unfold ln_magnitude at hmb0 hma0 ⊢
      rw [hb0, ln_digits_value_nil]
      exact hma0
  · rw [if_neg h1] at hc
    by_cases h2 : a.integer.length < b.integer.length
    · rw [if_pos h2] at hc
      exact absurd rfl hc
    · rw [if_neg h2] at hc
      obtain ⟨i1, i2, i3⟩ := ln_lex_value a.integer b.integer (by omega) ha.1 hb.1
      unfold ln_magnitude
      cases hl : ln_lex a.integer b.integer with
      | ln_Lesser => exact absurd hl hc
      | ln_Equal => have := i2 hl; omega
      | ln_Greater => have := i3 hl; omega

theorem ln_value_of_parts (r : ln_t) : ln_value r = if r.negative then - ln_magnitude r else ln_magnitude r := rfl

theorem ln_value_negate_copy (a : ln_t) : ln_value (ln_negate_copy a) = - ln_value a :=
  ln_value_negate (ln_copy a)

theorem ln_sub_core (fuel : Nat) (out a b : ln_t) (ha : ln_wf a) (hb : ln_wf b)
    (hs : a.negative = b.negative) (hc : ln_cmp_spec a b ≠ ln_Lesser) (ho : ln_is_empty out)
    (hfa : a.integer.length + 4 ≤ fuel) (hfb : b.integer.length + 4 ≤ fuel) :
    ∃ r, ln_sub fuel out a b = some r ∧ ln_digits_ok r ∧ r.integer.head? ≠ some 0 ∧
      r.negative = a.negative ∧ ln_magnitude r = ln_magnitude a - ln_magnitude b ∧
      ln_value r = ln_value a - ln_value b := by
  obtain ⟨f, rfl⟩ : ∃ f, fuel = f + 1 := ⟨fuel - 1, by omega⟩
  unfold ln_sub
  have hMa := ln_max_sz_ge_left a b
  have hMb := ln_max_sz_ge_right a b
  have hM := ln_max_sz_cases a b
  obtain ⟨hoi, hon⟩ := ho
  have hs2 : ¬ (¬ a.negative = true ∧ b.negative = true) := by rw [hs]; simp
  rw [if_neg hs2, ln_cmp_eq_spec f a b (fun d hd => (ha.1 d hd).1) (by omega)]
  simp only []
  rw [if_neg hc]
  obtain ⟨r, c, hr, hneg, hdig, hlen, hc01, hval⟩ :=
    ln_sub_loop_spec a b (ln_max_sz a b) ha.1 hb.1 hMa hMb hM f 0 out 0 (by omega) (by omega)
      (Or.inl rfl) (by simp [hoi]) (by simp [hoi])
  rw [hr]
  simp only [hoi, hon, ln_digits_value_nil, ln_hi_zero, pow_zero, one_mul, zero_add, sub_zero]
    at hval hneg
  have hge := ln_cmp_spec_ge a b ha hb hs hc
  have hlt := ln_magnitude_lt a ha.1
  have hrlt := ln_digits_value_lt r.integer (fun d hd => (hdig d hd).2)
  have hpow : (10 : Int) ^ a.integer.length ≤ 10 ^ ln_max_sz a b :=
    pow_le_pow_right₀ (by norm_num) hMa
  unfold ln_magnitude at hge hlt
  have hc0 : c = 0 := by
    rcases hc01 with h | h
    · exact h
    · subst h
      rw [hlen] at hrlt
      omega
  subst hc0
  simp only [mul_zero, add_zero] at hval
  obtain ⟨t1, t2⟩ := ln_trim_count_spec r.integer
  have hmag : ln_magnitude (ln_trim r) = ln_magnitude a - ln_magnitude b := by
    unfold ln_magnitude
    rw [ln_trim_integer, t1, hval]
  have hdok : ln_digits_ok (ln_trim r) := by
    intro d hd
    rw [ln_trim_integer] at hd
    exact hdig d (List.mem_of_mem_drop hd)
  have hhead : (ln_trim r).integer.head? ≠ some 0 := by
    rw [ln_trim_integer]; exact t2
  cases hbn : b.negative
  · rw [hbn] at hs
    simp only [hs, Bool.false_eq_true, false_and, if_false, Option.map_some']
    refine ⟨ln_trim r, rfl, hdok, hhead, by simp [hneg], hmag, ?_⟩
    rw [ln_value_of_parts, ln_value_of_parts a, ln_value_of_parts b, hmag]
    simp [hs, hbn, hneg]
  · rw [hbn] at hs
    simp only [hs, and_self, if_true, Option.map_some']
    refine ⟨ln_negate (ln_trim r), rfl, hdok, hhead, by simp [hneg], hmag, ?_⟩
    rw [ln_value_negate, ln_value_of_parts, ln_value_of_parts a, ln_value_of_parts b, hmag]
    simp [hs, hbn, hneg]
    ring

theorem ln_sub_same_sign (fuel : Nat) (out a b : ln_t) (ha : ln_wf a) (hb : ln_wf b)
    (hs : a.negative = b.negative) (ho : ln_is_empty out)
    (hfa : a.integer.length + 5 ≤ fuel) (hfb : b.integer.length + 5 ≤ fuel) :
    ∃ r, ln_sub fuel out a b = some r ∧ ln_digits_ok r ∧ r.integer.head? ≠ some 0 ∧
      ln_value r = ln_value a - ln_value b := by
  by_cases hc : ln_cmp_spec a b = ln_Lesser
  · obtain ⟨f, rfl⟩ : ∃ f, fuel = f + 1 := ⟨fuel - 1, by omega⟩
    have hc2 : ln_cmp_spec b a ≠ ln_Lesser := by
      rw [ln_cmp_spec_swap a b, hc]; simp [ln_cmp_swap]
    obtain ⟨r, hr, hd, hh, _, _, hv⟩ :=
      ln_sub_core f out b a hb ha hs.symm hc2 ho (by omega) (by omega)
    unfold ln_sub
    have hs2 : ¬ (¬ a.negative = true ∧ b.negative = true) := by rw [hs]; simp
    rw [if_neg hs2, ln_cmp_eq_spec f a b (fun d hd => (ha.1 d hd).1) (by omega)]
    simp only []
    rw [if_pos hc, hr]
    refine ⟨ln_negate r, rfl, hd, hh, ?_⟩
    rw [ln_value_negate, hv]
    ring
  · obtain ⟨r, hr, hd, hh, _, _, hv⟩ :=
      ln_sub_core fuel out a b ha hb hs hc ho (by omega) (by omega)
    exact ⟨r, hr, hd, hh, hv⟩

theorem ln_sub_pos_neg (fuel : Nat) (out a b : ln_t) (ha : ln_wf a) (hb : ln_wf b)
    (han : a.negative = false) (hbn : b.negative = true) (ho : ln_is_empty out)
    (hfa : a.integer.length + 5 ≤ fuel) (hfb : b.integer.length + 5 ≤ fuel) :
    ∃ r, ln_sub fuel out a b = some r ∧ ln_wf r ∧ ln_value r = ln_value a - ln_value b := by
  obtain ⟨f, rfl⟩ : ∃ f, fuel = f + 1 := ⟨fuel - 1, by omega⟩
  obtain ⟨r, hr, hwf, hneg, hmag⟩ :=
    ln_add_same_sign f out a (ln_negate_copy b) ha (ln_wf_negate_copy b hb)
      (by simp [ln_negate_copy, han, hbn]) ho (by omega) (by simpa [ln_negate_copy] using (by omega))
  unfold ln_sub
  rw [if_pos ⟨by simp [han], hbn⟩, hr]
  refine ⟨r, rfl, hwf, ?_⟩
  rw [ln_value_of_parts, ln_value_of_parts a, ln_value_of_parts b, hmag, ln_magnitude_negate_copy]
  simp [hneg, han, hbn]

theorem ln_sub_neg_pos (fuel : Nat) (out a b : ln_t) (ha : ln_wf a) (hb : ln_wf b)
    (han : a.negative = true) (hbn : b.negative = false) (ho : ln_is_empty out)
    (hfa : a.integer.length + 6 ≤ fuel) (hfb : b.integer.length + 6 ≤ fuel) :
    ∃ r, ln_sub fuel out a b = some r ∧ ln_wf r ∧ ln_value r = ln_value a - ln_value b := by
  obtain ⟨f, rfl⟩ : ∃ f, fuel = f + 1 := ⟨fuel - 1, by omega⟩
  obtain ⟨r, hr, hwf, hv⟩ := ln_sub_pos_neg f out b a hb ha hbn han ho (by omega) (by omega)
  unfold ln_sub
  have hs2 : ¬ (¬ a.negative = true ∧ b.negative = true) := by simp [han]
  rw [if_neg hs2, ln_cmp_eq_spec f a b (fun d hd => (ha.1 d hd).1) (by omega)]
  have hc : ln_cmp_spec a b = ln_Lesser := by
    unfold ln_cmp_spec
    rw [if_pos ⟨han, by simp [hbn]⟩]
  simp only []
  rw [if_pos hc, hr]
  refine ⟨ln_negate r, rfl, ln_wf_negate r hwf, ?_⟩
  rw [ln_value_negate, hv]
  ring

theorem ln_wf_of_head (r : ln_t) (hd : ln_digits_ok r) (hh : r.integer.head? ≠ some 0) : ln_wf r :=
  ⟨hd, fun h => absurd h hh⟩

theorem ln_sub_spec (fuel : Nat) (out a b : ln_t) (ha : ln_wf a) (hb : ln_wf b)
    (ho : ln_is_empty out)
    (hfa : a.integer.length + 6 ≤ fuel) (hfb : b.integer.length + 6 ≤ fuel) :
    ∃ r, ln_sub fuel out a b = some r ∧ ln_wf r ∧ ln_value r = ln_value a - ln_value b := by
  cases han : a.negative <;> cases hbn : b.negative
  · obtain ⟨r, hr, hd, hh, hv⟩ :=
      ln_sub_same_sign fuel out a b ha hb (by rw [han, hbn]) ho (by omega) (by omega)
    exact ⟨r, hr, ln_wf_of_head r hd hh, hv⟩
  · exact ln_sub_pos_neg fuel out a b ha hb han hbn ho (by omega) (by omega)
  · exact ln_sub_neg_pos fuel out a b ha hb han hbn ho hfa hfb
  · obtain ⟨r, hr, hd, hh, hv⟩ :=
      ln_sub_same_sign fuel out a b ha hb (by rw [han, hbn]) ho (by omega) (by omega)
    exact ⟨r, hr, ln_wf_of_head r hd hh, hv⟩

theorem ln_add_spec (fuel : Nat) (out a b : ln_t) (ha : ln_wf a) (hb : ln_wf b)
    (ho : ln_is_empty out)
    (hfa : a.integer.length + 6 ≤ fuel) (hfb : b.integer.length + 6 ≤ fuel) :
    ∃ r, ln_add fuel out a b = some r ∧ ln_wf r ∧ ln_value r = ln_value a + ln_value b := by
  cases han : a.negative <;> cases hbn : b.negative
  · obtain ⟨r, hr, hwf, hneg, hmag⟩ :=
      ln_add_same_sign fuel out a b ha hb (by rw [han, hbn]) ho (by omega) (by omega)
    refine ⟨r, hr, hwf, ?_⟩
    rw [ln_value_of_parts, ln_value_of_parts a, ln_value_of_parts b, hmag]
    simp [hneg, han, hbn]
  · obtain ⟨f, rfl⟩ : ∃ f, fuel = f + 1 := ⟨fuel - 1, by omega⟩
    obtain ⟨r, hr, hd, hh, hv⟩ :=
      ln_sub_same_sign f out a (ln_negate_copy b) ha (ln_wf_negate_copy b hb)
        (by simp [ln_negate_copy, han, hbn]) ho (by omega)
        (by simpa [ln_negate_copy] using (by omega))
    unfold ln_add
    rw [if_neg (by simp [han]), if_pos ⟨by simp [han], hbn⟩, hr]
    refine ⟨r, rfl, ln_wf_of_head r hd hh, ?_⟩
    rw [hv, ln_value_negate_copy]
    ring
  · obtain ⟨f, rfl⟩ : ∃ f, fuel = f + 1 := ⟨fuel - 1, by omega⟩
    obtain ⟨r, hr, hd, hh, hv⟩ :=
      ln_sub_same_sign f out (ln_negate_copy a) b (ln_wf_negate_copy a ha) hb
        (by simp [ln_negate_copy, han, hbn]) ho
        (by simpa [ln_negate_copy] using (by omega)) (by omega)
    unfold ln_add
    rw [if_pos ⟨han, by simp [hbn]⟩, hr]
    refine ⟨ln_negate r, rfl, ln_wf_negate r (ln_wf_of_head r hd hh), ?_⟩
    rw [ln_value_negate, hv, ln_value_negate_copy]
    ring
  · obtain ⟨r, hr, hwf, hneg, hmag⟩ :=
      ln_add_same_sign fuel out a b ha hb (by rw [han, hbn]) ho (by omega) (by omega)
    refine ⟨r, hr, hwf, ?_⟩
    rw [ln_value_of_parts, ln_value_of_parts a, ln_value_of_parts b, hmag]
    simp [hneg, han, hbn]
    ring

/-! ## Multiplication -/

theorem ln_clamp_of_nonneg (d : Int) (h : 0 ≤ d) : ln_clamp d = d := by
  unfold ln_clamp; rw [if_neg (by omega)]

theorem ln_clamp_bounds (d : Int) (h : -1 ≤ d ∧ d ≤ 9) : 0 ≤ ln_clamp d ∧ ln_clamp d ≤ 9 := by
  unfold ln_clamp; split <;> omega

theorem ln_clamp_value_cons (d : Int) (ds : List Int) :
    ln_clamp_value (d :: ds) = ln_clamp d * 10 ^ ds.length + ln_clamp_value ds := rfl

theorem ln_clamp_value_eq (l : List Int) (h : ∀ d ∈ l, 0 ≤ d) :
    ln_clamp_value l = ln_digits_value l := by
  induction l with
  | nil => rfl
  | cons x xs ih =>
    rw [ln_clamp_value_cons, ln_digits_value_cons, ih (fun d hd => h d (List.mem_cons_of_mem _ hd)),
      ln_clamp_of_nonneg x (h x (List.mem_cons_self _ _))]

theorem ln_clamp_value_replicate (n : Nat) : ln_clamp_value (List.replicate n (-1)) = 0 := by
  induction n with
  | zero => rfl
  | succ n ih =>
    rw [List.replicate_succ, ln_clamp_value_cons, ih]
    simp [ln_clamp]

theorem ln_clamp_value_set (l : List Int) : ∀ (p w : Nat) (v : Int), w + p + 1 = l.length →
    ln_clamp_value (l.set p v) =
      ln_clamp_value l + (ln_clamp v - ln_clamp (l.getD p 0)) * 10 ^ w := by
  induction l with
  | nil => intro p w v h; simp at h
  | cons d ds ih =>
    intro p w v h
    cases p with
    | zero =>
      simp only [List.set_cons_zero, ln_clamp_value_cons, List.getD_cons_zero]
      have hw : ds.length = w := by simp at h; omega
      rw [hw]
      ring
    | succ q =>
      simp only [List.set_cons_succ, ln_clamp_value_cons, List.getD_cons_succ, List.length_set]
      rw [ih q w v (by simp at h; omega)]
      ring

theorem getD_set_eq_self (l : List Int) (p : Nat) (v : Int) (h : p < l.length) :
    (l.set p v).getD p 0 = v := by
  simp [List.getD_eq_getElem?_getD, List.getElem?_set, h]

theorem getD_set_of_ne (l : List Int) (p q : Nat) (v : Int) (h : p ≠ q) :
    (l.set p v).getD q 0 = l.getD q 0 := by
  simp [List.getD_eq_getElem?_getD, List.getElem?_set_ne h]

theorem mem_set_bounds (l : List Int) (p : Nat) (v lo hi : Int) (hl : ∀ d ∈ l, lo ≤ d ∧ d ≤ hi)
    (hv : lo ≤ v ∧ v ≤ hi) : ∀ d ∈ l.set p v, lo ≤ d ∧ d ≤ hi := by
  intro d hd
  rcases List.mem_or_eq_of_mem_set hd with h | h
  · exact hl d h
  · rw [h]; exact hv

theorem ln_digits_value_take_succ (l : List Int) (m : Nat) (h : m < l.length) :
    ln_digits_value (l.take (m + 1)) = ln_digits_value (l.take m) * 10 + l.getD m 0 := by
  rw [List.take_succ, List.getElem?_eq_getElem h]
  simp only [Option.toList]
  rw [ln_digits_value_append, List.getD_eq_getElem l 0 h]

theorem ln_mul_inner_spec (a : ln_t) (b_i N : Nat) (vb : Int) (hvb0 : 0 ≤ vb)
    (ha0 : ∀ x ∈ a.integer, 0 ≤ x) (hprod : ∀ x ∈ a.integer, x * vb ≤ 81) :
    ∀ (m w : Nat) (out : ln_t) (carry : Int), m ≤ a.integer.length → w + m + b_i = N →
      out.integer.length = N → 0 ≤ carry → carry ≤ 9 →
      (∀ d ∈ out.integer, -1 ≤ d ∧ d ≤ 9) →
      (ln_mul_inner a b_i m out carry vb).1.integer.length = N ∧
      (ln_mul_inner a b_i m out carry vb).1.negative = out.negative ∧
      (∀ d ∈ (ln_mul_inner a b_i m out carry vb).1.integer, -1 ≤ d ∧ d ≤ 9) ∧
      0 ≤ (ln_mul_inner a b_i m out carry vb).2.1 ∧
      (ln_mul_inner a b_i m out carry vb).2.1 ≤ 9 ∧
      ln_clamp_value (ln_mul_inner a b_i m out carry vb).1.integer +
          (ln_mul_inner a b_i m out carry vb).2.1 * 10 ^ (w + m) =
        ln_clamp_value out.integer +
          (carry + vb * ln_digits_value (a.integer.take m)) * 10 ^ w ∧
      (∀ p, (p < b_i ∨ b_i + m ≤ p) →
        (ln_mul_inner a b_i m out carry vb).1.integer.getD p 0 = out.integer.getD p 0) ∧
      (∀ p, b_i ≤ p → p < b_i + m →
        0 ≤ (ln_mul_inner a b_i m out carry vb).1.integer.getD p 0) := by
  intro m
  induction m with
  | zero =>
    intro w out carry _ _ hlen hc0 hc9 hout
    unfold ln_mul_inner
    refine ⟨hlen, rfl, hout, hc0, hc9, ?_, fun _ _ => rfl, fun p h1 h2 => by omega⟩
    simp [ln_digits_value_nil]
  | succ m ih =>
    intro w out carry hm hw hlen hc0 hc9 hout
    unfold ln_mul_inner
    simp only []
    rw [if_neg (by omega : ¬ vb < 0)]
    have hm2 : m < a.integer.length := by omega
    rw [ln_at_of_lt a m hm2]
    have hva0 : 0 ≤ a.integer.getD m 0 := ha0 _ (getD_mem_of_lt _ _ hm2)
    have hva81 : a.integer.getD m 0 * vb ≤ 81 := hprod _ (getD_mem_of_lt _ _ hm2)
    rw [if_neg (by omega : ¬ a.integer.getD m 0 < 0)]
    have hp : m + b_i < out.integer.length := by omega
    rw [ln_at_of_lt out (m + b_i) hp]
    have hcur := ln_clamp_bounds (out.integer.getD (m + b_i) 0) (hout _ (getD_mem_of_lt _ _ hp))
    have hcl : (if out.integer.getD (m + b_i) 0 < 0 then 0 else out.integer.getD (m + b_i) 0)
        = ln_clamp (out.integer.getD (m + b_i) 0) := rfl
    rw [hcl]
    generalize hcurv : ln_clamp (out.integer.getD (m + b_i) 0) = cur at hcur ⊢
    generalize hvav : a.integer.getD m 0 = va at hva0 hva81 ⊢
    have hprod0 : 0 ≤ va * vb := mul_nonneg hva0 hvb0
    generalize hnv : cur + (carry + va * vb) = newval
    have hnv0 : 0 ≤ newval := by omega
    have hnv99 : newval ≤ 99 := by omega
    rw [Int.tdiv_eq_ediv hnv0 (by norm_num)]
    have hdig : -1 ≤ newval - newval / 10 * 10 ∧ newval - newval / 10 * 10 ≤ 9 := by omega
    have hdig0 : 0 ≤ newval - newval / 10 * 10 := by omega
    obtain ⟨i1, i2, i3, i4, i5, i6, i7, i8⟩ :=
      ih (w + 1) (ln_set out (m + b_i) (newval - newval / 10 * 10)) (newval / 10) (by omega)
        (by omega) (by simp [hlen]) (by omega) (by omega)
        (mem_set_bounds _ _ _ _ _ hout hdig)
    refine ⟨i1, by simpa using i2, i3, i4, i5, ?_, ?_, ?_⟩
    · have e1 : w + (m + 1) = w + 1 + m := by omega
      rw [e1, i6, ln_set_integer, ln_clamp_value_set out.integer (m + b_i) w _ (by omega),
        ln_digits_value_take_succ a.integer m hm2, hvav, hcurv, ln_clamp_of_nonneg _ hdig0,
        ← hnv, pow_succ]
      ring
    · intro p hp2
      rw [i7 p (by omega), ln_set_integer, getD_set_of_ne _ _ _ _ (by omega)]
    · intro p hp1 hp2
      by_cases hpe : p = m + b_i
      · rw [i7 p (by omega), ln_set_integer, hpe, getD_set_eq_self _ _ _ hp]
        exact hdig0
      · exact i8 p hp1 (by omega)

theorem ln_mul_outer_spec (a b : ln_t) (N : Nat)
    (ha0 : ∀ x ∈ a.integer, 0 ≤ x) (hb0 : ∀ y ∈ b.integer, 0 ≤ y)
    (hprod : ∀ x ∈ a.integer, ∀ y ∈ b.integer, x * y ≤ 81)
    (hN : N + 1 = a.integer.length + b.integer.length) (hal : 1 ≤ a.integer.length) :
    ∀ (k w : Nat) (out : ln_t), w + k = b.integer.length → 1 ≤ b.integer.length →
      out.integer.length = N → (∀ d ∈ out.integer, -1 ≤ d ∧ d ≤ 9) →
      (∀ p, p + 1 < k → out.integer.getD p 0 = -1) →
      (k < b.integer.length → ∀ p, k ≤ p → p < N → 0 ≤ out.integer.getD p 0) →
      (ln_mul_outer a b k out).negative = out.negative ∧
      (∀ d ∈ (ln_mul_outer a b k out).integer, 0 ≤ d ∧ d ≤ 9) ∧
      ln_digits_value (ln_mul_outer a b k out).integer =
        ln_clamp_value out.integer +
          ln_digits_value a.integer * ln_digits_value (b.integer.take k) * 10 ^ w ∧
      ((ln_mul_outer a b k out).integer.length = N ∨
        ((ln_mul_outer a b k out).integer.length = N + 1 ∧
          ∃ h t, (ln_mul_outer a b k out).integer = h :: t ∧ 1 ≤ h)) := by
  intro k
  induction k with
  | zero =>
    intro w out hw hbl hlen hout _ hset
    unfold ln_mul_outer
    have hnn : ∀ d ∈ out.integer, 0 ≤ d := by
      intro d hd
      obtain ⟨i, hi, rfl⟩ := List.getElem_of_mem hd
      have := hset (by omega) i (by omega) (by omega)
      rwa [List.getD_eq_getElem _ 0 hi] at this
    refine ⟨rfl, fun d hd => ⟨hnn d hd, (hout d hd).2⟩, ?_, Or.inl hlen⟩
    rw [ln_clamp_value_eq _ hnn]
    simp [ln_digits_value_nil]
  | succ k ih =>
    intro w out hw hbl hlen hout hunset hset
    have hk : k < b.integer.length := by omega
    have hvb0 : 0 ≤ b.integer.getD k 0 := hb0 _ (getD_mem_of_lt _ _ hk)
    have hpr : ∀ x ∈ a.integer, x * b.integer.getD k 0 ≤ 81 :=
      fun x hx => hprod x hx _ (getD_mem_of_lt _ _ hk)
    have hin := ln_mul_inner_spec a k N (b.integer.getD k 0) hvb0 ha0 hpr a.integer.length w out 0
      (le_refl _) (by omega) hlen (le_refl _) (by norm_num) hout
    unfold ln_mul_outer
    simp only [Nat.zero_add]
    rw [ln_at_of_lt b k hk]
    have hsz : a.int_sz = a.integer.length := rfl
    rw [hsz]
    generalize ln_mul_inner a k a.integer.length out 0 (b.integer.getD k 0) = res at hin ⊢
    obtain ⟨j1, j2, j3, j4, j5, j6, j7, j8⟩ := hin
    rw [List.take_length] at j6
    have hkN : k < res.1.integer.length := by omega
    rw [ln_at_of_lt res.1 k hkN]
    have hc0 : 0 ≤ res.1.integer.getD k 0 := j8 k (le_refl _) (by omega)
    have hc9 : res.1.integer.getD k 0 ≤ 9 := (j3 _ (getD_mem_of_lt _ _ hkN)).2
    rw [if_neg (by omega : ¬ res.1.integer.getD k 0 < 0)]
    generalize hc0v : res.1.integer.getD k 0 = c0 at hc0 hc9 ⊢
    generalize hcarry : res.2.1 = carry1 at j4 j5 j6 ⊢
    have htake : ln_digits_value (b.integer.take (k + 1)) =
        ln_digits_value (b.integer.take k) * 10 + b.integer.getD k 0 :=
      ln_digits_value_take_succ b.integer k hk
    -- facts on the buffer after the row
    have hnn1 : ∀ p, k ≤ p → p < N → 0 ≤ res.1.integer.getD p 0 := by
      intro p hp1 hp2
      by_cases hp3 : p < k + a.integer.length
      · exact j8 p hp1 hp3
      · rw [j7 p (Or.inr (by omega))]
        exact hset (by omega) p (by omega) hp2
    by_cases hbig : c0 + carry1 * 10 ≥ 10
    · rw [if_pos hbig]
      have hcpos : 1 ≤ carry1 := by omega
      have hdoz : Int.tdiv (c0 + carry1 * 10) 10 = carry1 := by
        rw [Int.tdiv_eq_ediv (by omega) (by norm_num)]; omega
      rw [hdoz]
      have hdec : c0 + carry1 * 10 - carry1 * 10 = c0 := by ring
      rw [hdec]
      have hs2 : ∀ d ∈ (ln_set res.1 k c0).integer, -1 ≤ d ∧ d ≤ 9 :=
        mem_set_bounds _ _ _ _ _ j3 ⟨by omega, hc9⟩
      have hcv2 : ln_clamp_value (ln_set res.1 k c0).integer = ln_clamp_value res.1.integer := by
        rw [ln_set_integer, ln_clamp_value_set res.1.integer k (N - k - 1) c0 (by omega), hc0v,
          ln_clamp_of_nonneg c0 hc0]
        ring
      have hget2 : ∀ p, (ln_set res.1 k c0).integer.getD p 0 = res.1.integer.getD p 0 := by
        intro p
        by_cases hpk : k = p
        · subst hpk
          rw [ln_set_integer, getD_set_eq_self _ _ _ hkN, hc0v]
        · rw [ln_set_integer, getD_set_of_ne _ _ _ _ hpk]
      cases k with
      | zero =>
        rw [if_pos rfl]
        unfold ln_mul_outer
        have hnn3 : ∀ d ∈ (ln_set res.1 0 c0).integer, 0 ≤ d := by
          intro d hd
          obtain ⟨i, hi, rfl⟩ := List.getElem_of_mem hd
          have hi2 : i < N := by simpa [j1] using hi
          have := hnn1 i (by omega) hi2
          rw [← hget2 i, List.getD_eq_getElem _ 0 hi] at this
          exact this
        refine ⟨by simp [j2], ?_, ?_, Or.inr ⟨by simp [j1], carry1, (ln_set res.1 0 c0).integer,
          ln_prepend_integer _ _, hcpos⟩⟩
        · intro d hd
          simp only [ln_prepend_integer, List.mem_cons] at hd
          rcases hd with hd | hd
          · omega
          · exact ⟨hnn3 d hd, (hs2 d hd).2⟩
        · rw [ln_prepend_integer, ln_digits_value_cons, ← ln_clamp_value_eq _ hnn3, hcv2]
          have hl : (ln_set res.1 0 c0).integer.length = w + a.integer.length := by
            simp [j1]; omega
          rw [hl, htake]
          simp only [List.take_zero, ln_digits_value_nil, zero_mul, zero_add]
          have e := j6
          simp only [zero_add] at e
          linarith
      | succ k2 =>
        rw [if_neg (by omega)]
        simp only [Nat.add_sub_cancel]
        have hunset2 : (ln_set res.1 (k2 + 1) c0).integer.getD k2 0 = -1 := by
          rw [hget2, j7 k2 (Or.inl (by omega))]
          exact hunset k2 (by omega)
        obtain ⟨r1, r2, r3, r4⟩ := ih (w + 1)
          (ln_set (ln_set res.1 (k2 + 1) c0) k2 carry1) (by omega) hbl (by simp [j1])
          (mem_set_bounds _ _ _ _ _ hs2 ⟨by omega, j5⟩)
          (by
            intro p hp
            rw [ln_set_integer, getD_set_of_ne _ _ _ _ (by omega), hget2,
              j7 p (Or.inl (by omega))]
            exact hunset p (by omega))
          (by
            intro _ p hp1 hp2
            by_cases hpe : p = k2
            · rw [ln_set_integer, hpe, getD_set_eq_self _ _ _ (by simp [j1]; omega)]
              omega
            · rw [ln_set_integer, getD_set_of_ne _ _ _ _ (by omega), hget2]
              exact hnn1 p (by omega) hp2)
        refine ⟨by simpa [j2] using r1, r2, ?_, r4⟩
        rw [r3, ln_set_integer,
          ln_clamp_value_set _ k2 (w + a.integer.length) carry1 (by simp [j1]; omega),
          hunset2, hcv2, htake, ln_clamp_of_nonneg carry1 (by omega)]
        have hm1 : ln_clamp (-1) = 0 := rfl
        rw [hm1, pow_succ]
        have e := j6
        simp only [zero_add] at e
        linear_combination e
    · rw [if_neg hbig]
      have hcz : carry1 = 0 := by omega
      subst hcz
      simp only [zero_mul, add_zero] at j6 ⊢
      have hs2 : ∀ d ∈ (ln_set res.1 k c0).integer, -1 ≤ d ∧ d ≤ 9 :=
        mem_set_bounds _ _ _ _ _ j3 ⟨by omega, hc9⟩
      have hcv2 : ln_clamp_value (ln_set res.1 k c0).integer = ln_clamp_value res.1.integer := by
        rw [ln_set_integer, ln_clamp_value_set res.1.integer k (N - k - 1) c0 (by omega), hc0v,
          ln_clamp_of_nonneg c0 hc0]
        ring
      have hget2 : ∀ p, (ln_set res.1 k c0).integer.getD p 0 = res.1.integer.getD p 0 := by
        intro p
        by_cases hpk : k = p
        · subst hpk
          rw [ln_set_integer, getD_set_eq_self _ _ _ hkN, hc0v]
        · rw [ln_set_integer, getD_set_of_ne _ _ _ _ hpk]
      obtain ⟨r1, r2, r3, r4⟩ := ih (w + 1) (ln_set res.1 k c0) (by omega) hbl (by simp [j1]) hs2
        (by
          intro p hp
          rw [hget2, j7 p (Or.inl (by omega))]
          exact hunset p (by omega))
        (by
          intro _ p hp1 hp2
          rw [hget2]
          exact hnn1 p hp1 hp2)
      refine ⟨by simpa [j2] using r1, r2, ?_, r4⟩
      rw [r3, hcv2, htake, pow_succ]
      linear_combination j6

theorem ln_is_zero_false_of_head (a : ln_t) (h : ∃ x xs, a.integer = x :: xs ∧ 1 ≤ x) :
    ln_is_zero a = false := by
  obtain ⟨x, xs, hx, h1⟩ := h
  unfold ln_is_zero ln_t.int_sz
  rw [hx]
  cases xs with
  | nil =>
    have : ¬ x = 0 := by omega
    simp [this]
  | cons y ys => simp

theorem ln_is_zero_iff (a : ln_t) : ln_is_zero a = true ↔ a.integer = [] ∨ a.integer = [0] := by
  unfold ln_is_zero ln_t.int_sz
  cases h : a.integer with
  | nil => simp
  | cons x xs =>
    cases xs with
    | nil => simp
    | cons y ys => simp

theorem ln_head_of_wf_nonzero (a : ln_t) (ha : ln_wf a) (hz : ln_is_zero a = false) :
    ∃ x xs, a.integer = x :: xs ∧ 1 ≤ x := by
  have hnz : ¬ (a.integer = [] ∨ a.integer = [0]) := by
    rw [← ln_is_zero_iff, hz]; simp
  cases h : a.integer with
  | nil => exact absurd (Or.inl h) hnz
  | cons x xs =>
    refine ⟨x, xs, rfl, ?_⟩
    have hx0 : 0 ≤ x := (ha.1 x (by rw [h]; exact List.mem_cons_self _ _)).1
    by_contra hc
    have hx : x = 0 := by omega
    have := ha.2 (by rw [h, hx]; rfl)
    exact hnz (Or.inr this)

theorem ln_mul_spec (out a b : ln_t) (ho : ln_is_empty out)
    (ha0 : ∀ x ∈ a.integer, 0 ≤ x) (hb0 : ∀ y ∈ b.integer, 0 ≤ y)
    (hprod : ∀ x ∈ a.integer, ∀ y ∈ b.integer, x * y ≤ 81)
    (hha : ∃ x xs, a.integer = x :: xs ∧ 1 ≤ x) (hhb : ∃ y ys, b.integer = y :: ys ∧ 1 ≤ y) :
    (ln_mul out a b).negative = (a.negative != b.negative) ∧
      ln_digits_ok (ln_mul out a b) ∧
      (ln_mul out a b).integer.head? ≠ some 0 ∧
      ln_magnitude (ln_mul out a b) = ln_magnitude a * ln_magnitude b := by
  have hza := ln_is_zero_false_of_head a hha
  have hzb := ln_is_zero_false_of_head b hhb
  obtain ⟨x, xs, hax, hx1⟩ := hha
  obtain ⟨y, ys, hby, hy1⟩ := hhb
  obtain ⟨hoi, hon⟩ := ho
  have hal : 1 ≤ a.integer.length := by rw [hax]; simp
  have hbl : 1 ≤ b.integer.length := by rw [hby]; simp
  have hres : (ln_resize out (a.int_sz + b.int_sz - 1)).integer =
      List.replicate (a.integer.length + b.integer.length - 1) (-1) := by
    unfold ln_resize ln_t.int_sz
    simp [hoi]
  have hresn : (ln_resize out (a.int_sz + b.int_sz - 1)).negative = false := by
    unfold ln_resize
    simp [hon]
  obtain ⟨r1, r2, r3, r4⟩ := ln_mul_outer_spec a b (a.integer.length + b.integer.length - 1)
    ha0 hb0 hprod (by omega) hal b.integer.length 0
    (ln_resize out (a.int_sz + b.int_sz - 1)) (by omega) hbl
    (by rw [hres]; simp)
    (by
      intro d hd
      rw [hres] at hd
      have := List.eq_of_mem_replicate hd
      omega)
    (by
      intro p hp
      rw [hres, List.getD_eq_getElem _ 0 (by simp; omega)]
      simp)
    (by intro h; omega)
  rw [hres, ln_clamp_value_replicate, List.take_length, pow_zero, mul_one, zero_add] at r3
  rw [hresn] at r1
  have r1b : (ln_mul_outer a b b.int_sz (ln_resize out (a.int_sz + b.int_sz - 1))).negative
      = false := r1
  have hmulint : (ln_mul out a b).integer =
      (ln_mul_outer a b b.integer.length (ln_resize out (a.int_sz + b.int_sz - 1))).integer := by
    unfold ln_mul
    simp only [hza, hzb]
    simp only [Bool.false_eq_true, or_self, if_false]
    split <;> rfl
  have hmulneg : (ln_mul out a b).negative = (a.negative != b.negative) := by
    unfold ln_mul
    simp only [hza, hzb]
    simp only [Bool.false_eq_true, or_self, if_false]
    cases han : a.negative <;> cases hbn : b.negative <;> simp [r1b]
  generalize ln_mul_outer a b b.integer.length (ln_resize out (a.int_sz + b.int_sz - 1)) = r
    at r1 r2 r3 r4 hmulint
  refine ⟨hmulneg, ?_, ?_, ?_⟩
  · unfold ln_digits_ok; rw [hmulint]; exact r2
  · rw [hmulint]
    rcases r4 with hl | ⟨_, h, t, hht, hh1⟩
    · intro h0
      have hA : 10 ^ xs.length ≤ ln_digits_value a.integer := by
        rw [hax]
        exact ln_digits_value_ge_of_head x xs hx1
          (fun d hd => ha0 d (by rw [hax]; exact List.mem_cons_of_mem _ hd))
      have hB : 10 ^ ys.length ≤ ln_digits_value b.integer := by
        rw [hby]
        exact ln_digits_value_ge_of_head y ys hy1
          (fun d hd => hb0 d (by rw [hby]; exact List.mem_cons_of_mem _ hd))
      have hlen2 : r.integer.length - 1 = xs.length + ys.length := by
        rw [hl, hax, hby]; simp
      have hAB : (10 : Int) ^ (r.integer.length - 1) ≤ ln_digits_value r.integer := by
        rw [r3, hlen2, pow_add]
        have h1 : (0 : Int) < 10 ^ xs.length := by positivity
        have h2 : (0 : Int) < 10 ^ ys.length := by positivity
        nlinarith
      have h00 := ln_no_leading_zero_of_value r.integer r2 (fun _ => hAB) h0
      rw [h00] at hAB
      simp [ln_digits_value] at hAB
    · rw [hht]
      simp
      omega
  · unfold ln_magnitude
    rw [hmulint, r3]

theorem ln_magnitude_of_is_zero (a : ln_t) (h : ln_is_zero a = true) : ln_magnitude a = 0 := by
  rw [ln_is_zero_iff] at h
  unfold ln_magnitude
  rcases h with h | h <;> rw [h] <;> simp [ln_digits_value]

theorem ln_digit_product_le (a b : ln_t) (ha : ln_digits_ok a) (hb : ln_digits_ok b) :
    ∀ x ∈ a.integer, ∀ y ∈ b.integer, x * y ≤ 81 := by
  intro x hx y hy
  have h1 := ha x hx
  have h2 := hb y hy
  nlinarith

/-! ## Text conversion -/

theorem ln_append_str_loop_negative (str : List Char) (l : Nat) :
    ∀ (k idx : Nat) (n : ln_t), (ln_append_str_loop str l k idx n).negative = n.negative := by
  intro k
  induction k with
  | zero => intro idx n; rfl
  | succ k ih =>
    intro idx n
    unfold ln_append_str_loop
    split
    · rw [ih]; simp
    · rfl

theorem ln_append_str_negative (n : ln_t) (str : List Char) (l : Nat) :
    (ln_append_str n str l).negative = n.negative := by
  unfold ln_append_str
  simp only []
  rw [ln_append_str_loop_negative]
  simp

/-! ## Integer square root -/

theorem ln_append_str_two (n : ln_t) :
    (ln_append_str n ['2'] 1).integer = n.integer ++ [2] ∧
      (ln_append_str n ['2'] 1).negative = n.negative := by
  refine ⟨?_, ln_append_str_negative n _ _⟩
  simp [ln_append_str, ln_append_str_loop]

theorem ln_append_int_digit (n : ln_t) (x : Int) (h0 : 0 ≤ x) (h9 : x ≤ 9) :
    (ln_append_int n x).integer = n.integer ++ [x] ∧
      (ln_append_int n x).negative = n.negative := by
  have hneg : (ln_append_int n x).negative = n.negative := by
    unfold ln_append_int
    simp only []
    rw [ln_append_str_negative, if_neg (by omega)]
  refine ⟨?_, hneg⟩
  interval_cases x <;>
    simp [ln_append_int, ln_append_str, ln_append_str_loop, sprintf_d, Nat.toDigits,
      Nat.toDigitsCore, Nat.digitChar]

theorem ln_append_int_ten (n : ln_t) :
    (ln_append_int n 10).integer = n.integer ++ [1, 0] ∧
      (ln_append_int n 10).negative = n.negative := by
  have hneg : (ln_append_int n 10).negative = n.negative := by
    unfold ln_append_int
    simp only []
    rw [ln_append_str_negative, if_neg (by omega)]
  refine ⟨?_, hneg⟩
  simp [ln_append_int, ln_append_str, ln_append_str_loop, sprintf_d, Nat.toDigits,
      Nat.toDigitsCore, Nat.digitChar]

theorem ln_canonical_value_ge (a : ln_t) (ha : ln_canonical a) (hne : a.integer ≠ []) :
    10 ^ (a.integer.length - 1) ≤ ln_magnitude a := by
  obtain ⟨hd, hh⟩ := ha
  unfold ln_magnitude
  cases hl : a.integer with
  | nil => exact absurd hl hne
  | cons x xs =>
    rw [hl] at hh
    simp only [List.length_cons, Nat.add_sub_cancel]
    apply ln_digits_value_ge_of_head
    · have hx := (hd x (by rw [hl]; exact List.mem_cons_self _ _)).1
      have hx0 : x ≠ 0 := fun h => hh (by rw [h]; rfl)
      omega
    · intro d hd2
      exact (hd d (by rw [hl]; exact List.mem_cons_of_mem _ hd2)).1

theorem ln_canonical_wf (a : ln_t) (ha : ln_canonical a) : ln_wf a :=
  ⟨ha.1, fun h => absurd h ha.2⟩

theorem ln_canonical_length_le (a : ln_t) (ha : ln_canonical a) (k : Nat)
    (hk : ln_magnitude a < 10 ^ k) : a.integer.length ≤ k := by
  by_cases hne : a.integer = []
  · rw [hne]; simp
  · have h1 := ln_canonical_value_ge a ha hne
    have h2 : (10 : Int) ^ (a.integer.length - 1) < 10 ^ k := lt_of_le_of_lt h1 hk
    have h3 : a.integer.length - 1 < k := (pow_lt_pow_iff_right₀ (by norm_num)).mp h2
    omega

theorem ln_canonical_lens_lt (a b : ln_t) (ha : ln_canonical a) (hb : ln_canonical b)
    (h : a.integer.length < b.integer.length) : ln_magnitude a < ln_magnitude b := by
  have h1 := ln_magnitude_lt a ha.1
  have hne : b.integer ≠ [] := by
    intro hc; rw [hc] at h; simp at h
  have h2 := ln_canonical_value_ge b hb hne
  have h3 : (10 : Int) ^ a.integer.length ≤ 10 ^ (b.integer.length - 1) :=
    pow_le_pow_right₀ (by norm_num) (by omega)
  omega

theorem ln_cmp_spec_canonical (a b : ln_t) (ha : ln_canonical a) (hb : ln_canonical b)
    (han : a.negative = false) (hbn : b.negative = false) :
    (ln_cmp_spec a b = ln_Lesser → ln_magnitude a < ln_magnitude b) ∧
    (ln_cmp_spec a b = ln_Equal → ln_magnitude a = ln_magnitude b) ∧
    (ln_cmp_spec a b = ln_Greater → ln_magnitude b < ln_magnitude a) := by
  unfold ln_cmp_spec
  rw [if_neg (by simp [han]), if_neg (by simp [hbn])]
  by_cases h1 : a.integer.length > b.integer.length
  · rw [if_pos h1]
    have := ln_canonical_lens_lt b a hb ha h1
    exact ⟨fun h => (by cases h), fun h => (by cases h), fun _ => this⟩
  · rw [if_neg h1]
    by_cases h2 : a.integer.length < b.integer.length
    · rw [if_pos h2]
      have := ln_canonical_lens_lt a b ha hb h2
      exact ⟨fun _ => this, fun h => (by cases h), fun h => (by cases h)⟩
    · rw [if_neg h2]
      exact ln_lex_value a.integer b.integer (by omega) ha.1 hb.1

theorem ln_cmp_spec_of_lt (a b : ln_t) (ha : ln_canonical a) (hb : ln_canonical b)
    (han : a.negative = false) (hbn : b.negative = false) (h : ln_magnitude a < ln_magnitude b) :
    ln_cmp_spec a b = ln_Lesser := by
  obtain ⟨_, i2, i3⟩ := ln_cmp_spec_canonical a b ha hb han hbn
  cases hc : ln_cmp_spec a b with
  | ln_Lesser => rfl
  | ln_Equal => have := i2 hc; omega
  | ln_Greater => have := i3 hc; omega

theorem ln_cmp_spec_of_eq (a b : ln_t) (ha : ln_canonical a) (hb : ln_canonical b)
    (han : a.negative = false) (hbn : b.negative = false) (h : ln_magnitude a = ln_magnitude b) :
    ln_cmp_spec a b = ln_Equal := by
  obtain ⟨i1, _, i3⟩ := ln_cmp_spec_canonical a b ha hb han hbn
  cases hc : ln_cmp_spec a b with
  | ln_Lesser => have := i1 hc; omega
  | ln_Equal => rfl
  | ln_Greater => have := i3 hc; omega

theorem ln_cmp_spec_of_gt (a b : ln_t) (ha : ln_canonical a) (hb : ln_canonical b)
    (han : a.negative = false) (hbn : b.negative = false) (h : ln_magnitude b < ln_magnitude a) :
    ln_cmp_spec a b = ln_Greater := by
  obtain ⟨i1, i2, _⟩ := ln_cmp_spec_canonical a b ha hb han hbn
  cases hc : ln_cmp_spec a b with
  | ln_Lesser => have := i1 hc; omega
  | ln_Equal => have := i2 hc; omega
  | ln_Greater => rfl

theorem ln_append_int_small (x : Int) (h1 : 1 ≤ x) (h10 : x ≤ 10) :
    (ln_append_int ln_init x).negative = false ∧
      ln_magnitude (ln_append_int ln_init x) = x ∧
      (∃ y ys, (ln_append_int ln_init x).integer = y :: ys ∧ 1 ≤ y) ∧
      (∀ y ∈ (ln_append_int ln_init x).integer, 0 ≤ y ∧ y ≤ 9) ∧
      (x = 10 → ∀ y ∈ (ln_append_int ln_init x).integer, y ≤ 1) := by
  by_cases hx : x = 10
  · subst hx
    obtain ⟨e1, e2⟩ := ln_append_int_ten ln_init
    unfold ln_magnitude
    rw [e1, e2]
    simp [ln_digits_value]
  · obtain ⟨e1, e2⟩ := ln_append_int_digit ln_init x (by omega) (by omega)
    unfold ln_magnitude
    rw [e1, e2]
    simp [ln_digits_value]
    omega

theorem ln_canonical_of_empty (o : ln_t) (h : o.integer = []) : ln_canonical o := by
  refine ⟨?_, ?_⟩
  · intro d hd; rw [h] at hd; simp at hd
  · rw [h]; simp

theorem x20ppx_double (out p : ln_t) (ho : ln_is_empty out) (hp : ln_wf p)
    (hpn : p.negative = false) :
    (ln_mul_str out p ['2'] 1).negative = false ∧ ln_canonical (ln_mul_str out p ['2'] 1) ∧
      ln_magnitude (ln_mul_str out p ['2'] 1) = 2 * ln_magnitude p := by
  unfold ln_mul_str
  simp only []
  obtain ⟨e1, e2⟩ := ln_append_str_two ln_init
  generalize ln_append_str ln_init ['2'] 1 = nint at e1 e2 ⊢
  simp only [ln_init_integer, List.nil_append, ln_init_negative] at e1 e2
  by_cases hz : ln_is_zero p = true
  · have hm : ln_mul out p nint = out := by
      unfold ln_mul; rw [if_pos (Or.inl hz)]
    rw [hm, ln_magnitude_of_is_zero p hz]
    refine ⟨ho.2, ln_canonical_of_empty out ho.1, ?_⟩
    unfold ln_magnitude; rw [ho.1]; rfl
  · have hz2 : ln_is_zero p = false := by
      cases h : ln_is_zero p
      · rfl
      · exact absurd h hz
    obtain ⟨m1, m2, m3, m4⟩ := ln_mul_spec out p nint ho (fun x hx => (hp.1 x hx).1)
      (by intro y hy; rw [e1] at hy; simp at hy; omega)
      (by
        intro x hx y hy
        rw [e1] at hy
        simp at hy
        have := hp.1 x hx
        subst hy
        omega)
      (ln_head_of_wf_nonzero p hp hz2) ⟨2, [], e1, by norm_num⟩
    refine ⟨by rw [m1, hpn, e2]; rfl, ⟨m2, m3⟩, ?_⟩
    rw [m4]
    unfold ln_magnitude
    rw [e1]
    simp [ln_digits_value]
    ring

theorem x20ppx_spec (out p : ln_t) (x : Int) (ho : ln_is_empty out) (hp : ln_wf p)
    (hpn : p.negative = false) (hx0 : 0 ≤ x) (hx10 : x ≤ 10) :
    (x20ppx out p x).negative = false ∧ ln_canonical (x20ppx out p x) ∧
      ln_magnitude (x20ppx out p x) = x * (20 * ln_magnitude p + x) := by
  obtain ⟨a1, a2, a3⟩ := x20ppx_double out p ho hp hpn
  unfold x20ppx ln_mul_int
  simp only []
  generalize ln_mul_str out p ['2'] 1 = o1 at a1 a2 a3 ⊢
  have hmag2 : ln_magnitude (ln_copy (ln_append o1 x)) = 20 * ln_magnitude p + x := by
    unfold ln_magnitude at a3 ⊢
    rw [ln_copy_integer, ln_append_integer, ln_digits_value_append, a3]
    ring
  by_cases hx : x = 0
  · subst hx
    obtain ⟨e1, e2⟩ := ln_append_int_digit ln_init 0 (le_refl _) (by norm_num)
    have hz : ln_is_zero (ln_append_int ln_init 0) = true := by
      rw [ln_is_zero_iff, e1]; simp
    have hm : ln_mul ln_init (ln_copy (ln_append o1 0)) (ln_append_int ln_init 0) = ln_init := by
      unfold ln_mul; rw [if_pos (Or.inr hz)]
    rw [hm]
    refine ⟨rfl, ln_canonical_of_empty _ rfl, ?_⟩
    simp [ln_magnitude, ln_digits_value]
  · obtain ⟨n1, n2, n3, n4, n5⟩ := ln_append_int_small x (by omega) hx10
    generalize ln_append_int ln_init x = nint at n1 n2 n3 n4 n5 ⊢
    have hdig : ∀ d ∈ (ln_copy (ln_append o1 x)).integer, 0 ≤ d ∧ d ≤ 10 ∧ (x ≠ 10 → d ≤ 9) := by
      intro d hd
      simp only [ln_copy_integer, ln_append_integer, List.mem_append, List.mem_singleton] at hd
      rcases hd with hd | hd
      · have := a2.1 d hd
        exact ⟨this.1, by omega, fun _ => this.2⟩
      · subst hd
        exact ⟨hx0, hx10, fun h => by omega⟩
    have hhead : ∃ h t, (ln_copy (ln_append o1 x)).integer = h :: t ∧ 1 ≤ h := by
      simp only [ln_copy_integer, ln_append_integer]
      cases ho1 : o1.integer with
      | nil => exact ⟨x, [], rfl, by omega⟩
      | cons h t =>
        refine ⟨h, t ++ [x], rfl, ?_⟩
        have h0 := (a2.1 h (by rw [ho1]; exact List.mem_cons_self _ _)).1
        have hne : h ≠ 0 := fun hc => a2.2 (by rw [ho1, hc]; rfl)
        omega
    obtain ⟨m1, m2, m3, m4⟩ := ln_mul_spec ln_init (ln_copy (ln_append o1 x)) nint ⟨rfl, rfl⟩
      (fun d hd => (hdig d hd).1) (fun y hy => (n4 y hy).1)
      (by
        intro d hd y hy
        obtain ⟨d0, d10, d9⟩ := hdig d hd
        obtain ⟨y0, y9⟩ := n4 y hy
        by_cases h10 : x = 10
        · have := n5 h10 y hy
          nlinarith
        · have := d9 h10
          nlinarith)
      hhead n3
    refine ⟨by rw [m1, n1]; simp [a1], ⟨m2, m3⟩, ?_⟩
    rw [m4, hmag2, n2]
    ring

theorem ln_sqrt_search_spec (p remainder : ln_t) (K : Nat)
    (hp : ln_wf p) (hpn : p.negative = false)
    (hr : ln_canonical remainder) (hrn : remainder.negative = false)
    (hR : ln_magnitude remainder ≤ 200 * ln_magnitude p + 99)
    (hK : 200 * ln_magnitude p + 100 < 10 ^ K) :
    ∀ (fuel : Nat) (tmp : ln_t) (x : Int), 1 ≤ x → x ≤ 10 →
      (x - 1) * (20 * ln_magnitude p + (x - 1)) ≤ ln_magnitude remainder →
      (K : Int) + 12 ≤ fuel + x →
      ∃ xs ts, ln_sqrt_search p remainder fuel tmp x = some (xs, ts) ∧ 0 ≤ xs ∧ xs ≤ 9 ∧
        xs * (20 * ln_magnitude p + xs) ≤ ln_magnitude remainder ∧
        ln_magnitude remainder < (xs + 1) * (20 * ln_magnitude p + (xs + 1)) := by
  have hP0 : 0 ≤ ln_magnitude p := ln_magnitude_nonneg p hp.1
  intro fuel
  induction fuel with
  | zero => intro tmp x h1 h10 _ hf; omega
  | succ f ih =>
    intro tmp x h1 h10 hprev hf
    unfold ln_sqrt_search
    simp only []
    obtain ⟨t1, t2, t3⟩ := x20ppx_spec (ln_clear tmp) p x ⟨rfl, rfl⟩ hp hpn (by omega) h10
    generalize x20ppx (ln_clear tmp) p x = tmp1 at t1 t2 t3 ⊢
    have hlen : tmp1.integer.length ≤ K := by
      apply ln_canonical_length_le tmp1 t2 K
      rw [t3]
      nlinarith
    rw [ln_cmp_eq_spec f tmp1 remainder (fun d hd => (t2.1 d hd).1) (by omega)]
    simp only []
    obtain ⟨c1, c2, c3⟩ := ln_cmp_spec_canonical tmp1 remainder t2 hr t1 hrn
    cases hc : ln_cmp_spec tmp1 remainder with
    | ln_Lesser =>
      have hlt := c1 hc
      rw [t3] at hlt
      have hx9 : x ≤ 9 := by
        by_contra hcon
        have hx : x = 10 := by omega
        subst hx
        omega
      simp only [if_neg (show ¬ ln_Lesser = ln_Greater by decide),
        if_neg (show ¬ ln_Lesser = ln_Equal by decide)]
      exact ih tmp1 (x + 1) (by omega) (by omega)
        (by rw [show x + 1 - 1 = x by ring]; omega) (by push_cast at hf ⊢; omega)
    | ln_Equal =>
      have heq := c2 hc
      rw [t3] at heq
      have hx9 : x ≤ 9 := by
        by_contra hcon
        have hx : x = 10 := by omega
        subst hx
        omega
      simp only [if_neg (show ¬ ln_Equal = ln_Greater by decide), if_true]
      refine ⟨x, tmp1, rfl, by omega, hx9, by omega, ?_⟩
      rw [← heq]
      nlinarith
    | ln_Greater =>
      have hgt := c3 hc
      rw [t3] at hgt
      simp only [if_true]
      refine ⟨x - 1, tmp1, rfl, by omega, by omega, hprev, ?_⟩
      rw [show x - 1 + 1 = x by ring]
      exact hgt

theorem SIZE_MOD_eq : SIZE_MOD = 18446744073709551616 := by
  unfold SIZE_MOD; norm_num

theorem ln_hi_lt (l : List Int) (hl : ∀ d ∈ l, 0 ≤ d ∧ d ≤ 9) (it : Nat) :
    ln_hi l it < 10 ^ l.length := by
  unfold ln_hi
  have h1 := ln_digits_value_lt (l.take (l.length - it))
    (fun d hd => (hl d (List.mem_of_mem_take hd)).2)
  have h2 : (10 : Int) ^ (l.take (l.length - it)).length ≤ 10 ^ l.length :=
    pow_le_pow_right₀ (by norm_num) (by simp)
  omega

theorem ln_sqrt_bring_spec (r : ln_t) (va vb : Int) (hr : ln_canonical r)
    (hva : 0 ≤ va ∧ va ≤ 9) (hvb : 0 ≤ vb ∧ vb ≤ 9) :
    ln_canonical (ln_trim (ln_append (ln_append r va) vb)) ∧
      (ln_trim (ln_append (ln_append r va) vb)).negative = r.negative ∧
      ln_magnitude (ln_trim (ln_append (ln_append r va) vb)) =
        ln_magnitude r * 100 + va * 10 + vb := by
  obtain ⟨t1, t2⟩ := ln_trim_count_spec (ln_append (ln_append r va) vb).integer
  refine ⟨⟨?_, ?_⟩, by simp, ?_⟩
  · intro d hd
    rw [ln_trim_integer] at hd
    have hd2 := List.mem_of_mem_drop hd
    simp only [ln_append_integer, List.mem_append, List.mem_singleton] at hd2
    rcases hd2 with (hd2 | hd2) | hd2
    · exact hr.1 d hd2
    · rw [hd2]; exact hva
    · rw [hd2]; exact hvb
  · rw [ln_trim_integer]; exact t2
  · unfold ln_magnitude
    rw [ln_trim_integer, t1, ln_append_integer, ln_append_integer, ln_digits_value_append,
      ln_digits_value_append]
    ring

theorem ln_sqrt_root_step (p : ln_t) (x : Int) (hp : ln_wf p) (hx0 : 0 ≤ x) (hx9 : x ≤ 9) :
    ln_wf (ln_append_int (ln_trim p) x) ∧
      (ln_append_int (ln_trim p) x).negative = p.negative ∧
      ln_magnitude (ln_append_int (ln_trim p) x) = ln_magnitude p * 10 + x := by
  obtain ⟨e1, e2⟩ := ln_append_int_digit (ln_trim p) x hx0 hx9
  obtain ⟨t1, t2⟩ := ln_trim_count_spec p.integer
  refine ⟨⟨?_, ?_⟩, by rw [e2]; simp, ?_⟩
  · intro d hd
    rw [e1, ln_trim_integer] at hd
    simp only [List.mem_append, List.mem_singleton] at hd
    rcases hd with hd | hd
    · exact hp.1 d (List.mem_of_mem_drop hd)
    · rw [hd]; exact ⟨hx0, hx9⟩
  · unfold ln_no_leading_zero
    rw [e1, ln_trim_integer]
    intro h
    cases hl : List.drop (ln_trim_count p.integer) p.integer with
    | nil =>
      rw [hl] at h
      simp only [List.nil_append, List.head?_cons, Option.some.injEq] at h
      rw [h]; rfl
    | cons y ys =>
      rw [hl] at h t2
      simp only [List.cons_append, List.head?_cons, Option.some.injEq] at h t2
      exact absurd h (by simpa using t2)
  · unfold ln_magnitude
    rw [e1, ln_trim_integer, ln_digits_value_append, t1]

theorem ln_sqrt_loop_spec (n : ln_t) (hn : ln_digits_ok n)
    (hL : n.integer.length + 2 ≤ SIZE_MOD) :
    ∀ (t fuel it : Nat) (s : ln_sqrt_state),
      it = (if t = 0 then SIZE_MOD - 1 else 2 * t - 1) → 2 * t ≤ n.integer.length + 1 →
      ln_canonical s.remainder → s.remainder.negative = false →
      ln_wf s.part_of_root → s.part_of_root.negative = false →
      ln_magnitude s.part_of_root ^ 2 + ln_magnitude s.remainder = ln_hi n.integer (2 * t) →
      ln_magnitude s.remainder ≤ 2 * ln_magnitude s.part_of_root →
      t + n.integer.length + 16 ≤ fuel →
      ∃ s2, ln_sqrt_loop n fuel it s = some s2 ∧ s2.part_of_root.negative = false ∧
        ln_magnitude s2.part_of_root ^ 2 ≤ ln_digits_value n.integer ∧
        ln_digits_value n.integer < (ln_magnitude s2.part_of_root + 1) ^ 2 := by
  rw [SIZE_MOD_eq] at hL
  intro t
  induction t with
  | zero =>
    intro fuel it s hit _ hrc _ hpw hpn hinv hle hf
    obtain ⟨f, rfl⟩ : ∃ f, fuel = f + 1 := ⟨fuel - 1, by omega⟩
    simp only [if_true, SIZE_MOD_eq] at hit
    subst hit
    unfold ln_sqrt_loop
    simp only [SIZE_MOD_eq]
    have h1 : ln_last_at n (18446744073709551616 - 1) < 0 := by
      rw [ln_last_at_of_ge n _ (by omega)]; norm_num
    have h2 : ln_last_at n ((18446744073709551616 - 1 + 18446744073709551616 - 1)
        % 18446744073709551616) < 0 := by
      rw [ln_last_at_of_ge n _ (by omega)]; norm_num
    rw [if_pos ⟨h1, h2⟩]
    rw [ln_hi_zero] at hinv
    have hR0 := ln_magnitude_nonneg s.remainder hrc.1
    refine ⟨s, rfl, hpn, by nlinarith, by nlinarith⟩
  | succ t ih =>
    intro fuel it s hit ht hrc hrn hpw hpn hinv hle hf
    obtain ⟨f, rfl⟩ : ∃ f, fuel = f + 1 := ⟨fuel - 1, by omega⟩
    have hit2 : it = 2 * t + 1 := by rw [hit, if_neg (by omega)]; omega
    subst hit2
    unfold ln_sqrt_loop
    simp only [SIZE_MOD_eq]
    have hidx : (2 * t + 1 + 18446744073709551616 - 1) % 18446744073709551616 = 2 * t := by
      omega
    have hidx2 : (2 * t + 1 + 18446744073709551616 - 2) % 18446744073709551616 =
        (if t = 0 then SIZE_MOD - 1 else 2 * t - 1) := by
      rw [SIZE_MOD_eq]
      split <;> omega
    rw [hidx, hidx2]
    have hvb : ¬ ln_last_at n (2 * t) < 0 := by
      rw [ln_last_at_neg_iff n hn]; omega
    rw [if_neg (fun h => hvb h.2)]
    rw [ln_last_at_clamp n hn, ln_last_at_clamp n hn]
    have hda := ln_dig_bounds n.integer hn (2 * t + 1)
    have hdb := ln_dig_bounds n.integer hn (2 * t)
    generalize hvadef : ln_dig n.integer (2 * t + 1) = va at hda ⊢
    generalize hvbdef : ln_dig n.integer (2 * t) = vb at hdb ⊢
    -- the digit pair joins the remainder
    obtain ⟨b1, b2, b3⟩ := ln_sqrt_bring_spec s.remainder va vb hrc hda hdb
    rw [hrn] at b2
    generalize ln_trim (ln_append (ln_append s.remainder va) vb) = rem1 at b1 b2 b3 ⊢
    have hP0 := ln_magnitude_nonneg s.part_of_root hpw.1
    have hR0 := ln_magnitude_nonneg s.remainder hrc.1
    have hhi := ln_hi_lt n.integer hn (2 * (t + 1))
    have hPlt : ln_magnitude s.part_of_root < 10 ^ n.integer.length := by nlinarith
    have hK : 200 * ln_magnitude s.part_of_root + 100 < 10 ^ (n.integer.length + 3) := by
      rw [pow_add]; norm_num; omega
    have hR1 : ln_magnitude rem1 ≤ 200 * ln_magnitude s.part_of_root + 99 := by
      rw [b3]; omega
    obtain ⟨xs, ts, hs, hx0, hx9, hfx, hfx1⟩ :=
      ln_sqrt_search_spec s.part_of_root rem1 (n.integer.length + 3) hpw hpn b1 b2 hR1 hK f s.tmp 1
        (le_refl _) (by norm_num) (by simp; exact ln_magnitude_nonneg rem1 b1.1)
        (by push_cast; omega)
    rw [hs]
    simp only []
    obtain ⟨t1, t2, t3⟩ := x20ppx_spec (ln_clear ts) s.part_of_root xs ⟨rfl, rfl⟩ hpw hpn hx0
      (by omega)
    generalize x20ppx (ln_clear ts) s.part_of_root xs = tmp1 at t1 t2 t3 ⊢
    have hlen1 : rem1.integer.length ≤ n.integer.length + 3 :=
      ln_canonical_length_le rem1 b1 _ (by omega)
    have hlen2 : tmp1.integer.length ≤ n.integer.length + 3 :=
      ln_canonical_length_le tmp1 t2 _ (by rw [t3]; omega)
    have hcmp : ln_cmp_spec rem1 tmp1 ≠ ln_Lesser := by
      intro hc
      have := (ln_cmp_spec_canonical rem1 tmp1 b1 t2 b2 t1).1 hc
      rw [t3] at this
      omega
    obtain ⟨r, hr, rd, rh, rneg, rmag, _⟩ :=
      ln_sub_core f (ln_clear s.tmp2) rem1 tmp1 (ln_canonical_wf _ b1) (ln_canonical_wf _ t2)
        (by rw [b2, t1]) hcmp ⟨rfl, rfl⟩ (by omega) (by omega)
    rw [hr]
    simp only []
    obtain ⟨p1, p2, p3⟩ := ln_sqrt_root_step s.part_of_root xs hpw hx0 hx9
    have hstep1 := ln_hi_step n.integer (2 * t)
    have hstep2 := ln_hi_step n.integer (2 * t + 1)
    rw [hvbdef] at hstep1
    rw [hvadef] at hstep2
    rw [show 2 * (t + 1) = 2 * t + 1 + 1 by ring] at hinv
    exact ih f _ _ rfl (by omega) ⟨rd, rh⟩ (by rw [ln_copy_negative, rneg, b2]) p1
      (by rw [p2, hpn])
      (by
        show ln_magnitude (ln_append_int (ln_trim s.part_of_root) xs) ^ 2 + ln_magnitude r = _
        rw [p3, rmag, t3, b3, hstep1, hstep2]
        linear_combination 100 * hinv)
      (by
        show ln_magnitude r ≤ 2 * ln_magnitude (ln_append_int (ln_trim s.part_of_root) xs)
        rw [p3, rmag, t3]
        nlinarith)
      (by omega)

theorem ln_sqrt_spec (fuel : Nat) (n : ln_t) (hn : ln_digits_ok n)
    (hsz : n.integer.length < 2 ^ 31) (hf : 2 * n.integer.length + 20 ≤ fuel) :
    ∃ r, ln_sqrt fuel n = some r ∧ r.negative = false ∧
      ln_magnitude r ^ 2 ≤ ln_magnitude n ∧ ln_magnitude n < (ln_magnitude r + 1) ^ 2 := by
  have hsz2 : n.integer.length < 2147483648 := by
    have : (2 : Nat) ^ 31 = 2147483648 := by norm_num
    omega
  unfold ln_sqrt
  simp only []
  have hit : (((if n.int_sz % 2 ≠ 0 then ((n.int_sz / 2 : Nat) : Int) + 1
        else ((n.int_sz / 2 : Nat) : Int)) * 2 - 1) % (SIZE_MOD : Int)).toNat =
      (if (n.integer.length + 1) / 2 = 0 then SIZE_MOD - 1
        else 2 * ((n.integer.length + 1) / 2) - 1) := by
    unfold ln_t.int_sz
    rw [SIZE_MOD_eq]
    split <;> split <;> push_cast <;> omega
  rw [hit]
  have hp0i : (ln_append ln_init 0).integer = [0] := by simp
  obtain ⟨s2, hs2, e1, e2, e3⟩ := ln_sqrt_loop_spec n hn (by rw [SIZE_MOD_eq]; omega)
    ((n.integer.length + 1) / 2) fuel _
    { remainder := ln_init, part_of_root := ln_append ln_init 0, tmp := ln_init, tmp2 := ln_init }
    rfl (by omega) (ln_canonical_of_empty _ rfl) rfl
    ⟨by intro d hd; rw [hp0i] at hd; simp at hd; omega, by intro _; exact hp0i⟩
    (by simp)
    (by
      rw [ln_hi_of_ge _ _ (by omega)]
      simp [ln_magnitude, ln_digits_value])
    (by simp [ln_magnitude, ln_digits_value])
    (by omega)
  rw [hs2]
  exact ⟨ln_copy s2.part_of_root, rfl, e1, e2, e3⟩

/-! ## Fuel: a result, once reached, stays with more fuel -/

theorem ln_cmp_loop_mono (a b : ln_t) : ∀ (fuel it : Nat) (r : ln_cmp_t),
    ln_cmp_loop a b fuel it = some r → ln_cmp_loop a b (fuel + 1) it = some r := by
  intro fuel
  induction fuel with
  | zero => intro it r h; simp [ln_cmp_loop] at h
  | succ f ih =>
    intro it r h
    unfold ln_cmp_loop at h ⊢
    simp only [] at h ⊢
    split_ifs at h ⊢
    · exact h
    · exact h
    · exact h
    · exact ih _ _ h

theorem ln_cmp_mono (fuel : Nat) (a b : ln_t) (r : ln_cmp_t)
    (h : ln_cmp fuel a b = some r) : ln_cmp (fuel + 1) a b = some r := by
  unfold ln_cmp at h ⊢
  split_ifs at h ⊢
  · exact h
  · exact h
  · exact h
  · exact h
  · exact ln_cmp_loop_mono a b fuel 0 r h

theorem ln_add_carry_mono : ∀ (fuel : Nat) (vt carry : Int) (r : Int × Int),
    ln_add_carry fuel vt carry = some r → ln_add_carry (fuel + 1) vt carry = some r := by
  intro fuel
  induction fuel with
  | zero => intro vt carry r h; simp [ln_add_carry] at h
  | succ f ih =>
    intro vt carry r h
    unfold ln_add_carry at h ⊢
    split_ifs at h ⊢
    · exact ih _ _ _ h
    · exact h

theorem ln_sub_borrow_mono : ∀ (fuel : Nat) (va vb carry : Int) (r : Int × Int),
    ln_sub_borrow fuel va vb carry = some r → ln_sub_borrow (fuel + 1) va vb carry = some r := by
  intro fuel
  induction fuel with
  | zero => intro va vb carry r h; simp [ln_sub_borrow] at h
  | succ f ih =>
    intro va vb carry r h
    unfold ln_sub_borrow at h ⊢
    split_ifs at h ⊢
    · exact ih _ _ _ _ h
    · exact h

theorem ln_add_loop_mono (a b : ln_t) : ∀ (fuel : Nat) (out : ln_t) (it : Nat) (carry : Int)
    (r : ln_t), ln_add_loop a b fuel out it carry = some r →
      ln_add_loop a b (fuel + 1) out it carry = some r := by
  intro fuel
  induction fuel with
  | zero => intro out it carry r h; simp [ln_add_loop] at h
  | succ f ih =>
    intro out it carry r h
    unfold ln_add_loop at h ⊢
    simp only [] at h ⊢
    by_cases hx : ln_last_at a it < 0 ∧ ln_last_at b it < 0
    · rw [if_pos hx] at h ⊢
      exact h
    · rw [if_neg hx] at h ⊢
      generalize (if ln_last_at a it < 0 then 0 else ln_last_at a it) +
        (if ln_last_at b it < 0 then 0 else ln_last_at b it) + carry = vt at h ⊢
      cases hc : ln_add_carry f vt 0 with
      | none => rw [hc] at h; simp at h
      | some v =>
        rw [hc] at h
        rw [ln_add_carry_mono f _ _ v hc]
        simp only [] at h ⊢
        exact ih _ _ _ _ h

theorem ln_sub_loop_mono (a b : ln_t) : ∀ (fuel : Nat) (out : ln_t) (it : Nat) (carry : Int)
    (r : ln_t), ln_sub_loop a b fuel out it carry = some r →
      ln_sub_loop a b (fuel + 1) out it carry = some r := by
  intro fuel
  induction fuel with
  | zero => intro out it carry r h; simp [ln_sub_loop] at h
  | succ f ih =>
    intro out it carry r h
    unfold ln_sub_loop at h ⊢
    simp only [] at h ⊢
    by_cases hx : ln_last_at a it < 0 ∧ ln_last_at b it < 0
    · rw [if_pos hx] at h ⊢
      exact h
    · rw [if_neg hx] at h ⊢
      generalize (if ln_last_at a it < 0 then 0 else ln_last_at a it) = va at h ⊢
      generalize (if ln_last_at b it < 0 then 0 else ln_last_at b it) + carry = vb at h ⊢
      cases hc : ln_sub_borrow f va vb 0 with
      | none => rw [hc] at h; simp at h
      | some v =>
        rw [hc] at h
        rw [ln_sub_borrow_mono f _ _ _ v hc]
        simp only [] at h ⊢
        exact ih _ _ _ _ h

theorem ln_add_sub_mono : ∀ (fuel : Nat),
    (∀ (out a b r : ln_t), ln_add fuel out a b = some r → ln_add (fuel + 1) out a b = some r) ∧
    (∀ (out a b r : ln_t), ln_sub fuel out a b = some r → ln_sub (fuel + 1) out a b = some r) := by
  intro fuel
  induction fuel with
  | zero =>
    constructor
    · intro out a b r h; simp [ln_add] at h
    · intro out a b r h; simp [ln_sub] at h
  | succ f ih =>
    obtain ⟨iha, ihs⟩ := ih
    constructor
    · intro out a b r h
      unfold ln_add at h ⊢
      by_cases h1 : a.negative = true ∧ ¬ b.negative = true
      · rw [if_pos h1] at h ⊢
        obtain ⟨v, hv, hr⟩ := Option.map_eq_some'.mp h
        rw [ihs _ _ _ _ hv]
        simp [hr]
      · rw [if_neg h1] at h ⊢
        by_cases h2 : ¬ a.negative = true ∧ b.negative = true
        · rw [if_pos h2] at h ⊢
          exact ihs _ _ _ _ h
        · rw [if_neg h2] at h ⊢
          obtain ⟨v, hv, hr⟩ := Option.map_eq_some'.mp h
          rw [ln_add_loop_mono a b f _ _ _ v hv]
          exact Option.map_eq_some'.mpr ⟨v, rfl, hr⟩
    · intro out a b r h
      unfold ln_sub at h ⊢
      by_cases h1 : ¬ a.negative = true ∧ b.negative = true
      · rw [if_pos h1] at h ⊢
        exact iha _ _ _ _ h
      · rw [if_neg h1] at h ⊢
        cases hc : ln_cmp f a b with
        | none => rw [hc] at h; simp at h
        | some c =>
          rw [hc] at h
          rw [ln_cmp_mono f a b c hc]
          simp only [] at h ⊢
          by_cases h2 : c = ln_Lesser
          · rw [if_pos h2] at h ⊢
            obtain ⟨v, hv, hr⟩ := Option.map_eq_some'.mp h
            rw [ihs _ _ _ _ hv]
            simp [hr]
          · rw [if_neg h2] at h ⊢
            obtain ⟨v, hv, hr⟩ := Option.map_eq_some'.mp h
            rw [ln_sub_loop_mono a b f _ _ _ v hv]
            exact Option.map_eq_some'.mpr ⟨v, rfl, hr⟩

theorem ln_add_mono (fuel : Nat) (out a b r : ln_t) (h : ln_add fuel out a b = some r) :
    ln_add (fuel + 1) out a b = some r := (ln_add_sub_mono fuel).1 out a b r h

theorem ln_sub_mono (fuel : Nat) (out a b r : ln_t) (h : ln_sub fuel out a b = some r) :
    ln_sub (fuel + 1) out a b = some r := (ln_add_sub_mono fuel).2 out a b r h

theorem ln_inc_mono (fuel : Nat) (n r : ln_t) (h : ln_inc fuel n = some r) :
    ln_inc (fuel + 1) n = some r := ln_add_mono fuel _ _ _ r h

theorem ln_dec_mono (fuel : Nat) (n r : ln_t) (h : ln_dec fuel n = some r) :
    ln_dec (fuel + 1) n = some r := ln_sub_mono fuel _ _ _ r h

theorem ln_div_bring_mono (n d : ln_t) : ∀ (fuel : Nat) (current : ln_t) (idx it : Nat)
    (r : ln_t × Nat × Nat × Bool), ln_div_bring n d fuel current idx it = some r →
      ln_div_bring n d (fuel + 1) current idx it = some r := by
  intro fuel
  induction fuel with
  | zero => intro current idx it r h; simp [ln_div_bring] at h
  | succ f ih =>
    intro current idx it r h
    unfold ln_div_bring at h ⊢
    cases hc : ln_cmp f current d with
    | none => rw [hc] at h; simp at h
    | some c =>
      rw [hc] at h
      rw [ln_cmp_mono f current d c hc]
      simp only [] at h ⊢
      by_cases h1 : c = ln_Lesser
      · rw [if_pos h1] at h ⊢
        by_cases h2 : n.int_sz = idx
        · rw [if_pos h2] at h ⊢
          exact h
        · rw [if_neg h2] at h ⊢
          exact ih _ _ _ _ h
      · rw [if_neg h1] at h ⊢
        exact h

theorem ln_div_search_mono (d current : ln_t) : ∀ (fuel : Nat) (div tmp : ln_t)
    (r : ln_t × ln_t), ln_div_search d current fuel div tmp = some r →
      ln_div_search d current (fuel + 1) div tmp = some r := by
  intro fuel
  induction fuel with
  | zero => intro div tmp r h; simp [ln_div_search] at h
  | succ f ih =>
    intro div tmp r h
    unfold ln_div_search at h ⊢
    simp only [] at h ⊢
    cases hc : ln_cmp f (ln_mul (ln_clear tmp) div d) current with
    | none => rw [hc] at h; simp at h
    | some c =>
      rw [hc] at h
      rw [ln_cmp_mono f _ _ c hc]
      simp only [] at h ⊢
      by_cases h1 : c = ln_Greater
      · rw [if_pos h1] at h ⊢
        exact h
      · rw [if_neg h1] at h ⊢
        cases hi : ln_inc f div with
        | none => rw [hi] at h; simp at h
        | some v =>
          rw [hi] at h
          rw [ln_inc_mono f div v hi]
          simp only [] at h ⊢
          exact ih _ _ _ h

theorem ln_div_loop_mono (n d : ln_t) : ∀ (fuel : Nat) (s r : ln_div_state),
    ln_div_loop n d fuel s = some r → ln_div_loop n d (fuel + 1) s = some r := by
  intro fuel
  induction fuel with
  | zero => intro s r h; simp [ln_div_loop] at h
  | succ f ih =>
    intro s r h
    unfold ln_div_loop at h ⊢
    by_cases h1 : ¬ (s.cur_idx_in_n < n.int_sz)
    · rw [if_pos h1] at h ⊢
      exact h
    · rw [if_neg h1] at h ⊢
      cases hb : ln_div_bring n d f s.current s.cur_idx_in_n 0 with
      | none => rw [hb] at h; simp at h
      | some vb =>
        obtain ⟨current, idx, it, stop⟩ := vb
        rw [hb] at h
        rw [ln_div_bring_mono n d f _ _ _ _ hb]
        simp only [] at h ⊢
        cases hs : ln_div_search d current f (ln_append (ln_clear s.div) 1) s.tmp with
        | none => rw [hs] at h; simp at h
        | some vs =>
          obtain ⟨div, tmp⟩ := vs
          rw [hs] at h
          rw [ln_div_search_mono d current f _ _ _ hs]
          simp only [] at h ⊢
          cases hd : ln_dec f div with
          | none => rw [hd] at h; simp at h
          | some div2 =>
            rw [hd] at h
            rw [ln_dec_mono f div div2 hd]
            simp only [] at h ⊢
            generalize (if div2.int_sz = 0 then ln_append div2 0 else div2) = div3 at h ⊢
            cases hsub : ln_sub f (ln_clear s.tmp2) current (ln_mul (ln_clear tmp) div3 d) with
            | none => rw [hsub] at h; simp at h
            | some tmp2 =>
              rw [hsub] at h
              rw [ln_sub_mono f _ _ _ tmp2 hsub]
              simp only [] at h ⊢
              by_cases hst : stop = true
              · rw [if_pos hst] at h ⊢
                exact h
              · rw [if_neg hst] at h ⊢
                exact ih _ _ h

theorem ln_div_mono (fuel : Nat) (q : Option ln_t) (n d : ln_t) (r : Option ln_t)
    (v : Option ln_t × Option ln_t) (h : ln_div fuel q n d r = some v) :
    ln_div (fuel + 1) q n d r = some v := by
  unfold ln_div at h ⊢
  by_cases hz : ln_is_zero d = true
  · rw [if_pos hz] at h ⊢
    exact h
  · rw [if_neg hz] at h ⊢
    cases hl : ln_div_loop n d fuel
        { q := q, current := ln_init, div := ln_init, tmp := ln_init, tmp2 := ln_init,
          cur_idx_in_n := 0 } with
    | none => rw [hl] at h; simp at h
    | some s =>
      rw [hl] at h
      rw [ln_div_loop_mono n d fuel _ s hl]
      exact h

theorem ln_sqrt_search_mono (p remainder : ln_t) : ∀ (fuel : Nat) (tmp : ln_t) (x : Int)
    (r : Int × ln_t), ln_sqrt_search p remainder fuel tmp x = some r →
      ln_sqrt_search p remainder (fuel + 1) tmp x = some r := by
  intro fuel
  induction fuel with
  | zero => intro tmp x r h; simp [ln_sqrt_search] at h
  | succ f ih =>
    intro tmp x r h
    unfold ln_sqrt_search at h ⊢
    simp only [] at h ⊢
    cases hc : ln_cmp f (x20ppx (ln_clear tmp) p x) remainder with
    | none => rw [hc] at h; simp at h
    | some c =>
      rw [hc] at h
      rw [ln_cmp_mono f _ _ c hc]
      simp only [] at h ⊢
      by_cases h1 : c = ln_Greater
      · rw [if_pos h1] at h ⊢
        exact h
      · rw [if_neg h1] at h ⊢
        by_cases h2 : c = ln_Equal
        · rw [if_pos h2] at h ⊢
          exact h
        · rw [if_neg h2] at h ⊢
          exact ih _ _ _ h

theorem ln_sqrt_loop_mono (n : ln_t) : ∀ (fuel it : Nat) (s r : ln_sqrt_state),
    ln_sqrt_loop n fuel it s = some r → ln_sqrt_loop n (fuel + 1) it s = some r := by
  intro fuel
  induction fuel with
  | zero => intro it s r h; simp [ln_sqrt_loop] at h
  | succ f ih =>
    intro it s r h
    unfold ln_sqrt_loop at h ⊢
    simp only [] at h ⊢
    by_cases hx : ln_last_at n it < 0 ∧ ln_last_at n ((it + SIZE_MOD - 1) % SIZE_MOD) < 0
    · rw [if_pos hx] at h ⊢
      exact h
    · rw [if_neg hx] at h ⊢
      generalize ln_trim (ln_append (ln_append s.remainder
        (if ln_last_at n it < 0 then 0 else ln_last_at n it))
        (if ln_last_at n ((it + SIZE_MOD - 1) % SIZE_MOD) < 0 then 0
          else ln_last_at n ((it + SIZE_MOD - 1) % SIZE_MOD))) = rem1 at h ⊢
      cases hs : ln_sqrt_search s.part_of_root rem1 f s.tmp 1 with
      | none => rw [hs] at h; simp at h
      | some vs =>
        obtain ⟨x, tmp⟩ := vs
        rw [hs] at h
        rw [ln_sqrt_search_mono _ _ f _ _ _ hs]
        simp only [] at h ⊢
        cases hsub : ln_sub f (ln_clear s.tmp2) rem1 (x20ppx (ln_clear tmp) s.part_of_root x) with
        | none => rw [hsub] at h; simp at h
        | some tmp2 =>
          rw [hsub] at h
          rw [ln_sub_mono f _ _ _ tmp2 hsub]
          simp only [] at h ⊢
          exact ih _ _ _ h

theorem ln_sqrt_mono (fuel : Nat) (n r : ln_t) (h : ln_sqrt fuel n = some r) :
    ln_sqrt (fuel + 1) n = some r := by
  unfold ln_sqrt at h ⊢
  simp only [] at h ⊢
  generalize ((((if n.int_sz % 2 ≠ 0 then ((n.int_sz / 2 : Nat) : Int) + 1
    else ((n.int_sz / 2 : Nat) : Int)) * 2 - 1) % (SIZE_MOD : Int)).toNat) = it at h ⊢
  cases hl : ln_sqrt_loop n fuel it
      { remainder := ln_init, part_of_root := ln_append ln_init 0, tmp := ln_init,
        tmp2 := ln_init } with
  | none => rw [hl] at h; simp at h
  | some s =>
    rw [hl] at h
    rw [ln_sqrt_loop_mono n fuel it _ s hl]
    exact h

theorem ln_fuel_le {α : Type} (F : Nat → Option α)
    (hstep : ∀ f r, F f = some r → F (f + 1) = some r) (f g : Nat) (hfg : f ≤ g) (r : α)
    (h : F f = some r) : F g = some r := by
  induction g with
  | zero =>
    have : f = 0 := by omega
    subst this
    exact h
  | succ g ih =>
    by_cases hfg2 : f ≤ g
    · exact hstep g r (ih hfg2)
    · have : f = g + 1 := by omega
      subst this
      exact h

/-! ## Trimming, rendering and capacity: auxiliary facts -/

theorem ln_trim_count_split (l : List Int) :
    l = List.replicate (ln_trim_count l) 0 ++ l.drop (ln_trim_count l) := by
  induction l with
  | nil => simp [ln_trim_count]
  | cons d ds ih =>
    unfold ln_trim_count
    by_cases h : d ≠ 0
    · rw [if_pos h]; simp
    · rw [if_neg h]
      have hd : d = 0 := by omega
      subst hd
      rw [List.replicate_succ, List.drop_succ_cons, List.cons_append, ← ih]

theorem ln_wf_of_empty (o : ln_t) (h : o.integer = []) : ln_wf o :=
  ln_canonical_wf o (ln_canonical_of_empty o h)

/-! ## Addition: exchanging the operands -/

theorem ln_add_loop_comm (a b : ln_t) : ∀ (fuel : Nat) (out1 out2 : ln_t) (it : Nat)
    (carry : Int) (r1 : ln_t), out1.integer = out2.integer → out1.negative = out2.negative →
    ln_add_loop a b fuel out1 it carry = some r1 →
    ∃ r2, ln_add_loop b a fuel out2 it carry = some r2 ∧ r1.integer = r2.integer ∧
      r1.negative = r2.negative := by
  intro fuel
  induction fuel with
  | zero => intro out1 out2 it carry r1 _ _ h; simp [ln_add_loop] at h
  | succ f ih =>
    intro out1 out2 it carry r1 hi hn h
    unfold ln_add_loop at h ⊢
    simp only [] at h ⊢
    by_cases hx : ln_last_at a it < 0 ∧ ln_last_at b it < 0
    · rw [if_pos hx] at h
      rw [if_pos ⟨hx.2, hx.1⟩]
      have h1 := Option.some.inj h
      subst h1
      by_cases hc : carry ≠ 0
      · rw [if_pos hc, if_pos hc]
        exact ⟨_, rfl, by simp [hi], by simp [hn]⟩
      · rw [if_neg hc, if_neg hc]
        exact ⟨_, rfl, hi, hn⟩
    · rw [if_neg hx] at h
      rw [if_neg (fun hh => hx ⟨hh.2, hh.1⟩)]
      rw [add_comm (if ln_last_at b it < 0 then 0 else ln_last_at b it)
        (if ln_last_at a it < 0 then 0 else ln_last_at a it)]
      generalize (if ln_last_at a it < 0 then 0 else ln_last_at a it) +
        (if ln_last_at b it < 0 then 0 else ln_last_at b it) + carry = vt at h ⊢
      cases hc : ln_add_carry f vt 0 with
      | none => rw [hc] at h; simp at h
      | some v =>
        rw [hc] at h
        simp only [] at h ⊢
        exact ih _ _ _ _ _ (by simp [hi]) (by simp [hn]) h

theorem ln_max_sz_comm (a b : ln_t) : ln_max_sz a b = ln_max_sz b a := by
  unfold ln_max_sz; split <;> split <;> omega

theorem ln_add_same_sign_comm (fuel : Nat) (out1 out2 a b r1 r2 : ln_t)
    (hs : a.negative = b.negative) (hi : out1.integer = out2.integer)
    (hn : out1.negative = out2.negative)
    (h1 : ln_add fuel out1 a b = some r1) (h2 : ln_add fuel out2 b a = some r2) :
    r1.integer = r2.integer ∧ r1.negative = r2.negative := by
  cases fuel with
  | zero => simp [ln_add] at h1
  | succ f =>
    unfold ln_add at h1 h2
    have c1 : ¬ (a.negative = true ∧ ¬ b.negative = true) := by rw [hs]; simp
    have c2 : ¬ (¬ a.negative = true ∧ b.negative = true) := by rw [hs]; simp
    have c3 : ¬ (b.negative = true ∧ ¬ a.negative = true) := by rw [hs]; simp
    have c4 : ¬ (¬ b.negative = true ∧ a.negative = true) := by rw [hs]; simp
    rw [if_neg c1, if_neg c2] at h1
    rw [if_neg c3, if_neg c4] at h2
    obtain ⟨v1, hv1, e1⟩ := Option.map_eq_some'.mp h1
    obtain ⟨v2, hv2, e2⟩ := Option.map_eq_some'.mp h2
    obtain ⟨w, hw, wi, wn⟩ := ln_add_loop_comm a b f _ (ln_reserve out2 (ln_max_sz b a)) 0 0 v1
      (by simp [hi]) (by simp [hn]) hv1
    rw [hv2] at hw
    have hw2 := Option.some.inj hw
    subst hw2
    subst e1
    subst e2
    by_cases hb : a.negative = true ∧ b.negative = true
    · rw [if_pos hb, if_pos ⟨hb.2, hb.1⟩]
      exact ⟨by simp [wi], by simp [wn]⟩
    · rw [if_neg hb, if_neg (fun hh => hb ⟨hh.2, hh.1⟩)]
      exact ⟨wi, wn⟩

theorem ln_digits_eq_of_value (a : List Int) : ∀ b : List Int, a.length = b.length →
    (∀ d ∈ a, 0 ≤ d ∧ d ≤ 9) → (∀ d ∈ b, 0 ≤ d ∧ d ≤ 9) →
    ln_digits_value a = ln_digits_value b → a = b := by
  induction a with
  | nil =>
    intro b hlen _ _ _
    cases b with
    | nil => rfl
    | cons y ys => simp at hlen
  | cons x xs ih =>
    intro b hlen ha hb hv
    cases b with
    | nil => simp at hlen
    | cons y ys =>
      have hlen2 : xs.length = ys.length := by simpa using hlen
      have hxs : ∀ d ∈ xs, 0 ≤ d ∧ d ≤ 9 := fun d hd => ha d (List.mem_cons_of_mem _ hd)
      have hys : ∀ d ∈ ys, 0 ≤ d ∧ d ≤ 9 := fun d hd => hb d (List.mem_cons_of_mem _ hd)
      have h1 := ln_digits_value_lt xs (fun d hd => (hxs d hd).2)
      have h2 := ln_digits_value_lt ys (fun d hd => (hys d hd).2)
      have h3 := ln_digits_value_nonneg xs (fun d hd => (hxs d hd).1)
      have h4 := ln_digits_value_nonneg ys (fun d hd => (hys d hd).1)
      rw [ln_digits_value_cons, ln_digits_value_cons, hlen2] at hv
      rw [hlen2] at h1
      have hxy : x = y := by
        rcases lt_trichotomy x y with h | h | h
        · exfalso; nlinarith
        · exact h
        · exfalso; nlinarith
      subst hxy
      rw [ih ys hlen2 hxs hys (by linarith)]

theorem ln_canonical_unique (a b : ln_t) (ha : ln_canonical a) (hb : ln_canonical b)
    (h : ln_magnitude a = ln_magnitude b) : a.integer = b.integer := by
  have l1 := ln_canonical_length_le a ha b.integer.length (by rw [h]; exact ln_magnitude_lt b hb.1)
  have l2 := ln_canonical_length_le b hb a.integer.length (by rw [← h]; exact ln_magnitude_lt a ha.1)
  exact ln_digits_eq_of_value a.integer b.integer (by omega) ha.1 hb.1 h

theorem ln_canonical_pos (a : ln_t) (ha : ln_canonical a) (hne : a.integer ≠ []) :
    1 ≤ ln_magnitude a := by
  have h1 := ln_canonical_value_ge a ha hne
  have h2 : (1 : Int) ≤ 10 ^ (a.integer.length - 1) := one_le_pow₀ (by norm_num)
  omega

theorem ln_add_pos_neg (fuel : Nat) (out a b : ln_t) (ha : ln_wf a) (hb : ln_wf b)
    (han : a.negative = false) (hbn : b.negative = true) (ho : ln_is_empty out)
    (hfa : a.integer.length + 6 ≤ fuel) (hfb : b.integer.length + 6 ≤ fuel) :
    ∃ r, ln_add fuel out a b = some r ∧ ln_canonical r ∧ ln_value r = ln_value a + ln_value b := by
  obtain ⟨f, rfl⟩ : ∃ f, fuel = f + 1 := ⟨fuel - 1, by omega⟩
  obtain ⟨r, hr, hd, hh, hv⟩ :=
    ln_sub_same_sign f out a (ln_negate_copy b) ha (ln_wf_negate_copy b hb)
      (by simp [ln_negate_copy, han, hbn]) ho (by omega)
      (by simpa [ln_negate_copy] using (by omega))
  unfold ln_add
  rw [if_neg (by simp [han]), if_pos ⟨by simp [han], hbn⟩, hr]
  refine ⟨r, rfl, ⟨hd, hh⟩, ?_⟩
  rw [hv, ln_value_negate_copy]
  ring

theorem ln_add_neg_pos (fuel : Nat) (out a b : ln_t) (ha : ln_wf a) (hb : ln_wf b)
    (han : a.negative = true) (hbn : b.negative = false) (ho : ln_is_empty out)
    (hfa : a.integer.length + 6 ≤ fuel) (hfb : b.integer.length + 6 ≤ fuel) :
    ∃ r, ln_add fuel out a b = some r ∧ ln_canonical r ∧ ln_value r = ln_value a + ln_value b := by
  obtain ⟨f, rfl⟩ : ∃ f, fuel = f + 1 := ⟨fuel - 1, by omega⟩
  obtain ⟨r, hr, hd, hh, hv⟩ :=
    ln_sub_same_sign f out (ln_negate_copy a) b (ln_wf_negate_copy a ha) hb
      (by simp [ln_negate_copy, han, hbn]) ho
      (by simpa [ln_negate_copy] using (by omega)) (by omega)
  unfold ln_add
  rw [if_pos ⟨han, by simp [hbn]⟩, hr]
  refine ⟨ln_negate r, rfl, ⟨hd, hh⟩, ?_⟩
  rw [ln_value_negate, hv, ln_value_negate_copy]
  ring

theorem ln_canonical_same_of_value (r1 r2 : ln_t) (h1 : ln_canonical r1) (h2 : ln_canonical r2)
    (hv : ln_value r1 = ln_value r2) :
    r1.integer = r2.integer ∧ (r1.integer ≠ [] → r1.negative = r2.negative) := by
  have m1 := ln_magnitude_nonneg r1 h1.1
  have m2 := ln_magnitude_nonneg r2 h2.1
  rw [ln_value_of_parts r1, ln_value_of_parts r2] at hv
  have hm : ln_magnitude r1 = ln_magnitude r2 := by
    cases e1 : r1.negative <;> cases e2 : r2.negative <;> simp [e1, e2] at hv <;> omega
  refine ⟨ln_canonical_unique r1 r2 h1 h2 hm, ?_⟩
  intro hne
  have hp := ln_canonical_pos r1 h1 hne
  cases e1 : r1.negative <;> cases e2 : r2.negative <;> simp [e1, e2] at hv <;>
    first
      | rfl
      | (exfalso; omega)

/-! ## Delegation between addition and subtraction -/

theorem ln_add_sub_depth_fst : ∀ (fuel : Nat),
    (∀ (out a b : ln_t), (ln_add_depth fuel out a b).map Prod.fst = ln_add fuel out a b) ∧
    (∀ (out a b : ln_t), (ln_sub_depth fuel out a b).map Prod.fst = ln_sub fuel out a b) := by
  intro fuel
  induction fuel with
  | zero =>
    constructor
    · intro out a b; simp [ln_add_depth, ln_add]
    · intro out a b; simp [ln_sub_depth, ln_sub]
  | succ f ih =>
    obtain ⟨iha, ihs⟩ := ih
    constructor
    · intro out a b
      unfold ln_add_depth ln_add
      by_cases h1 : a.negative = true ∧ ¬ b.negative = true
      · rw [if_pos h1, if_pos h1, ← ihs]
        generalize ln_sub_depth f out (ln_negate_copy a) b = x
        cases x <;> rfl
      · rw [if_neg h1, if_neg h1]
        by_cases h2 : ¬ a.negative = true ∧ b.negative = true
        · rw [if_pos h2, if_pos h2, ← ihs]
          generalize ln_sub_depth f out a (ln_negate_copy b) = x
          cases x <;> rfl
        · rw [if_neg h2, if_neg h2]
          generalize ln_add_loop a b f (ln_reserve out (ln_max_sz a b)) 0 0 = x
          cases x <;> rfl
    · intro out a b
      unfold ln_sub_depth ln_sub
      by_cases h1 : ¬ a.negative = true ∧ b.negative = true
      · rw [if_pos h1, if_pos h1, ← iha]
        generalize ln_add_depth f out a (ln_negate_copy b) = x
        cases x <;> rfl
      · rw [if_neg h1, if_neg h1]
        cases hc : ln_cmp f a b with
        | none => rfl
        | some c =>
          simp only []
          by_cases h2 : c = ln_Lesser
          · rw [if_pos h2, if_pos h2, ← ihs]
            generalize ln_sub_depth f out b a = x
            cases x <;> rfl
          · rw [if_neg h2, if_neg h2]
            generalize ln_sub_loop a b f out 0 0 = x
            cases x <;> rfl

theorem ln_add_loop_some (a b : ln_t) (M : Nat)
    (ha : ∀ d ∈ a.integer, 0 ≤ d ∧ d ≤ 9) (hb : ∀ d ∈ b.integer, 0 ≤ d ∧ d ≤ 9)
    (hMa : a.integer.length ≤ M) (hMb : b.integer.length ≤ M) :
    ∀ (fuel it : Nat) (out : ln_t) (carry : Int), it ≤ M → M + 3 ≤ fuel + it →
      (carry = 0 ∨ carry = 1) → ∃ r, ln_add_loop a b fuel out it carry = some r := by
  intro fuel
  induction fuel with
  | zero => intro it out carry h1 h2 hc; omega
  | succ f ih =>
    intro it out carry h1 h2 hc
    unfold ln_add_loop
    simp only []
    by_cases hexit : ln_last_at a it < 0 ∧ ln_last_at b it < 0
    · rw [if_pos hexit]
      exact ⟨_, rfl⟩
    · rw [if_neg hexit]
      rw [ln_last_at_neg_iff a ha, ln_last_at_neg_iff b hb] at hexit
      have hit : it < M := by omega
      rw [ln_last_at_clamp a ha, ln_last_at_clamp b hb]
      have hda := ln_dig_bounds a.integer ha it
      have hdb := ln_dig_bounds b.integer hb it
      obtain ⟨v, c, hvc, _, _, _, hc01⟩ :=
        ln_add_carry_spec f (ln_dig a.integer it + ln_dig b.integer it + carry)
          (by omega) (by omega) (by omega)
      rw [hvc]
      simp only []
      exact ih (it + 1) _ c (by omega) (by omega) hc01

theorem ln_sub_loop_some (a b : ln_t) (M : Nat)
    (ha : ∀ d ∈ a.integer, 0 ≤ d ∧ d ≤ 9) (hb : ∀ d ∈ b.integer, 0 ≤ d ∧ d ≤ 9)
    (hMa : a.integer.length ≤ M) (hMb : b.integer.length ≤ M) :
    ∀ (fuel it : Nat) (out : ln_t) (carry : Int), it ≤ M → M + 3 ≤ fuel + it →
      (carry = 0 ∨ carry = 1) → ∃ r, ln_sub_loop a b fuel out it carry = some r := by
  intro fuel
  induction fuel with
  | zero => intro it out carry h1 h2 hc; omega
  | succ f ih =>
    intro it out carry h1 h2 hc
    unfold ln_sub_loop
    simp only []
    by_cases hexit : ln_last_at a it < 0 ∧ ln_last_at b it < 0
    · rw [if_pos hexit]
      exact ⟨_, rfl⟩
    · rw [if_neg hexit]
      rw [ln_last_at_neg_iff a ha, ln_last_at_neg_iff b hb] at hexit
      have hit : it < M := by omega
      rw [ln_last_at_clamp a ha, ln_last_at_clamp b hb]
      have hda := ln_dig_bounds a.integer ha it
      have hdb := ln_dig_bounds b.integer hb it
      obtain ⟨v, c, hvc, _, _, _, hc01⟩ :=
        ln_sub_borrow_spec f (ln_dig a.integer it) (ln_dig b.integer it + carry)
          (by omega) (by omega) (by omega) (by omega) (by omega)
      rw [hvc]
      simp only []
      exact ih (it + 1) _ c (by omega) (by omega) hc01

theorem ln_add_depth_same_sign (fuel : Nat) (out a b : ln_t) (ha : ln_digits_ok a)
    (hb : ln_digits_ok b) (hs : a.negative = b.negative)
    (hfa : a.integer.length + 4 ≤ fuel) (hfb : b.integer.length + 4 ≤ fuel) :
    ∃ r, ln_add_depth fuel out a b = some (r, 0) := by
  obtain ⟨f, rfl⟩ : ∃ f, fuel = f + 1 := ⟨fuel - 1, by omega⟩
  unfold ln_add_depth
  have c1 : ¬ (a.negative = true ∧ ¬ b.negative = true) := by rw [hs]; simp
  have c2 : ¬ (¬ a.negative = true ∧ b.negative = true) := by rw [hs]; simp
  rw [if_neg c1, if_neg c2]
  have hM := ln_max_sz_cases a b
  obtain ⟨r, hr⟩ := ln_add_loop_some a b (ln_max_sz a b) ha hb (ln_max_sz_ge_left a b)
    (ln_max_sz_ge_right a b) f 0 (ln_reserve out (ln_max_sz a b)) 0 (by omega) (by omega)
    (Or.inl rfl)
  rw [hr]
  exact ⟨_, rfl⟩

theorem ln_sub_depth_core (fuel : Nat) (out a b : ln_t) (ha : ln_digits_ok a)
    (hb : ln_digits_ok b) (hs : a.negative = b.negative) (hc : ln_cmp_spec a b ≠ ln_Lesser)
    (hfa : a.integer.length + 4 ≤ fuel) (hfb : b.integer.length + 4 ≤ fuel) :
    ∃ r, ln_sub_depth fuel out a b = some (r, 0) := by
  obtain ⟨f, rfl⟩ : ∃ f, fuel = f + 1 := ⟨fuel - 1, by omega⟩
  unfold ln_sub_depth
  have c2 : ¬ (¬ a.negative = true ∧ b.negative = true) := by rw [hs]; simp
  rw [if_neg c2, ln_cmp_eq_spec f a b (fun d hd => (ha d hd).1) (by omega)]
  simp only []
  rw [if_neg hc]
  have hM := ln_max_sz_cases a b
  obtain ⟨r, hr⟩ := ln_sub_loop_some a b (ln_max_sz a b) ha hb (ln_max_sz_ge_left a b)
    (ln_max_sz_ge_right a b) f 0 out 0 (by omega) (by omega) (Or.inl rfl)
  rw [hr]
  exact ⟨_, rfl⟩

theorem ln_sub_depth_same_sign (fuel : Nat) (out a b : ln_t) (ha : ln_digits_ok a)
    (hb : ln_digits_ok b) (hs : a.negative = b.negative)
    (hfa : a.integer.length + 5 ≤ fuel) (hfb : b.integer.length + 5 ≤ fuel) :
    ∃ r k, ln_sub_depth fuel out a b = some (r, k) ∧ k ≤ 1 := by
  by_cases hc : ln_cmp_spec a b = ln_Lesser
  · obtain ⟨f, rfl⟩ : ∃ f, fuel = f + 1 := ⟨fuel - 1, by omega⟩
    have hc2 : ln_cmp_spec b a ≠ ln_Lesser := by
      rw [ln_cmp_spec_swap a b, hc]; simp [ln_cmp_swap]
    obtain ⟨r, hr⟩ := ln_sub_depth_core f out b a hb ha hs.symm hc2 (by omega) (by omega)
    unfold ln_sub_depth
    have c2 : ¬ (¬ a.negative = true ∧ b.negative = true) := by rw [hs]; simp
    rw [if_neg c2, ln_cmp_eq_spec f a b (fun d hd => (ha d hd).1) (by omega)]
    simp only []
    rw [if_pos hc, hr]
    exact ⟨_, _, rfl, by norm_num⟩
  · obtain ⟨r, hr⟩ := ln_sub_depth_core fuel out a b ha hb hs hc (by omega) (by omega)
    exact ⟨r, 0, hr, by norm_num⟩

theorem ln_sub_depth_pos_neg (fuel : Nat) (out a b : ln_t) (ha : ln_digits_ok a)
    (hb : ln_digits_ok b) (han : a.negative = false) (hbn : b.negative = true)
    (hfa : a.integer.length + 5 ≤ fuel) (hfb : b.integer.length + 5 ≤ fuel) :
    ∃ r, ln_sub_depth fuel out a b = some (r, 1) := by
  obtain ⟨f, rfl⟩ : ∃ f, fuel = f + 1 := ⟨fuel - 1, by omega⟩
  obtain ⟨r, hr⟩ := ln_add_depth_same_sign f out a (ln_negate_copy b) ha hb
    (by simp [ln_negate_copy, han, hbn]) (by omega) (by simpa [ln_negate_copy] using (by omega))
  unfold ln_sub_depth
  rw [if_pos ⟨by simp [han], hbn⟩, hr]
  exact ⟨_, rfl⟩

theorem ln_sub_depth_neg_pos (fuel : Nat) (out a b : ln_t) (ha : ln_digits_ok a)
    (hb : ln_digits_ok b) (han : a.negative = true) (hbn : b.negative = false)
    (hfa : a.integer.length + 6 ≤ fuel) (hfb : b.integer.length + 6 ≤ fuel) :
    ∃ r, ln_sub_depth fuel out a b = some (r, 2) := by
  obtain ⟨f, rfl⟩ : ∃ f, fuel = f + 1 := ⟨fuel - 1, by omega⟩
  obtain ⟨r, hr⟩ := ln_sub_depth_pos_neg f out b a hb ha hbn han (by omega) (by omega)
  unfold ln_sub_depth
  have c2 : ¬ (¬ a.negative = true ∧ b.negative = true) := by simp [han]
  rw [if_neg c2, ln_cmp_eq_spec f a b (fun d hd => (ha d hd).1) (by omega)]
  have hc : ln_cmp_spec a b = ln_Lesser := by
    unfold ln_cmp_spec
    rw [if_pos ⟨han, by simp [hbn]⟩]
  simp only []
  rw [if_pos hc, hr]
  exact ⟨_, rfl⟩

theorem ln_sub_depth_le (fuel : Nat) (out a b : ln_t) (ha : ln_digits_ok a)
    (hb : ln_digits_ok b)
    (hfa : a.integer.length + 6 ≤ fuel) (hfb : b.integer.length + 6 ≤ fuel) :
    ∃ r k, ln_sub_depth fuel out a b = some (r, k) ∧ k ≤ 2 := by
  cases han : a.negative <;> cases hbn : b.negative
  · obtain ⟨r, k, hr, hk⟩ := ln_sub_depth_same_sign fuel out a b ha hb (by rw [han, hbn])
      (by omega) (by omega)
    exact ⟨r, k, hr, by omega⟩
  · obtain ⟨r, hr⟩ := ln_sub_depth_pos_neg fuel out a b ha hb han hbn (by omega) (by omega)
    exact ⟨r, 1, hr, by norm_num⟩
  · obtain ⟨r, hr⟩ := ln_sub_depth_neg_pos fuel out a b ha hb han hbn hfa hfb
    exact ⟨r, 2, hr, le_refl _⟩
  · obtain ⟨r, k, hr, hk⟩ := ln_sub_depth_same_sign fuel out a b ha hb (by rw [han, hbn])
      (by omega) (by omega)
    exact ⟨r, k, hr, by omega⟩

theorem ln_add_depth_le (fuel : Nat) (out a b : ln_t) (ha : ln_digits_ok a)
    (hb : ln_digits_ok b)
    (hfa : a.integer.length + 6 ≤ fuel) (hfb : b.integer.length + 6 ≤ fuel) :
    ∃ r k, ln_add_depth fuel out a b = some (r, k) ∧ k ≤ 2 := by
  cases han : a.negative <;> cases hbn : b.negative
  · obtain ⟨r, hr⟩ := ln_add_depth_same_sign fuel out a b ha hb (by rw [han, hbn])
      (by omega) (by omega)
    exact ⟨r, 0, hr, by norm_num⟩
  · obtain ⟨f, rfl⟩ : ∃ f, fuel = f + 1 := ⟨fuel - 1, by omega⟩
    obtain ⟨r, k, hr, hk⟩ := ln_sub_depth_same_sign f out a (ln_negate_copy b) ha hb
      (by simp [ln_negate_copy, han, hbn]) (by omega)
      (by simpa [ln_negate_copy] using (by omega))
    unfold ln_add_depth
    rw [if_neg (by simp [han]), if_pos ⟨by simp [han], hbn⟩, hr]
    exact ⟨_, _, rfl, by omega⟩
  · obtain ⟨f, rfl⟩ : ∃ f, fuel = f + 1 := ⟨fuel - 1, by omega⟩
    obtain ⟨r, k, hr, hk⟩ := ln_sub_depth_same_sign f out (ln_negate_copy a) b ha hb
      (by simp [ln_negate_copy, han, hbn])
      (by simpa [ln_negate_copy] using (by omega)) (by omega)
    unfold ln_add_depth
    rw [if_pos ⟨han, by simp [hbn]⟩, hr]
    exact ⟨_, _, rfl, by omega⟩
  · obtain ⟨r, hr⟩ := ln_add_depth_same_sign fuel out a b ha hb (by rw [han, hbn])
      (by omega) (by omega)
    exact ⟨r, 0, hr, by norm_num⟩

/-! ## Long division: the search for a quotient digit -/

theorem ln_cmp_spec_congr (a a2 b : ln_t) (hi : a.integer = a2.integer)
    (hn : a.negative = a2.negative) : ln_cmp_spec a b = ln_cmp_spec a2 b := by
  unfold ln_cmp_spec
  rw [hi, hn]

theorem ln_canonical_of_wf_pos (r : ln_t) (hw : ln_wf r) (hp : 1 ≤ ln_magnitude r) :
    ln_canonical r ∧ r.integer ≠ [] := by
  refine ⟨⟨hw.1, ?_⟩, ?_⟩
  · intro h0
    have := hw.2 h0
    unfold ln_magnitude at hp
    rw [this] at hp
    simp [ln_digits_value] at hp
  · intro h0
    unfold ln_magnitude at hp
    rw [h0] at hp
    simp [ln_digits_value] at hp

theorem ln_canonical_nonempty_head (d : ln_t) (hd : ln_canonical d) (hne : d.integer ≠ []) :
    ∃ x xs, d.integer = x :: xs ∧ 1 ≤ x := by
  cases h : d.integer with
  | nil => exact absurd h hne
  | cons x xs =>
    refine ⟨x, xs, rfl, ?_⟩
    have hx0 := (hd.1 x (by rw [h]; exact List.mem_cons_self _ _)).1
    have hne0 : x ≠ 0 := fun hc => hd.2 (by rw [h, hc]; rfl)
    omega

theorem ln_one_canonical : ln_canonical (ln_append ln_init 1) ∧
    (ln_append ln_init 1).integer ≠ [] ∧ (ln_append ln_init 1).negative = false ∧
    ln_magnitude (ln_append ln_init 1) = 1 := by
  refine ⟨⟨?_, ?_⟩, ?_, ?_, ?_⟩ <;> decide

theorem ln_inc_spec (fuel : Nat) (div : ln_t) (hc : ln_canonical div)
    (hn : div.negative = false) (hf : div.integer.length + 5 ≤ fuel) :
    ∃ r, ln_inc fuel div = some r ∧ ln_canonical r ∧ r.integer ≠ [] ∧ r.negative = false ∧
      ln_magnitude r = ln_magnitude div + 1 := by
  obtain ⟨o1, o2, o3, o4⟩ := ln_one_canonical
  obtain ⟨r, hr, hw, hneg, hmag⟩ := ln_add_same_sign fuel (ln_clear div) (ln_copy div)
    (ln_append ln_init 1) (ln_canonical_wf _ hc) (ln_canonical_wf _ o1)
    (by rw [o3]; exact hn) ⟨rfl, rfl⟩ (by simp; omega) (by simp; omega)
  have hm0 := ln_magnitude_nonneg div hc.1
  have hmag2 : ln_magnitude r = ln_magnitude div + 1 := by rw [hmag, o4]; rfl
  obtain ⟨c1, c2⟩ := ln_canonical_of_wf_pos r hw (by omega)
  exact ⟨r, hr, c1, c2, by rw [hneg]; exact hn, hmag2⟩

theorem ln_inc_props (fuel : Nat) (div r : ln_t) (hc : ln_canonical div)
    (hn : div.negative = false) (h : ln_inc fuel div = some r) :
    ln_canonical r ∧ r.integer ≠ [] ∧ r.negative = false ∧
      ln_magnitude r = ln_magnitude div + 1 := by
  have hbig := ln_fuel_le (fun g => ln_inc g div) (fun g v hv => ln_inc_mono g div v hv) fuel
    (fuel + (div.integer.length + 5)) (by omega) r h
  obtain ⟨r2, hr2, p1, p2, p3, p4⟩ := ln_inc_spec (fuel + (div.integer.length + 5)) div hc hn
    (by omega)
  simp only [] at hbig
  rw [hbig] at hr2
  have := Option.some.inj hr2
  subst this
  exact ⟨p1, p2, p3, p4⟩

theorem ln_dec_spec (fuel : Nat) (div : ln_t) (hc : ln_canonical div)
    (hne : div.integer ≠ []) (hn : div.negative = false) (hf : div.integer.length + 5 ≤ fuel) :
    ∃ r, ln_dec fuel div = some r ∧ ln_canonical r ∧ r.negative = false ∧
      ln_magnitude r = ln_magnitude div - 1 := by
  obtain ⟨o1, o2, o3, o4⟩ := ln_one_canonical
  have hp := ln_canonical_pos div hc hne
  have hcmp : ln_cmp_spec (ln_copy div) (ln_append ln_init 1) ≠ ln_Lesser := by
    intro hl
    have := (ln_cmp_spec_canonical (ln_copy div) (ln_append ln_init 1) hc o1 hn o3).1 hl
    rw [o4] at this
    have e : ln_magnitude (ln_copy div) = ln_magnitude div := rfl
    omega
  obtain ⟨r, hr, hd, hh, hneg, hmag, _⟩ := ln_sub_core fuel (ln_clear div) (ln_copy div)
    (ln_append ln_init 1) (ln_canonical_wf _ hc) (ln_canonical_wf _ o1)
    (by rw [o3]; exact hn) hcmp ⟨rfl, rfl⟩ (by simp; omega) (by simp; omega)
  refine ⟨r, hr, ⟨hd, hh⟩, by rw [hneg]; exact hn, ?_⟩
  rw [hmag, o4]
  rfl

theorem ln_mul_pos (out a b : ln_t) (ho : ln_is_empty out) (ha : ln_canonical a)
    (hane : a.integer ≠ []) (hb : ln_canonical b) (hbne : b.integer ≠ []) :
    ln_canonical (ln_mul out a b) ∧ (ln_mul out a b).negative = (a.negative != b.negative) ∧
      ln_magnitude (ln_mul out a b) = ln_magnitude a * ln_magnitude b := by
  obtain ⟨m1, m2, m3, m4⟩ := ln_mul_spec out a b ho (fun x hx => (ha.1 x hx).1)
    (fun y hy => (hb.1 y hy).1) (ln_digit_product_le a b ha.1 hb.1)
    (ln_canonical_nonempty_head a ha hane) (ln_canonical_nonempty_head b hb hbne)
  exact ⟨⟨m2, m3⟩, m1, m4⟩

theorem ln_div_search_negative_none (d current : ln_t) (hd : ln_canonical d)
    (hdne : d.integer ≠ []) (hdn : d.negative = true) (hcur : current.negative = false) :
    ∀ (fuel : Nat) (div tmp : ln_t), ln_canonical div → div.integer ≠ [] →
      div.negative = false → ln_div_search d current fuel div tmp = none := by
  intro fuel
  induction fuel with
  | zero => intro div tmp _ _ _; rfl
  | succ f ih =>
    intro div tmp hc hne hn
    unfold ln_div_search
    simp only []
    obtain ⟨_, m2, _⟩ := ln_mul_pos (ln_clear tmp) div d ⟨rfl, rfl⟩ hc hne hd hdne
    rw [hn, hdn] at m2
    have hcmp : ln_cmp f (ln_mul (ln_clear tmp) div d) current = some ln_Lesser := by
      unfold ln_cmp
      rw [if_pos ⟨by rw [m2]; rfl, by simp [hcur]⟩]
    rw [hcmp]
    simp only []
    rw [if_neg (by decide)]
    cases hi : ln_inc f div with
    | none => rfl
    | some div2 =>
      simp only []
      obtain ⟨p1, p2, p3, _⟩ := ln_inc_props f div div2 hc hn hi
      exact ih div2 _ p1 p2 p3

theorem ln_div_loop_negative_none (n d : ln_t) (hd : ln_canonical d)
    (hdne : d.integer ≠ []) (hdn : d.negative = true) (fuel : Nat) (s : ln_div_state)
    (hidx : s.cur_idx_in_n < n.int_sz) (hcur : s.current.negative = false) :
    ln_div_loop n d fuel s = none := by
  cases fuel with
  | zero => rfl
  | succ f =>
    unfold ln_div_loop
    rw [if_neg (by omega)]
    cases f with
    | zero => rfl
    | succ f2 =>
      have hb : ln_div_bring n d (f2 + 1) s.current s.cur_idx_in_n 0 =
          some (s.current, s.cur_idx_in_n, 0, false) := by
        unfold ln_div_bring
        have hcmp : ln_cmp f2 s.current d = some ln_Greater := by
          unfold ln_cmp
          rw [if_neg (by simp [hcur]), if_pos ⟨by simp [hcur], hdn⟩]
        rw [hcmp]
        simp only []
        rw [if_neg (by decide)]
      rw [hb]
      simp only []
      rw [ln_div_search_negative_none d s.current hd hdne hdn hcur (f2 + 1)
        (ln_append (ln_clear s.div) 1) s.tmp
        ⟨by intro x hx; simp at hx; omega, by simp⟩ (by simp) (by simp)]

/-! ## Long division: termination for a positive divisor -/

theorem ln_cmp_spec_len_le (a b : ln_t) (han : a.negative = false) (hbn : b.negative = false)
    (hc : ln_cmp_spec a b ≠ ln_Lesser) : b.integer.length ≤ a.integer.length := by
  by_contra hlt
  apply hc
  unfold ln_cmp_spec
  rw [if_neg (by simp [han]), if_neg (by simp [hbn]), if_neg (by omega), if_pos (by omega)]

theorem ln_cmp_spec_len_ge (a b : ln_t) (han : a.negative = false) (hbn : b.negative = false)
    (hc : ln_cmp_spec a b = ln_Lesser) : a.integer.length ≤ b.integer.length := by
  by_contra hlt
  unfold ln_cmp_spec at hc
  rw [if_neg (by simp [han]), if_neg (by simp [hbn]), if_pos (by omega)] at hc
  cases hc

theorem ln_cmp_spec_of_len_gt (a b : ln_t) (han : a.negative = false) (hbn : b.negative = false)
    (h : b.integer.length < a.integer.length) : ln_cmp_spec a b = ln_Greater := by
  unfold ln_cmp_spec
  rw [if_neg (by simp [han]), if_neg (by simp [hbn]), if_pos (by omega)]

theorem ln_cmp_spec_of_nil (a b : ln_t) (han : a.negative = false) (hbn : b.negative = false)
    (hb : b.integer = []) : ln_cmp_spec a b ≠ ln_Lesser := by
  unfold ln_cmp_spec
  rw [if_neg (by simp [han]), if_neg (by simp [hbn]), hb]
  by_cases h : a.integer.length > 0
  · rw [if_pos (by simpa using h)]
    decide
  · rw [if_neg (by simpa using h), if_neg (by simp)]
    have : a.integer = [] := List.length_eq_zero.mp (by omega)
    rw [this]
    decide

theorem ln_sub_shape (fuel : Nat) (out a b : ln_t) (ha : ln_digits_ok a) (hb : ln_digits_ok b)
    (han : a.negative = false) (hbn : b.negative = false) (hc : ln_cmp_spec a b ≠ ln_Lesser)
    (ho : ln_is_empty out) (hfa : a.integer.length + 4 ≤ fuel) :
    ∃ r, ln_sub fuel out a b = some r ∧ ln_canonical r ∧ r.negative = false ∧
      r.integer.length ≤ a.integer.length := by
  obtain ⟨f, rfl⟩ : ∃ f, fuel = f + 1 := ⟨fuel - 1, by omega⟩
  unfold ln_sub
  have hMa := ln_max_sz_ge_left a b
  have hMb := ln_max_sz_ge_right a b
  have hM := ln_max_sz_cases a b
  have hlen := ln_cmp_spec_len_le a b han hbn hc
  obtain ⟨hoi, hon⟩ := ho
  rw [if_neg (by simp [hbn]), ln_cmp_eq_spec f a b (fun d hd => (ha d hd).1) (by omega)]
  simp only []
  rw [if_neg hc]
  obtain ⟨r, c, hr, hneg, hdig, hlenr, _, _⟩ :=
    ln_sub_loop_spec a b (ln_max_sz a b) ha hb hMa hMb hM f 0 out 0 (by omega) (by omega)
      (Or.inl rfl) (by simp [hoi]) (by simp [hoi])
  rw [hr]
  obtain ⟨_, t2⟩ := ln_trim_count_spec r.integer
  simp only [han, hbn, Bool.false_eq_true, false_and, if_false, Option.map_some']
  refine ⟨ln_trim r, rfl, ⟨?_, ?_⟩, ?_, ?_⟩
  · intro x hx
    rw [ln_trim_integer] at hx
    exact hdig x (List.mem_of_mem_drop hx)
  · rw [ln_trim_integer]; exact t2
  · simp [hneg, hon]
  · rw [ln_trim_integer, List.length_drop]
    omega

theorem ln_div_bring_spec (n d : ln_t) (hn : ln_digits_ok n) (hdn : d.negative = false) :
    ∀ (fuel : Nat) (current : ln_t) (idx it : Nat), ln_digits_ok current →
      current.negative = false → current.integer.length ≤ d.integer.length + 1 →
      idx ≤ n.int_sz → n.int_sz + d.integer.length + 4 ≤ fuel + idx →
      ∃ c2 idx2 it2 stop, ln_div_bring n d fuel current idx it = some (c2, idx2, it2, stop) ∧
        ln_digits_ok c2 ∧ c2.negative = false ∧ c2.integer.length ≤ d.integer.length + 1 ∧
        idx ≤ idx2 ∧ idx2 ≤ n.int_sz ∧ (idx2 = idx → c2 = current) ∧
        (ln_cmp_spec current d = ln_Lesser → idx < n.int_sz → idx < idx2) := by
  intro fuel
  induction fuel with
  | zero => intro current idx it _ _ _ h1 h2; omega
  | succ f ih =>
    intro current idx it hc hcn hcl hidx hf
    unfold ln_div_bring
    rw [ln_cmp_eq_spec f current d (fun x hx => (hc x hx).1) (by omega)]
    simp only []
    by_cases hl : ln_cmp_spec current d = ln_Lesser
    · rw [if_pos hl]
      by_cases he : n.int_sz = idx
      · rw [if_pos he]
        exact ⟨current, idx, it, true, rfl, hc, hcn, hcl, le_refl _, hidx, fun _ => rfl,
          fun _ h => by omega⟩
      · rw [if_neg he]
        have hlen := ln_cmp_spec_len_ge current d hcn hdn hl
        have hidx2 : idx < n.integer.length := by
          unfold ln_t.int_sz at hidx he
          omega
        obtain ⟨c2, idx2, it2, stop, hb, b1, b2, b3, b4, b5, _, _⟩ :=
          ih (ln_append current (ln_at n idx)) (idx + 1) (it + 1)
            (by
              intro x hx
              simp only [ln_append_integer, List.mem_append, List.mem_singleton] at hx
              rcases hx with hx | hx
              · exact hc x hx
              · rw [hx, ln_at_of_lt n idx hidx2]
                apply hn
                rw [List.getD_eq_getElem _ _ hidx2]
                exact List.getElem_mem _)
            (by simp [hcn]) (by simp; omega) (by unfold ln_t.int_sz; omega) (by omega)
        exact ⟨c2, idx2, it2, stop, hb, b1, b2, b3, by omega, b5, fun h => by omega,
          fun _ _ => by omega⟩
    · rw [if_neg hl]
      exact ⟨current, idx, it, false, rfl, hc, hcn, hcl, le_refl _, hidx, fun _ => rfl,
        fun h => absurd h hl⟩

theorem ln_div_search_spec (d current : ln_t) (hd : ln_canonical d) (hdne : d.integer ≠ [])
    (hdn : d.negative = false) (hcn : current.negative = false)
    (hcl : current.integer.length ≤ d.integer.length + 1) :
    ∀ (fuel : Nat) (div tmp : ln_t), ln_canonical div → div.integer ≠ [] →
      div.negative = false → ln_magnitude div ≤ 100 →
      (ln_magnitude div = 1 ∨ ∀ t, ln_canonical t → t.negative = false →
        ln_magnitude t = (ln_magnitude div - 1) * ln_magnitude d →
        ln_cmp_spec t current ≠ ln_Greater) →
      (d.integer.length : Int) + 112 ≤ fuel + ln_magnitude div →
      ∃ div2 tmp2, ln_div_search d current fuel div tmp = some (div2, tmp2) ∧
        ln_canonical div2 ∧ div2.integer ≠ [] ∧ div2.negative = false ∧
        ln_magnitude div2 ≤ 100 ∧
        (ln_magnitude div2 = 1 ∨ ∀ t, ln_canonical t → t.negative = false →
          ln_magnitude t = (ln_magnitude div2 - 1) * ln_magnitude d →
          ln_cmp_spec t current ≠ ln_Greater) ∧
        (∀ t, ln_canonical t → t.negative = false →
          ln_magnitude t = ln_magnitude div2 * ln_magnitude d →
          ln_cmp_spec t current = ln_Greater) := by
  intro fuel
  induction fuel with
  | zero =>
    intro div tmp _ _ _ h100 _ hf
    exfalso
    push_cast at hf
    omega
  | succ f ih =>
    intro div tmp hc hne hn h100 hprev hf
    have hk1 := ln_canonical_pos div hc hne
    have hD := ln_canonical_pos d hd hdne
    have hDlt := ln_magnitude_lt d hd.1
    have hDge := ln_canonical_value_ge d hd hdne
    have hLd : 1 ≤ d.integer.length := List.length_pos.mpr hdne
    push_cast at hf
    unfold ln_div_search
    simp only []
    obtain ⟨m1, m2, m3⟩ := ln_mul_pos (ln_clear tmp) div d ⟨rfl, rfl⟩ hc hne hd hdne
    rw [hn, hdn] at m2
    have m2b : (ln_mul (ln_clear tmp) div d).negative = false := m2
    generalize ln_mul (ln_clear tmp) div d = t1 at m1 m2b m3 ⊢
    have hlen1 : t1.integer.length ≤ d.integer.length + 2 := by
      apply ln_canonical_length_le t1 m1
      rw [m3, pow_add]
      nlinarith
    rw [ln_cmp_eq_spec f t1 current (fun x hx => (m1.1 x hx).1) (by omega)]
    simp only []
    have hsame : ∀ t, ln_canonical t → t.negative = false →
        ln_magnitude t = ln_magnitude div * ln_magnitude d →
        ln_cmp_spec t current = ln_cmp_spec t1 current := by
      intro t ht htn hm
      exact ln_cmp_spec_congr t t1 current (ln_canonical_unique t t1 ht m1 (by rw [hm, m3]))
        (by rw [htn, m2b])
    by_cases hg : ln_cmp_spec t1 current = ln_Greater
    · rw [if_pos hg]
      refine ⟨div, t1, rfl, hc, hne, hn, h100, hprev, ?_⟩
      intro t ht htn hm
      rw [hsame t ht htn hm]
      exact hg
    · rw [if_neg hg]
      have hk99 : ln_magnitude div ≤ 99 := by
        by_contra h
        have h100e : ln_magnitude div = 100 := by omega
        apply hg
        apply ln_cmp_spec_of_len_gt t1 current m2b hcn
        have hlt1 := ln_magnitude_lt t1 m1.1
        have hp : (10 : Int) ^ (d.integer.length + 1) = 10 ^ (d.integer.length - 1) * 100 := by
          have : d.integer.length + 1 = (d.integer.length - 1) + 2 := by omega
          rw [this, pow_add]
          norm_num
        have h3 : (10 : Int) ^ (d.integer.length + 1) < 10 ^ t1.integer.length := by
          rw [hp]
          rw [m3, h100e] at hlt1
          omega
        have := (pow_lt_pow_iff_right₀ (by norm_num)).mp h3
        omega
      have hdl : div.integer.length ≤ 3 :=
        ln_canonical_length_le div hc 3 (by norm_num; omega)
      obtain ⟨div2, hi, p1, p2, p3, p4⟩ := ln_inc_spec f div hc hn (by omega)
      rw [hi]
      simp only []
      obtain ⟨div3, tmp3, hs, q1, q2, q3, q4, q5, q6⟩ :=
        ih div2 t1 p1 p2 p3 (by omega)
          (Or.inr (by
            intro t ht htn hm
            rw [hsame t ht htn (by rw [hm, p4]; ring)]
            exact hg))
          (by omega)
      exact ⟨div3, tmp3, hs, q1, q2, q3, q4, q5, q6⟩

theorem ln_div_subtrahend (d div3 tmpS : ln_t) (k : Int) (hd : ln_canonical d)
    (hdne : d.integer ≠ []) (hdn : d.negative = false) (e1 : ln_canonical div3)
    (e2 : div3.negative = false) (e3 : ln_magnitude div3 = k - 1) :
    ln_canonical (ln_mul (ln_clear tmpS) (if div3.int_sz = 0 then ln_append div3 0 else div3) d) ∧
    (ln_mul (ln_clear tmpS) (if div3.int_sz = 0 then ln_append div3 0 else div3) d).negative
      = false ∧
    ln_magnitude (ln_mul (ln_clear tmpS) (if div3.int_sz = 0 then ln_append div3 0 else div3) d)
      = (k - 1) * ln_magnitude d ∧
    (k = 1 → (ln_mul (ln_clear tmpS)
      (if div3.int_sz = 0 then ln_append div3 0 else div3) d).integer = []) := by
  by_cases h0 : div3.integer = []
  · have hsz : div3.int_sz = 0 := by unfold ln_t.int_sz; rw [h0]; rfl
    have hk1 : k = 1 := by
      unfold ln_magnitude at e3
      rw [h0] at e3
      simp [ln_digits_value] at e3
      omega
    rw [if_pos hsz]
    have hz : ln_is_zero (ln_append div3 0) = true := by
      rw [ln_is_zero_iff]
      right
      simp [h0]
    have hm : ln_mul (ln_clear tmpS) (ln_append div3 0) d = ln_clear tmpS := by
      unfold ln_mul
      rw [if_pos (Or.inl hz)]
    rw [hm]
    refine ⟨ln_canonical_of_empty _ rfl, rfl, ?_, fun _ => rfl⟩
    rw [hk1]
    simp [ln_magnitude, ln_digits_value]
  · have hsz : ¬ div3.int_sz = 0 := by
      unfold ln_t.int_sz
      intro h
      exact h0 (List.length_eq_zero.mp h)
    rw [if_neg hsz]
    obtain ⟨m1, m2, m3⟩ := ln_mul_pos (ln_clear tmpS) div3 d ⟨rfl, rfl⟩ e1 h0 hd hdne
    rw [e2, hdn] at m2
    refine ⟨m1, m2, by rw [m3, e3], ?_⟩
    intro hk1
    have := ln_canonical_pos div3 e1 h0
    omega

theorem ln_div_loop_spec (n d : ln_t) (hn : ln_digits_ok n) (hd : ln_canonical d)
    (hdne : d.integer ≠ []) (hdn : d.negative = false) :
    ∀ (fuel : Nat) (s : ln_div_state), ln_canonical s.current → s.current.negative = false →
      s.current.integer.length ≤ d.integer.length + 1 → s.cur_idx_in_n ≤ n.int_sz →
      (∀ q, s.q = some q → q.negative = false) →
      2 * (n.int_sz - s.cur_idx_in_n) + (if ln_cmp_spec s.current d = ln_Lesser then 0 else 1)
        + n.int_sz + d.integer.length + 120 ≤ fuel →
      ∃ s2, ln_div_loop n d fuel s = some s2 ∧ s2.current.negative = false ∧
        (∀ q, s2.q = some q → q.negative = false) ∧ s2.q.isSome = s.q.isSome := by
  intro fuel
  induction fuel with
  | zero => intro s _ _ _ _ _ hf; omega
  | succ f ih =>
    intro s hcc hcn hcl hidx hq hf
    have hD := ln_canonical_pos d hd hdne
    unfold ln_div_loop
    by_cases hlt : s.cur_idx_in_n < n.int_sz
    · rw [if_neg (by simpa using hlt)]
      obtain ⟨c2, idx2, it2, stop, hb, b1, b2, b3, b4, b5, b6, b7⟩ :=
        ln_div_bring_spec n d hn hdn f s.current s.cur_idx_in_n 0 hcc.1 hcn hcl hidx (by omega)
      rw [hb]
      simp only []
      obtain ⟨div2, tmpS, hs, s1, s2, s3, s4, s5, s6⟩ :=
        ln_div_search_spec d c2 hd hdne hdn b2 b3 f (ln_append (ln_clear s.div) 1) s.tmp
          ⟨by intro x hx; simp at hx; omega, by simp⟩ (by simp) (by simp)
          (by simp [ln_magnitude, ln_digits_value])
          (Or.inl (by simp [ln_magnitude, ln_digits_value]))
          (by
            have : ln_magnitude (ln_append (ln_clear s.div) 1) = 1 := by
              simp [ln_magnitude, ln_digits_value]
            rw [this]
            omega)
      rw [hs]
      simp only []
      have hdl : div2.integer.length ≤ 3 :=
        ln_canonical_length_le div2 s1 3 (by norm_num; omega)
      have hk1 := ln_canonical_pos div2 s1 s2
      obtain ⟨div3, hdec, e1, e2, e3⟩ := ln_dec_spec f div2 s1 s2 s3 (by omega)
      rw [hdec]
      simp only []
      obtain ⟨t1, t2, t3, t4⟩ :=
        ln_div_subtrahend d div3 tmpS (ln_magnitude div2) hd hdne hdn e1 e2 e3
      generalize ln_mul (ln_clear tmpS) (if div3.int_sz = 0 then ln_append div3 0 else div3) d
        = T at t1 t2 t3 t4 ⊢
      have hcT : ln_cmp_spec c2 T ≠ ln_Lesser := by
        rcases s5 with h1 | hp
        · exact ln_cmp_spec_of_nil c2 T b2 t2 (t4 h1)
        · have := hp T t1 t2 t3
          rw [ln_cmp_spec_swap T c2]
          intro hc
          apply this
          cases hx : ln_cmp_spec T c2 <;> rw [hx] at hc <;> simp [ln_cmp_swap] at hc
      obtain ⟨r, hr, r1, r2, r3⟩ :=
        ln_sub_shape f (ln_clear s.tmp2) c2 T b1 t1.1 b2 t2 hcT ⟨rfl, rfl⟩ (by omega)
      rw [hr]
      simp only []
      have hqn : ∀ q, (Option.map (fun q => ln_append q (ln_at
            (if div3.int_sz = 0 then ln_append div3 0 else div3) 0))
          (Option.map (fun q => if it2 > 1 ∧ q.int_sz > 0 then ln_append q 0 else q) s.q))
            = some q → q.negative = false := by
        intro q hq2
        cases hsq : s.q with
        | none => rw [hsq] at hq2; simp at hq2
        | some q0 =>
          rw [hsq] at hq2
          simp only [Option.map_some'] at hq2
          have := Option.some.inj hq2
          rw [← this]
          simp only [ln_append_negative]
          have h0 := hq q0 hsq
          split
          · simp [h0]
          · exact h0
      have hqs : (Option.map (fun q => ln_append q (ln_at
            (if div3.int_sz = 0 then ln_append div3 0 else div3) 0))
          (Option.map (fun q => if it2 > 1 ∧ q.int_sz > 0 then ln_append q 0 else q) s.q)).isSome
            = s.q.isSome := by
        cases s.q <;> rfl
      cases stop with
      | true =>
        simp only [if_true]
        exact ⟨_, rfl, r2, hqn, hqs⟩
      | false =>
        simp only [Bool.false_eq_true, if_false]
        have hmeas : 2 * (n.int_sz - idx2) +
            (if ln_cmp_spec (ln_copy r) d = ln_Lesser then 0 else 1) + 1 ≤
            2 * (n.int_sz - s.cur_idx_in_n) +
            (if ln_cmp_spec s.current d = ln_Lesser then 0 else 1) := by
          by_cases hi : idx2 = s.cur_idx_in_n
          · have hc2 := b6 hi
            subst hc2
            have hnl : ln_cmp_spec s.current d ≠ ln_Lesser := by
              intro hl
              have := b7 hl hlt
              omega
            rw [if_neg hnl, hi]
            have hTgt : ln_magnitude s.current < ln_magnitude div2 * ln_magnitude d := by
              obtain ⟨m1, m2, m3⟩ := ln_mul_pos ln_init div2 d ⟨rfl, rfl⟩ s1 s2 hd hdne
              rw [s3, hdn] at m2
              have hg := s6 (ln_mul ln_init div2 d) m1 m2 m3
              have := (ln_cmp_spec_canonical (ln_mul ln_init div2 d) s.current m1 hcc m2 hcn).2.2 hg
              rw [m3] at this
              exact this
            obtain ⟨r5, hr5, _, _, _, hmag, _⟩ :=
              ln_sub_core f (ln_clear s.tmp2) s.current T (ln_canonical_wf _ hcc)
                (ln_canonical_wf _ t1) (by rw [hcn, t2]) hcT ⟨rfl, rfl⟩ (by omega)
                (by
                  have := ln_cmp_spec_len_le s.current T hcn t2 hcT
                  omega)
            rw [hr] at hr5
            have := Option.some.inj hr5
            subst this
            have hrl : ln_cmp_spec (ln_copy r) d = ln_Lesser := by
              apply ln_cmp_spec_of_lt (ln_copy r) d r1 hd r2 hdn
              have e : ln_magnitude (ln_copy r) = ln_magnitude r := rfl
              rw [e, hmag, t3]
              linarith
            rw [if_pos hrl]
          · have : s.cur_idx_in_n < idx2 := by omega
            split <;> split <;> omega
        obtain ⟨s9, h9, g1, g2, g3⟩ := ih
          { q := Option.map (fun q => ln_append q (ln_at
                (if div3.int_sz = 0 then ln_append div3 0 else div3) 0))
              (Option.map (fun q => if it2 > 1 ∧ q.int_sz > 0 then ln_append q 0 else q) s.q),
            current := ln_copy r,
            div := if div3.int_sz = 0 then ln_append div3 0 else div3,
            tmp := T, tmp2 := r, cur_idx_in_n := idx2 }
          r1 r2 (by simp only [ln_copy_integer]; omega) b5 hqn (by simp only []; omega)
        exact ⟨s9, h9, g1, g2, by rw [g3]; exact hqs⟩
    · rw [if_pos (by simpa using hlt)]
      exact ⟨s, rfl, hcn, hq, rfl⟩

theorem ln_div_flags (fuel : Nat) (q0 r0 n d : ln_t) (hn : ln_digits_ok n) (hd : ln_wf d)
    (hdz : ln_is_zero d = false) (hdn : d.negative = false) (hq0 : q0.negative = false)
    (hf : 3 * n.int_sz + d.int_sz + 130 ≤ fuel) :
    ∃ q r, ln_div fuel (some q0) n d (some r0) = some (some q, some r) ∧ q.negative = false ∧
      r.negative = false := by
  obtain ⟨x, xs, hx, hx1⟩ := ln_head_of_wf_nonzero d hd hdz
  have hc : ln_canonical d := ⟨hd.1, by rw [hx]; simp; omega⟩
  have hne : d.integer ≠ [] := by rw [hx]; simp
  unfold ln_div
  rw [hdz]
  simp only [Bool.false_eq_true, if_false]
  obtain ⟨s2, h2, g1, g2, g3⟩ := ln_div_loop_spec n d hn hc hne hdn fuel
    { q := some q0, current := ln_init, div := ln_init, tmp := ln_init, tmp2 := ln_init,
      cur_idx_in_n := 0 }
    (ln_canonical_of_empty _ rfl) rfl (by simp [ln_init]) (Nat.zero_le _)
    (by
      intro q hq
      have := Option.some.inj hq
      rw [← this]
      exact hq0)
    (by
      simp only []
      unfold ln_t.int_sz at hf
      unfold ln_t.int_sz
      split <;> omega)
  rw [h2]
  simp only [Option.map_some']
  cases hq : s2.q with
  | none => rw [hq] at g3; simp at g3
  | some q =>
    refine ⟨q, _, rfl, g2 q hq, ?_⟩
    split
    · simp [g1]
    · simp [g1]

/-! ## Claims on addition, subtraction, comparison and division by zero -/

/-- C1: for all numbers a, b with digits in 0..9 and no leading zero (zero being
the empty sequence or the single digit 0), of any signs, and an empty output,
`ln_add` returns, for every fuel that covers its loops, an output whose signed
value is value(a) + value(b). -/
theorem ln_add_value (fuel : Nat) (out a b : ln_t) (ha : ln_wf a) (hb : ln_wf b)
    (ho : ln_is_empty out) (hf : a.int_sz + b.int_sz + 6 ≤ fuel) :
    ∃ r, ln_add fuel out a b = some r ∧ ln_value r = ln_value a + ln_value b := by
  unfold ln_t.int_sz at hf
  obtain ⟨r, hr, _, hv⟩ := ln_add_spec fuel out a b ha hb ho (by omega) (by omega)
  exact ⟨r, hr, hv⟩

/-- C1 at 999 + 1: the hypotheses hold, the theorem applies, and the digits
left in the output are 1,0,0,0. -/
theorem ln_add_value_witness :
    (ln_add 10 ln_init (ln_of_digits [9, 9, 9]) (ln_of_digits [1])).map (fun r => r.integer)
        = some [1, 0, 0, 0] ∧
      ∃ r, ln_add 10 ln_init (ln_of_digits [9, 9, 9]) (ln_of_digits [1]) = some r ∧
        ln_value r = ln_value (ln_of_digits [9, 9, 9]) + ln_value (ln_of_digits [1]) :=
  ⟨by decide, ln_add_value 10 ln_init (ln_of_digits [9, 9, 9]) (ln_of_digits [1])
    (by decide) (by decide) (by decide) (by decide)⟩

/-- C2: for all numbers a, b with digits in 0..9 and no leading zero, of any
signs, and an empty output, `ln_sub` returns, for every fuel that covers its
loops, an output whose signed value is value(a) - value(b) and which has no
leading zero digit. -/
theorem ln_sub_value (fuel : Nat) (out a b : ln_t) (ha : ln_wf a) (hb : ln_wf b)
    (ho : ln_is_empty out) (hf : a.int_sz + b.int_sz + 6 ≤ fuel) :
    ∃ r, ln_sub fuel out a b = some r ∧ ln_value r = ln_value a - ln_value b ∧
      ln_no_leading_zero r := by
  unfold ln_t.int_sz at hf
  obtain ⟨r, hr, hwf, hv⟩ := ln_sub_spec fuel out a b ha hb ho (by omega) (by omega)
  exact ⟨r, hr, hv, hwf.2⟩

/-- C2 at 100 - 101: the hypotheses hold, the theorem applies, and the output
is the digit 1 with the negative flag set. -/
theorem ln_sub_value_witness :
    (ln_sub 12 ln_init (ln_of_digits [1, 0, 0]) (ln_of_digits [1, 0, 1])).map
        (fun r => (r.integer, r.negative)) = some ([1], true) ∧
      ∃ r, ln_sub 12 ln_init (ln_of_digits [1, 0, 0]) (ln_of_digits [1, 0, 1]) = some r ∧
        ln_value r = ln_value (ln_of_digits [1, 0, 0]) - ln_value (ln_of_digits [1, 0, 1]) ∧
        ln_no_leading_zero r :=
  ⟨by decide, ln_sub_value 12 ln_init (ln_of_digits [1, 0, 0]) (ln_of_digits [1, 0, 1])
    (by decide) (by decide) (by decide) (by decide)⟩

/-- C7: when the divisor is zero (empty, or the single digit 0), `ln_div` and
`ln_mod` return at once, for every fuel, and leave the quotient and remainder
outputs exactly as they were. -/
theorem ln_div_by_zero (fuel : Nat) (q r : Option ln_t) (out n d : ln_t)
    (hd : d.integer = [] ∨ d.integer = [0]) :
    ln_div fuel q n d r = some (q, r) ∧ ln_mod fuel out n d = some out := by
  have hz : ln_is_zero d = true := by
    unfold ln_is_zero ln_t.int_sz
    rcases hd with h | h <;> simp [h]
  unfold ln_mod ln_div
  simp [hz]

/-- C7 at 5 / 0: the outputs are left untouched. -/
theorem ln_div_by_zero_witness :
    ln_div 0 (some ln_init) (ln_of_digits [5]) (ln_of_digits [0]) (some ln_init)
        = some (some ln_init, some ln_init) ∧
      ln_mod 0 ln_init (ln_of_digits [5]) (ln_of_digits [0]) = some ln_init :=
  ln_div_by_zero 0 (some ln_init) (some ln_init) ln_init (ln_of_digits [5]) (ln_of_digits [0])
    (Or.inr rfl)

/-- C8: on numbers with digits in 0..9 `ln_cmp` answers for every fuel above
the lengths, is antisymmetric (Lesser one way exactly when Greater the other
way, Equal exactly when Equal) and transitive on Lesser. -/
theorem ln_cmp_antisymm_trans (fuel : Nat) (a b c : ln_t)
    (ha : ln_digits_ok a) (hb : ln_digits_ok b) (_hc : ln_digits_ok c)
    (hfa : a.int_sz < fuel) (hfb : b.int_sz < fuel) (_hfc : c.int_sz < fuel) :
    (ln_cmp fuel a b).isSome = true ∧
    (ln_cmp fuel a b = some ln_Lesser ↔ ln_cmp fuel b a = some ln_Greater) ∧
    (ln_cmp fuel a b = some ln_Equal ↔ ln_cmp fuel b a = some ln_Equal) ∧
    (ln_cmp fuel a b = some ln_Lesser → ln_cmp fuel b c = some ln_Lesser →
      ln_cmp fuel a c = some ln_Lesser) := by
  unfold ln_t.int_sz at hfa hfb
  rw [ln_cmp_eq_spec fuel a b (fun d hd => (ha d hd).1) hfa,
    ln_cmp_eq_spec fuel b a (fun d hd => (hb d hd).1) hfb,
    ln_cmp_eq_spec fuel b c (fun d hd => (hb d hd).1) hfb,
    ln_cmp_eq_spec fuel a c (fun d hd => (ha d hd).1) hfa,
    ln_cmp_spec_swap a b]
  refine ⟨rfl, ?_, ?_, ?_⟩
  · cases ln_cmp_spec a b <;> simp [ln_cmp_swap]
  · cases ln_cmp_spec a b <;> simp [ln_cmp_swap]
  · intro h1 h2
    rw [ln_cmp_spec_trans a b c (Option.some.inj h1) (Option.some.inj h2)]

/-- C8 at -3, 12, 15: the comparator orders them as stated. -/
theorem ln_cmp_antisymm_trans_witness :
    (ln_cmp 3 (ln_of_digits_neg [3]) (ln_of_digits [1, 2])).isSome = true ∧
    (ln_cmp 3 (ln_of_digits_neg [3]) (ln_of_digits [1, 2]) = some ln_Lesser ↔
      ln_cmp 3 (ln_of_digits [1, 2]) (ln_of_digits_neg [3]) = some ln_Greater) ∧
    (ln_cmp 3 (ln_of_digits_neg [3]) (ln_of_digits [1, 2]) = some ln_Equal ↔
      ln_cmp 3 (ln_of_digits [1, 2]) (ln_of_digits_neg [3]) = some ln_Equal) ∧
    (ln_cmp 3 (ln_of_digits_neg [3]) (ln_of_digits [1, 2]) = some ln_Lesser →
      ln_cmp 3 (ln_of_digits [1, 2]) (ln_of_digits [1, 5]) = some ln_Lesser →
      ln_cmp 3 (ln_of_digits_neg [3]) (ln_of_digits [1, 5]) = some ln_Lesser) :=
  ln_cmp_antisymm_trans 3 (ln_of_digits_neg [3]) (ln_of_digits [1, 2]) (ln_of_digits [1, 5])
    (by decide) (by decide) (by decide) (by decide) (by decide) (by decide)

/-- C9 at the failing input -5, -3: `ln_cmp` answers Greater for every fuel
although -5 is less than -3. -/
theorem ln_cmp_two_negatives (fuel : Nat) :
    ln_cmp (fuel + 1) (ln_of_digits_neg [5]) (ln_of_digits_neg [3]) = some ln_Greater ∧
      ln_value (ln_of_digits_neg [5]) < ln_value (ln_of_digits_neg [3]) := by
  refine ⟨?_, by decide⟩
  simp [ln_cmp, ln_cmp_loop, ln_of_digits_neg, ln_t.int_sz, ln_at]

/-- C10 at the two forms of zero: `ln_is_zero` accepts both, and `ln_cmp`
answers Lesser and Greater, for every fuel, not Equal. -/
theorem ln_cmp_zero_forms (fuel : Nat) :
    ln_cmp fuel (ln_of_digits []) (ln_of_digits [0]) = some ln_Lesser ∧
      ln_cmp fuel (ln_of_digits [0]) (ln_of_digits []) = some ln_Greater ∧
      ln_is_zero (ln_of_digits []) = true ∧ ln_is_zero (ln_of_digits [0]) = true := by
  refine ⟨?_, ?_, by decide, by decide⟩
  · simp [ln_cmp, ln_of_digits, ln_t.int_sz]
  · simp [ln_cmp, ln_of_digits, ln_t.int_sz]

/-! ## Claims on text conversion and on division -/

/-- C6 for negative values: `ln_append_int` sets the negative flag, and
`ln_append_str`, whatever length it is given, leaves the flag of the empty
number clear when it parses the rendered text back; the round trip loses the
sign. -/
theorem ln_round_trip_loses_sign (v : Int) (l : Nat) (hv : v < 0) :
    (ln_append_int ln_init v).negative = true ∧
      (ln_append_str ln_init (ln_c_str (ln_append_int ln_init v)) l).negative = false := by
  refine ⟨?_, ?_⟩
  · unfold ln_append_int
    simp only []
    rw [ln_append_str_negative, if_pos hv]
  · rw [ln_append_str_negative]; rfl

/-- C6 at v = -5: the built number is the digit 5 with the flag set, its text is
"-5", and parsing the text back gives the digit 5 with the flag clear. -/
theorem ln_round_trip_loses_sign_witness :
    (ln_append_int ln_init (-5)).integer = [5] ∧
      ln_c_str (ln_append_int ln_init (-5)) = ['-', '5'] ∧
      (ln_append_str ln_init (ln_c_str (ln_append_int ln_init (-5))) 0).integer = [5] ∧
      ((ln_append_int ln_init (-5)).negative = true ∧
        (ln_append_str ln_init (ln_c_str (ln_append_int ln_init (-5))) 0).negative = false) :=
  ⟨by decide, by decide, by decide, ln_round_trip_loses_sign (-5) 0 (by decide)⟩

/-- C4 at the failing input 100 / 1: for every fuel from 40 on, `ln_div` leaves
the quotient digits 1,0,9 and the remainder digits 9,1, so quotient * divisor +
remainder is 200, not 100, and the remainder is not below the divisor. -/
theorem ln_div_100_by_1 (fuel : Nat) :
    (ln_div (fuel + 40) (some ln_init) (ln_of_digits [1, 0, 0]) (ln_of_digits [1])
        (some ln_init)).map
        (fun p => (p.1.map (fun q => (q.integer, q.negative)),
          p.2.map (fun r => (r.integer, r.negative))))
      = some (some ([1, 0, 9], false), some ([9, 1], false)) := by
  have h40 : ln_div 40 (some ln_init) (ln_of_digits [1, 0, 0]) (ln_of_digits [1]) (some ln_init)
      = some (some { integer := [1, 0, 9], int_cap := 4, negative := false },
          some { integer := [9, 1], int_cap := 2, negative := false }) := by
    decide!
  rw [ln_fuel_le
    (fun f => ln_div f (some ln_init) (ln_of_digits [1, 0, 0]) (ln_of_digits [1]) (some ln_init))
    (fun f r h => ln_div_mono f _ _ _ _ r h) 40 (fuel + 40) (by omega) _ h40]
  rfl

/-! ## Claim on multiplication -/

/-- C3: for all numbers a, b with digits in 0..9 and no leading zero and an
empty output, `ln_mul` leaves an output of magnitude |a| * |b| whose negative
flag is set exactly when one operand alone is negative and both are non-zero;
when an operand is zero the output is left as it was, empty. -/
theorem ln_mul_value (out a b : ln_t) (ha : ln_wf a) (hb : ln_wf b) (ho : ln_is_empty out) :
    ln_magnitude (ln_mul out a b) = ln_magnitude a * ln_magnitude b ∧
      ((ln_mul out a b).negative = true ↔
        (a.negative ≠ b.negative ∧ ln_is_zero a = false ∧ ln_is_zero b = false)) ∧
      ((ln_is_zero a = true ∨ ln_is_zero b = true) → ln_mul out a b = out) := by
  by_cases hz : ln_is_zero a = true ∨ ln_is_zero b = true
  · have hm : ln_mul out a b = out := by
      unfold ln_mul
      rw [if_pos hz]
    rw [hm]
    refine ⟨?_, ?_, fun _ => rfl⟩
    · have h0 : ln_magnitude out = 0 := by
        unfold ln_magnitude; rw [ho.1]; rfl
      rw [h0]
      rcases hz with h | h
      · rw [ln_magnitude_of_is_zero a h]; ring
      · rw [ln_magnitude_of_is_zero b h]; ring
    · rw [ho.2]
      constructor
      · intro h; cases h
      · rintro ⟨_, h1, h2⟩
        rcases hz with h | h
        · rw [h] at h1; cases h1
        · rw [h] at h2; cases h2
  · have hza : ln_is_zero a = false := by
      cases h : ln_is_zero a
      · rfl
      · exact absurd (Or.inl h) hz
    have hzb : ln_is_zero b = false := by
      cases h : ln_is_zero b
      · rfl
      · exact absurd (Or.inr h) hz
    obtain ⟨m1, _, _, m4⟩ := ln_mul_spec out a b ho (fun x hx => (ha.1 x hx).1)
      (fun y hy => (hb.1 y hy).1) (ln_digit_product_le a b ha.1 hb.1)
      (ln_head_of_wf_nonzero a ha hza) (ln_head_of_wf_nonzero b hb hzb)
    refine ⟨m4, ?_, fun h => absurd h hz⟩
    rw [m1]
    cases a.negative <;> cases b.negative <;> simp [hza, hzb]

/-- C3 at 123 * 456: the hypotheses hold, the theorem applies, and the output
holds the digits 5,6,0,8,8 with the negative flag clear. -/
theorem ln_mul_value_witness :
    (ln_mul ln_init (ln_of_digits [1, 2, 3]) (ln_of_digits [4, 5, 6])).integer = [5, 6, 0, 8, 8] ∧
      (ln_magnitude (ln_mul ln_init (ln_of_digits [1, 2, 3]) (ln_of_digits [4, 5, 6])) =
          ln_magnitude (ln_of_digits [1, 2, 3]) * ln_magnitude (ln_of_digits [4, 5, 6]) ∧
        ((ln_mul ln_init (ln_of_digits [1, 2, 3]) (ln_of_digits [4, 5, 6])).negative = true ↔
          ((ln_of_digits [1, 2, 3]).negative ≠ (ln_of_digits [4, 5, 6]).negative ∧
            ln_is_zero (ln_of_digits [1, 2, 3]) = false ∧
            ln_is_zero (ln_of_digits [4, 5, 6]) = false)) ∧
        ((ln_is_zero (ln_of_digits [1, 2, 3]) = true ∨ ln_is_zero (ln_of_digits [4, 5, 6]) = true) →
          ln_mul ln_init (ln_of_digits [1, 2, 3]) (ln_of_digits [4, 5, 6]) = ln_init)) :=
  ⟨by decide, ln_mul_value ln_init (ln_of_digits [1, 2, 3]) (ln_of_digits [4, 5, 6])
    (by decide) (by decide) (by decide)⟩

/-! ## Claim on the integer square root -/

/-- C5: for every non-negative number n with digits in 0..9 and no leading
zero, of a length the `int` locals of `ln_sqrt` can hold, `ln_sqrt` returns, for
every fuel that covers its loops, a root r with
value(r)^2 <= value(n) < (value(r)+1)^2. -/
theorem ln_sqrt_bound (fuel : Nat) (n : ln_t) (hn : ln_wf n) (hneg : n.negative = false)
    (hsz : n.int_sz < 2 ^ 31) (hf : 2 * n.int_sz + 20 ≤ fuel) :
    ∃ r, ln_sqrt fuel n = some r ∧ ln_value r ^ 2 ≤ ln_value n ∧
      ln_value n < (ln_value r + 1) ^ 2 := by
  obtain ⟨r, hr, hrn, h1, h2⟩ := ln_sqrt_spec fuel n hn.1 hsz hf
  refine ⟨r, hr, ?_⟩
  rw [ln_value_of_parts r, ln_value_of_parts n, hrn, hneg]
  exact ⟨h1, h2⟩

/-- C5 at 15241578750190521: the hypotheses hold, the theorem applies, and the
root left in the output is 123456789. -/
theorem ln_sqrt_bound_witness :
    (ln_sqrt 54 (ln_of_digits [1, 5, 2, 4, 1, 5, 7, 8, 7, 5, 0, 1, 9, 0, 5, 2, 1])).map
        (fun r => r.integer) = some [1, 2, 3, 4, 5, 6, 7, 8, 9] ∧
      ∃ r, ln_sqrt 54 (ln_of_digits [1, 5, 2, 4, 1, 5, 7, 8, 7, 5, 0, 1, 9, 0, 5, 2, 1]) = some r ∧
        ln_value r ^ 2 ≤
          ln_value (ln_of_digits [1, 5, 2, 4, 1, 5, 7, 8, 7, 5, 0, 1, 9, 0, 5, 2, 1]) ∧
        ln_value (ln_of_digits [1, 5, 2, 4, 1, 5, 7, 8, 7, 5, 0, 1, 9, 0, 5, 2, 1]) <
          (ln_value r + 1) ^ 2 :=
  ⟨by decide!, ln_sqrt_bound 54 (ln_of_digits [1, 5, 2, 4, 1, 5, 7, 8, 7, 5, 0, 1, 9, 0, 5, 2, 1])
    (by decide) (by decide) (by decide) (by decide)⟩

/-! ## Claim on the commutativity of addition -/

/-- C11 fails at 5 and -5: both orders leave the empty digit sequence, but
5 + (-5) leaves the negative flag clear and (-5) + 5 sets it. -/
theorem ln_add_comm_sign_of_zero :
    (ln_add 10 ln_init (ln_of_digits [5]) (ln_of_digits_neg [5])).map
        (fun r => (r.integer, r.negative)) = some ([], false) ∧
      (ln_add 10 ln_init (ln_of_digits_neg [5]) (ln_of_digits [5])).map
        (fun r => (r.integer, r.negative)) = some ([], true) := by
  decide

/-- C11 as amended: for all numbers a, b with digits in 0..9 and no leading
zero, of any signs, `ln_add` on a, b and on b, a from empty outputs returns, for
every fuel that covers its loops, the same digit sequence, and the same negative
flag whenever that digit sequence is not empty. -/
theorem ln_add_comm_digits (fuel : Nat) (out1 out2 a b : ln_t) (ha : ln_wf a) (hb : ln_wf b)
    (ho1 : ln_is_empty out1) (ho2 : ln_is_empty out2) (hf : a.int_sz + b.int_sz + 6 ≤ fuel) :
    ∃ r1 r2, ln_add fuel out1 a b = some r1 ∧ ln_add fuel out2 b a = some r2 ∧
      r1.integer = r2.integer ∧ (r1.integer ≠ [] → r1.negative = r2.negative) := by
  unfold ln_t.int_sz at hf
  cases han : a.negative <;> cases hbn : b.negative
  · obtain ⟨r1, h1, _⟩ := ln_add_spec fuel out1 a b ha hb ho1 (by omega) (by omega)
    obtain ⟨r2, h2, _⟩ := ln_add_spec fuel out2 b a hb ha ho2 (by omega) (by omega)
    obtain ⟨e1, e2⟩ := ln_add_same_sign_comm fuel out1 out2 a b r1 r2 (by rw [han, hbn])
      (by rw [ho1.1, ho2.1]) (by rw [ho1.2, ho2.2]) h1 h2
    exact ⟨r1, r2, h1, h2, e1, fun _ => e2⟩
  · obtain ⟨r1, h1, c1, v1⟩ := ln_add_pos_neg fuel out1 a b ha hb han hbn ho1 (by omega) (by omega)
    obtain ⟨r2, h2, c2, v2⟩ := ln_add_neg_pos fuel out2 b a hb ha hbn han ho2 (by omega) (by omega)
    obtain ⟨e1, e2⟩ := ln_canonical_same_of_value r1 r2 c1 c2 (by rw [v1, v2]; ring)
    exact ⟨r1, r2, h1, h2, e1, e2⟩
  · obtain ⟨r1, h1, c1, v1⟩ := ln_add_neg_pos fuel out1 a b ha hb han hbn ho1 (by omega) (by omega)
    obtain ⟨r2, h2, c2, v2⟩ := ln_add_pos_neg fuel out2 b a hb ha hbn han ho2 (by omega) (by omega)
    obtain ⟨e1, e2⟩ := ln_canonical_same_of_value r1 r2 c1 c2 (by rw [v1, v2]; ring)
    exact ⟨r1, r2, h1, h2, e1, e2⟩
  · obtain ⟨r1, h1, _⟩ := ln_add_spec fuel out1 a b ha hb ho1 (by omega) (by omega)
    obtain ⟨r2, h2, _⟩ := ln_add_spec fuel out2 b a hb ha ho2 (by omega) (by omega)
    obtain ⟨e1, e2⟩ := ln_add_same_sign_comm fuel out1 out2 a b r1 r2 (by rw [han, hbn])
      (by rw [ho1.1, ho2.1]) (by rw [ho1.2, ho2.2]) h1 h2
    exact ⟨r1, r2, h1, h2, e1, fun _ => e2⟩

/-- C11 as amended, at 999 and -1: the hypotheses hold, the theorem applies,
and both orders leave the digits 9,9,8 with the flag clear. -/
theorem ln_add_comm_digits_witness :
    (ln_add 10 ln_init (ln_of_digits [9, 9, 9]) (ln_of_digits_neg [1])).map
        (fun r => (r.integer, r.negative)) = some ([9, 9, 8], false) ∧
      ∃ r1 r2, ln_add 10 ln_init (ln_of_digits [9, 9, 9]) (ln_of_digits_neg [1]) = some r1 ∧
        ln_add 10 ln_init (ln_of_digits_neg [1]) (ln_of_digits [9, 9, 9]) = some r2 ∧
        r1.integer = r2.integer ∧ (r1.integer ≠ [] → r1.negative = r2.negative) :=
  ⟨by decide, ln_add_comm_digits 10 ln_init ln_init (ln_of_digits [9, 9, 9]) (ln_of_digits_neg [1])
    (by decide) (by decide) (by decide) (by decide) (by decide)⟩

/-! ## Claims on rendering, trimming, capacity and well-formedness -/

/-- C12 at the failing inputs 5 - 5 and (-5) + 5: both results are zero for
`ln_is_zero`, and `ln_c_str` renders the first as the empty text and the second
as "-", not as "0". -/
theorem ln_c_str_of_empty_zero :
    (ln_sub 10 ln_init (ln_of_digits [5]) (ln_of_digits [5])).map
        (fun r => (ln_is_zero r, ln_c_str r)) = some (true, []) ∧
      (ln_add 10 ln_init (ln_of_digits_neg [5]) (ln_of_digits [5])).map
        (fun r => (ln_is_zero r, ln_c_str r)) = some (true, ['-']) ∧
      ln_c_str (ln_of_digits [0]) = ['0'] := by
  decide

/-- C13 fails at the single digit 0 and at 0,0,0: `ln_trim` leaves the empty
sequence, not the one digit 0. -/
theorem ln_trim_removes_last_zero :
    (ln_trim (ln_of_digits [0])).integer = [] ∧ (ln_trim (ln_of_digits [0])).integer ≠ [0] ∧
      (ln_trim (ln_of_digits [0, 0, 0])).integer = [] := by
  decide

/-- C13 as amended: `ln_trim` removes exactly the leading zero digits and
keeps the remaining digits in order, leaving no zero in front and the sign flag
as it was; a number whose digits are all 0 is left empty. -/
theorem ln_trim_leading_zeros (n : ln_t) :
    (∃ k, n.integer = List.replicate k 0 ++ (ln_trim n).integer) ∧
      (ln_trim n).integer.head? ≠ some 0 ∧
      (ln_trim n).negative = n.negative ∧
      ((∀ d ∈ n.integer, d = 0) → (ln_trim n).integer = []) := by
  have hsplit := ln_trim_count_split n.integer
  have hhead := (ln_trim_count_spec n.integer).2
  rw [← ln_trim_integer] at hsplit hhead
  refine ⟨⟨_, hsplit⟩, hhead, ln_trim_negative n, ?_⟩
  intro hall
  cases ht : (ln_trim n).integer with
  | nil => rfl
  | cons x t =>
    exfalso
    apply hhead
    have hx : x ∈ n.integer := by
      rw [hsplit, ht]; simp
    rw [ht, hall x hx]
    rfl

/-- C17 at the failing input: a one-digit number built by `ln_append` has
length 1 and capacity 2; `ln_resize` to 10 leaves length 10 and capacity 4. -/
theorem ln_resize_exceeds_capacity :
    (ln_append ln_init 5).int_sz = 1 ∧ (ln_append ln_init 5).int_cap = 2 ∧
      (ln_resize (ln_append ln_init 5) 10).int_sz = 10 ∧
      (ln_resize (ln_append ln_init 5) 10).int_cap = 4 := by
  decide

/-- C19: for well-formed a, b (digits in 0..9, no leading zero unless the single
digit 0) and an empty output, `ln_add` and `ln_sub` return, for every fuel that
covers their loops, well-formed outputs, and the output of `ln_mul` is well
formed and holds no -1 cell. -/
theorem ln_arith_wf (fuel : Nat) (out a b : ln_t) (ha : ln_wf a) (hb : ln_wf b)
    (ho : ln_is_empty out) (hf : a.int_sz + b.int_sz + 6 ≤ fuel) :
    (∃ r, ln_add fuel out a b = some r ∧ ln_wf r) ∧
      (∃ r, ln_sub fuel out a b = some r ∧ ln_wf r) ∧
      ln_wf (ln_mul out a b) ∧ (-1 : Int) ∉ (ln_mul out a b).integer := by
  unfold ln_t.int_sz at hf
  obtain ⟨r1, h1, w1, _⟩ := ln_add_spec fuel out a b ha hb ho (by omega) (by omega)
  obtain ⟨r2, h2, w2, _⟩ := ln_sub_spec fuel out a b ha hb ho (by omega) (by omega)
  have hm : ln_wf (ln_mul out a b) := by
    by_cases hz : ln_is_zero a = true ∨ ln_is_zero b = true
    · have hmo : ln_mul out a b = out := by
        unfold ln_mul; rw [if_pos hz]
      rw [hmo]
      exact ln_wf_of_empty out ho.1
    · have hza : ln_is_zero a = false := by
        cases h : ln_is_zero a
        · rfl
        · exact absurd (Or.inl h) hz
      have hzb : ln_is_zero b = false := by
        cases h : ln_is_zero b
        · rfl
        · exact absurd (Or.inr h) hz
      obtain ⟨_, m2, m3, _⟩ := ln_mul_spec out a b ho (fun x hx => (ha.1 x hx).1)
        (fun y hy => (hb.1 y hy).1) (ln_digit_product_le a b ha.1 hb.1)
        (ln_head_of_wf_nonzero a ha hza) (ln_head_of_wf_nonzero b hb hzb)
      exact ln_canonical_wf _ ⟨m2, m3⟩
  refine ⟨⟨r1, h1, w1⟩, ⟨r2, h2, w2⟩, hm, ?_⟩
  intro hmem
  have := (hm.1 _ hmem).1
  omega

/-- C19 at 999, 1: the hypotheses hold and the theorem applies. -/
theorem ln_arith_wf_witness :
    (∃ r, ln_add 10 ln_init (ln_of_digits [9, 9, 9]) (ln_of_digits [1]) = some r ∧ ln_wf r) ∧
      (∃ r, ln_sub 10 ln_init (ln_of_digits [9, 9, 9]) (ln_of_digits [1]) = some r ∧ ln_wf r) ∧
      ln_wf (ln_mul ln_init (ln_of_digits [9, 9, 9]) (ln_of_digits [1])) ∧
      (-1 : Int) ∉ (ln_mul ln_init (ln_of_digits [9, 9, 9]) (ln_of_digits [1])).integer :=
  ln_arith_wf 10 ln_init (ln_of_digits [9, 9, 9]) (ln_of_digits [1])
    (by decide) (by decide) (by decide) (by decide)

/-! ## Claims on the long division -/

/-- C14: with dividend 1000, divisor 7 and empty outputs `ln_div` returns, for
every fuel from 40 on, the quotient digits 1,4,2 and the remainder digit 6, both
with the negative flag clear. -/
theorem ln_div_1000_by_7 (fuel : Nat) :
    (ln_div (fuel + 40) (some ln_init) (ln_of_digits [1, 0, 0, 0]) (ln_of_digits [7])
        (some ln_init)).map
        (fun p => (p.1.map (fun q => (q.integer, q.negative)),
          p.2.map (fun r => (r.integer, r.negative))))
      = some (some ([1, 4, 2], false), some ([6], false)) := by
  have h40 : ln_div 40 (some ln_init) (ln_of_digits [1, 0, 0, 0]) (ln_of_digits [7])
      (some ln_init)
      = some (some { integer := [1, 4, 2], int_cap := 4, negative := false },
          some { integer := [6], int_cap := 2, negative := false }) := by
    decide!
  rw [ln_fuel_le
    (fun f => ln_div f (some ln_init) (ln_of_digits [1, 0, 0, 0]) (ln_of_digits [7])
      (some ln_init))
    (fun f r h => ln_div_mono f _ _ _ _ r h) 40 (fuel + 40) (by omega) _ h40]
  rfl

/-- C20 at the failing input 102000 / 101: after the first step (quotient 1,
remainder 1, three digits read) the bring-down loop takes three digits, and
`ln_div` returns, for every fuel from 60 on, the quotient digits 1,0,9 (one
zero, not two) with the remainder digits 9,1. -/
theorem ln_div_102000_by_101 (fuel : Nat) :
    (ln_div_bring (ln_of_digits [1, 0, 2, 0, 0, 0]) (ln_of_digits [1, 0, 1]) 10
        (ln_of_digits [1]) 3 0).map (fun p => (p.1.integer, p.2.1, p.2.2.1, p.2.2.2))
      = some ([1, 0, 0, 0], 6, 3, false) ∧
    (ln_div (fuel + 60) (some ln_init) (ln_of_digits [1, 0, 2, 0, 0, 0])
        (ln_of_digits [1, 0, 1]) (some ln_init)).map
        (fun p => (p.1.map (fun q => (q.integer, q.negative)),
          p.2.map (fun r => (r.integer, r.negative))))
      = some (some ([1, 0, 9], false), some ([9, 1], false)) := by
  have h60 : ln_div 60 (some ln_init) (ln_of_digits [1, 0, 2, 0, 0, 0])
      (ln_of_digits [1, 0, 1]) (some ln_init)
      = some (some { integer := [1, 0, 9], int_cap := 4, negative := false },
          some { integer := [9, 1], int_cap := 4, negative := false }) := by
    decide!
  refine ⟨by decide!, ?_⟩
  rw [ln_fuel_le
    (fun f => ln_div f (some ln_init) (ln_of_digits [1, 0, 2, 0, 0, 0])
      (ln_of_digits [1, 0, 1]) (some ln_init))
    (fun f r h => ln_div_mono f _ _ _ _ r h) 60 (fuel + 60) (by omega) _ h60]
  rfl

/-! ## Claim on the delegation between addition and subtraction -/

/-- C18: for all numbers a, b with digits in 0..9, of any signs, and any
output, a call of `ln_add` and a call of `ln_sub` return, for every fuel that
covers the digit loop, after a chain of at most two nested delegating calls;
the counted functions return what `ln_add` and `ln_sub` return. -/
theorem ln_add_sub_depth_le_two (fuel : Nat) (out a b : ln_t) (ha : ln_digits_ok a)
    (hb : ln_digits_ok b) (hf : a.int_sz + b.int_sz + 6 ≤ fuel) :
    (∃ r k, ln_add_depth fuel out a b = some (r, k) ∧ k ≤ 2 ∧ ln_add fuel out a b = some r) ∧
    (∃ r k, ln_sub_depth fuel out a b = some (r, k) ∧ k ≤ 2 ∧ ln_sub fuel out a b = some r) := by
  unfold ln_t.int_sz at hf
  obtain ⟨r1, k1, h1, hk1⟩ := ln_add_depth_le fuel out a b ha hb (by omega) (by omega)
  obtain ⟨r2, k2, h2, hk2⟩ := ln_sub_depth_le fuel out a b ha hb (by omega) (by omega)
  refine ⟨⟨r1, k1, h1, hk1, ?_⟩, ⟨r2, k2, h2, hk2, ?_⟩⟩
  · rw [← (ln_add_sub_depth_fst fuel).1 out a b, h1]; rfl
  · rw [← (ln_add_sub_depth_fst fuel).2 out a b, h2]; rfl

/-- C18 at -3 and 12: the hypotheses hold, the theorem applies, and both calls
reach their digit loop at depth exactly 2. -/
theorem ln_add_sub_depth_le_two_witness :
    (ln_add_depth 9 ln_init (ln_of_digits_neg [3]) (ln_of_digits [1, 2])).map
        (fun p => (p.1.integer, p.1.negative, p.2)) = some ([9], false, 2) ∧
      (ln_sub_depth 9 ln_init (ln_of_digits_neg [3]) (ln_of_digits [1, 2])).map
        (fun p => (p.1.integer, p.1.negative, p.2)) = some ([1, 5], true, 2) ∧
      ((∃ r k, ln_add_depth 9 ln_init (ln_of_digits_neg [3]) (ln_of_digits [1, 2]) = some (r, k) ∧
          k ≤ 2 ∧ ln_add 9 ln_init (ln_of_digits_neg [3]) (ln_of_digits [1, 2]) = some r) ∧
        (∃ r k, ln_sub_depth 9 ln_init (ln_of_digits_neg [3]) (ln_of_digits [1, 2]) = some (r, k) ∧
          k ≤ 2 ∧ ln_sub 9 ln_init (ln_of_digits_neg [3]) (ln_of_digits [1, 2]) = some r)) :=
  ⟨by decide, by decide, ln_add_sub_depth_le_two 9 ln_init (ln_of_digits_neg [3])
    (ln_of_digits [1, 2]) (by decide) (by decide) (by decide)⟩

/-! ## Claim on the signs of the long division -/

/-- C15 fails at -7 / 2: the operands are in the domain of the claim (negative
dividend, positive divisor, both well formed, 7 at least 2), and `ln_div` with
fuel 40 returns the quotient digit 3 and the remainder digit 1, both with the
negative flag clear. -/
theorem ln_div_neg7_by_2 :
    ln_wf (ln_of_digits_neg [7]) ∧ ln_wf (ln_of_digits [2]) ∧
    (ln_of_digits_neg [7]).negative = true ∧ (ln_of_digits [2]).negative = false ∧
    ln_magnitude (ln_of_digits [2]) ≤ ln_magnitude (ln_of_digits_neg [7]) ∧
    (ln_div 40 (some ln_init) (ln_of_digits_neg [7]) (ln_of_digits [2])
        (some ln_init)).map
        (fun p => (p.1.map (fun q => (q.integer, q.negative)),
          p.2.map (fun r => (r.integer, r.negative))))
      = some (some ([3], false), some ([1], false)) := by
  refine ⟨by decide, by decide, rfl, rfl, by decide, ?_⟩
  decide!

/-- C15 as amended: for every negative dividend `n` and positive divisor `d`, both
well formed, with the magnitude of `n` at least that of `d`, and empty outputs,
`ln_div` returns for every fuel from `3 * int_sz n + int_sz d + 130` on, and both
the quotient and the remainder it leaves have the negative flag clear: the
division works on the digits alone and applies no sign rule. -/
theorem ln_div_sign_flags_clear (fuel : Nat) (q0 r0 n d : ln_t) (hn : ln_wf n) (hd : ln_wf d)
    (_hnn : n.negative = true) (hdn : d.negative = false) (hdz : ln_is_zero d = false)
    (_hge : ln_magnitude d ≤ ln_magnitude n) (hq0 : ln_is_empty q0) (_hr0 : ln_is_empty r0)
    (hf : 3 * n.int_sz + d.int_sz + 130 ≤ fuel) :
    ∃ q r, ln_div fuel (some q0) n d (some r0) = some (some q, some r) ∧
      q.negative = false ∧ r.negative = false :=
  ln_div_flags fuel q0 r0 n d hn.1 hd hdz hdn hq0.2 hf

/-- C15 as amended, at -945 / 21 with fuel 150: the hypotheses hold there. -/
theorem ln_div_sign_flags_clear_witness :
    ∃ q r, ln_div 150 (some ln_init) (ln_of_digits_neg [9, 4, 5]) (ln_of_digits [2, 1])
        (some ln_init) = some (some q, some r) ∧ q.negative = false ∧ r.negative = false :=
  ln_div_sign_flags_clear 150 ln_init ln_init (ln_of_digits_neg [9, 4, 5]) (ln_of_digits [2, 1])
    (by decide) (by decide) (by decide) (by decide) (by decide) (by decide) (by decide)
    (by decide) (by decide)

/-! ## Claim on the termination of the long division -/

/-- C16 at negative divisors: for every dividend that holds a digit and every
non-zero divisor with digits in 0..9, no leading zero and the negative flag set,
`ln_div` returns for no fuel at all: the search for the quotient digit never
meets its exit test. -/
theorem ln_div_negative_divisor (fuel : Nat) (q r : Option ln_t) (n d : ln_t)
    (hn : n.integer ≠ []) (hd : ln_wf d) (hdz : ln_is_zero d = false)
    (hdn : d.negative = true) : ln_div fuel q n d r = none := by
  obtain ⟨x, xs, hx, hx1⟩ := ln_head_of_wf_nonzero d hd hdz
  have hc : ln_canonical d := ⟨hd.1, by rw [hx]; simp; omega⟩
  have hne : d.integer ≠ [] := by rw [hx]; simp
  unfold ln_div
  rw [hdz]
  simp only [Bool.false_eq_true, if_false]
  rw [ln_div_loop_negative_none n d hc hne hdn fuel _
    (by
      show 0 < n.integer.length
      exact List.length_pos.mpr hn)
    rfl]

/-- C16 at the failing input 1 / (-1): the hypotheses hold and `ln_div` returns
nothing with fuel 1000. -/
theorem ln_div_negative_divisor_witness :
    ln_div 1000 (some ln_init) (ln_of_digits [1]) (ln_of_digits_neg [1]) (some ln_init) = none :=
  ln_div_negative_divisor 1000 (some ln_init) (some ln_init) (ln_of_digits [1])
    (ln_of_digits_neg [1]) (by decide) (by decide) (by decide) (by decide)
